import Mathlib

/-!
# Memory manager (`algorithms/memory_manager/memory_namager.cpp`)

A shallow embedding of the simulated memory allocator and of the heap class it is
built on, followed by the properties proved about them.  The embedding of the second
program of the repository, `algorithms/football_team/football_team.cpp`, comes after the
definitions for the memory manager, the theorems about it after those about the memory
manager.

Conventions of the embedding.

* A `std::list<MemoryPart>` node is named by its address, a natural number.  The
  contents of the nodes are kept in `nodes : Nat → MemoryPart`, the order of the list in
  `memoryParts_ : List Nat`.  A `MemoryPartIterator` is an address; the past-the-end
  iterator is `none` where an iterator may be `end()`.
* `erase` removes the address from `memoryParts_`; the contents of the node stay in
  `nodes` (the node is not handed out again: new nodes take the address `fresh`).
  Reading or writing through the iterator of an erased node is undefined in C++; the
  embedding reads and writes the kept contents.  By the invariant `Inv` no state reached
  with requests `allocate n`, `1 ≤ n`, and `revoke` keeps such an iterator in the heap or
  in the history.
* `int` values are `Int`; the sizes and offsets the program computes stay between the
  values it was given, so no `int` operation wraps.  `unsigned int` request numbers are
  `Nat`: the drivers count the requests with an `int`, so fewer than `2^32` requests are
  processed and `++requestsCount` never wraps.
* `Heap::top` and `Heap::pop` throw `EmptyHeapException`; they return `Except`.
-/

set_option autoImplicit false

namespace MemoryManagerModel

/-! ## Data model -/

/-- Constant `OUT_OF_HEAP` of the source. -/
def OUT_OF_HEAP : Int := -1

/-- Constant `FAIL_CODE` of the source. -/
def FAIL_CODE : Int := -1

/-- Enumeration `MemoryState` of the source. -/
inductive MemoryState where
  | IS_FREE
  | IS_OCCUPIED
  deriving DecidableEq

open MemoryState

/-- Structure `MemoryPart` of the source. -/
structure MemoryPart where
  size : Int
  offset : Int
  index : Int
  state : MemoryState
  deriving DecidableEq

/-- The default constructor `MemoryPart()`: `index(OUT_OF_HEAP), state(IS_FREE)`; the two
fields it leaves uninitialised are `0` here. -/
instance : Inhabited MemoryPart := ⟨⟨0, 0, OUT_OF_HEAP, IS_FREE⟩⟩

/-- The exceptions of the source that the embedded code can throw. -/
inductive HeapException where
  | EmptyHeapException
  deriving DecidableEq

/-! ## The class template `Heap<T, Compare, Swap>`

The template is instantiated with a comparison object and a swap function.  For
`MemoryPartIterator` both reach through the iterators into the list nodes, so the
operations of the heap thread a memory `σ` along with the vector `elements_`. -/

/-- The template arguments `Compare` and `Swap` of `Heap`, over a memory `σ`.  `Swap`
returns the new memory and the new values of its two reference arguments. -/
structure HeapOps (σ T : Type) where
  compare : σ → T → T → Bool
  Swap : σ → T → T → σ × T × T

section Heap

variable {σ T : Type} [Inhabited T]

/-- Call `elements_.at(i)`.  The source only calls it with `i` in range; out of range
(where `at` throws) the value here is `default`. -/
def Heap.elemAt (xs : List T) (i : Nat) : T := xs.getD i default

/-- Call `Swap(elements_.at(i), elements_.at(j))`. -/
def Heap.swapAt (ops : HeapOps σ T) (m : σ) (xs : List T) (i j : Nat) : σ × List T :=
  let r := ops.Swap m (Heap.elemAt xs i) (Heap.elemAt xs j)
  (r.1, (xs.set i r.2.1).set j r.2.2)

/-- The `while` loop of `Heap::siftUp`; the first argument bounds the number of
iterations.  It returns the memory, the vector and the final `position`. -/
def Heap.siftUpLoop (ops : HeapOps σ T) : Nat → σ → List T → Nat → σ × List T × Nat
  | 0, m, xs, position => (m, xs, position)
  | fuel + 1, m, xs, position =>
    let parent := (position - 1) / 2
    if ops.compare m (Heap.elemAt xs position) (Heap.elemAt xs parent) then
      let r := Heap.swapAt ops m xs position parent
      Heap.siftUpLoop ops fuel r.1 r.2 parent
    else (m, xs, position)

/-- Method `Heap::siftUp`.  Every iteration but the last moves `position` to its parent, so
`position + 1` iterations are enough. -/
def Heap.siftUp (ops : HeapOps σ T) (m : σ) (xs : List T) (position : Nat) :
    σ × List T × Nat :=
  Heap.siftUpLoop ops (position + 1) m xs position

/-- The `for` loop of `Heap::siftDown`, `iter` iterations. -/
def Heap.siftDownLoop (ops : HeapOps σ T) : Nat → σ → List T → Nat → σ × List T × Nat
  | 0, m, xs, position => (m, xs, position)
  | iter + 1, m, xs, position =>
    let leftChild := position * 2 + 1
    let rightChild := position * 2 + 2
    let largestChild₁ :=
      if leftChild < xs.length ∧
          ops.compare m (Heap.elemAt xs leftChild) (Heap.elemAt xs position) = true
      then leftChild else position
    let largestChild :=
      if rightChild < xs.length ∧
          ops.compare m (Heap.elemAt xs rightChild) (Heap.elemAt xs largestChild₁) = true
      then rightChild else largestChild₁
    if largestChild = position then (m, xs, position)
    else
      let r := Heap.swapAt ops m xs position largestChild
      Heap.siftDownLoop ops iter r.1 r.2 largestChild

/-- Method `Heap::siftDown`: the loop runs `elements_.size() / 2` times at most. -/
def Heap.siftDown (ops : HeapOps σ T) (m : σ) (xs : List T) (position : Nat) :
    σ × List T × Nat :=
  Heap.siftDownLoop ops (xs.length / 2) m xs position

/-- Method `Heap::updateHeap`: `siftUp(position); siftDown(position);` where `position`
is passed by reference, so `siftDown` starts where `siftUp` stopped. -/
def Heap.updateHeap (ops : HeapOps σ T) (m : σ) (xs : List T) (position : Nat) :
    σ × List T :=
  let u := Heap.siftUp ops m xs position
  let d := Heap.siftDown ops u.1 u.2.1 u.2.2
  (d.1, d.2.1)

/-- Method `Heap::remove`.  The comparison `position >= size()` is made in `size_t`, where
a negative `position` is larger than every size. -/
def Heap.remove (ops : HeapOps σ T) (m : σ) (xs : List T) (position : Int) : σ × List T :=
  if xs.isEmpty then (m, xs)
  else if position ≥ xs.length ∨ position < 0 then (m, xs)
  else if position = (xs.length : Int) - 1 then (m, xs.dropLast)
  else
    let r := Heap.swapAt ops m xs position.toNat (xs.length - 1)
    let ys := r.2.dropLast
    if ys.isEmpty then (r.1, ys) else Heap.updateHeap ops r.1 ys position.toNat

/-- Method `Heap::top`. -/
def Heap.top (xs : List T) : Except HeapException T :=
  match xs with
  | [] => .error .EmptyHeapException
  | x :: _ => .ok x

/-- Method `Heap::pop`. -/
def Heap.pop (ops : HeapOps σ T) (m : σ) (xs : List T) : Except HeapException (σ × List T) :=
  if xs.isEmpty then .error .EmptyHeapException else .ok (Heap.remove ops m xs 0)

/-- Method `Heap::insert`. -/
def Heap.insert (ops : HeapOps σ T) (m : σ) (xs : List T) (elem : T) : σ × List T :=
  let ys := xs ++ [elem]
  Heap.updateHeap ops m ys (ys.length - 1)

/-- The `for` loop of the constructor `Heap(const vector<T>&)`, with `i + 1` iterations
left: `siftDown(i)`, then the iterations for `i - 1`, ..., `0`. -/
def Heap.constructLoop (ops : HeapOps σ T) :
    Nat → σ → List T → σ × List T
  | 0, m, xs => (m, xs)
  | i + 1, m, xs =>
    let d := Heap.siftDown ops m xs i
    Heap.constructLoop ops i d.1 d.2.1

/-- Constructor `Heap(const vector<T>& elements)`: the vector is copied and `siftDown(i)`
is called for `i` from `elements_.size() / 2` down to `0`. -/
def Heap.new (ops : HeapOps σ T) (m : σ) (elements : List T) :
    σ × List T :=
  Heap.constructLoop ops (elements.length / 2 + 1) m elements

end Heap

/-! ## The instantiation `Heap<int>` -/

/-- Function object `greater<int>`, the default for the template argument `Compare`. -/
def greater (a b : Int) : Bool := decide (a > b)

/-! ## The instantiation for `MemoryPartIterator` -/

/-- The memory the iterators point into: the contents of the list nodes by address. -/
abbrev Nodes := Nat → MemoryPart

/-- Function object `CompareMemoryPartsBySize`. -/
def CompareMemoryPartsBySize (m : Nodes) (left right : Nat) : Bool :=
  if (m left).size = (m right).size then decide ((m left).offset < (m right).offset)
  else decide ((m left).size > (m right).size)

/-- Function `SwapMemoryPartIterators`. -/
def SwapMemoryPartIterators (m : Nodes) (first second : Nat) : Nodes × Nat × Nat :=
  if (m first).index = (m second).index then (m, first, second)
  else
    let i := (m first).index
    let j := (m second).index
    let m₁ := Function.update m first { m first with index := j }
    let m₂ := Function.update m₁ second { m₁ second with index := i }
    (m₂, second, first)

/-- The template arguments of `Heap<MemoryPartIterator, CompareMemoryPartsBySize,
SwapMemoryPartIterators>`. -/
def partOps : HeapOps Nodes Nat := ⟨CompareMemoryPartsBySize, SwapMemoryPartIterators⟩

/-- Class `Operation` of the source. -/
structure Operation where
  id : Nat
  part : Nat
  deriving DecidableEq, Inhabited

/-- Class `MemoryManager`: its four data members, the contents of the list nodes and the
address the next new node gets. -/
structure MemoryManager where
  nodes : Nodes
  fresh : Nat
  operationsHistory_ : List Operation
  memoryParts_ : List Nat
  freeMemory_ : List Nat
  requestsCount : Nat


namespace MemoryManager

/-! ### Iterator operations on `memoryParts_` -/

/-- Iterator `next(part)`: the address after `part` in the list, `none` for `end()`. -/
def nextOf : List Nat → Nat → Option Nat
  | [], _ => none
  | [_], _ => none
  | a :: b :: rest, part => if a = part then some b else nextOf (b :: rest) part

/-- Iterator `--prev`: the address before `part` in the list.  Decrementing `begin()` is
undefined in the source; here it gives `part` back. -/
def prevOf : List Nat → Nat → Nat
  | [], part => part
  | [_], part => part
  | a :: b :: rest, part => if b = part then a else prevOf (b :: rest) part

/-- Call `memoryParts_.insert(position, value)`: the new node `node` is linked in
before `position`. -/
def insertBefore : List Nat → Nat → Nat → List Nat
  | [], _, node => [node]
  | a :: rest, position, node =>
    if a = position then node :: a :: rest else a :: insertBefore rest position node

/-- Assignment through an iterator to the field `index`. -/
def setIndex (m : Nodes) (part : Nat) (v : Int) : Nodes :=
  Function.update m part { m part with index := v }

/-- Assignment through an iterator to the field `state`. -/
def setState (m : Nodes) (part : Nat) (v : MemoryState) : Nodes :=
  Function.update m part { m part with state := v }

/-- Assignment through an iterator to the field `size`. -/
def setSize (m : Nodes) (part : Nat) (v : Int) : Nodes :=
  Function.update m part { m part with size := v }

/-- Assignment through an iterator to the field `offset`. -/
def setOffset (m : Nodes) (part : Nat) (v : Int) : Nodes :=
  Function.update m part { m part with offset := v }

/-- Constructor `MemoryManager(int memorySize)`.  The first node gets the address `0`. -/
def new (memorySize : Int) : MemoryManager :=
  let allMemory : MemoryPart := ⟨memorySize, 1, 0, IS_FREE⟩
  let nodes : Nodes := Function.update (fun _ => default) 0 allMemory
  let h := Heap.insert partOps nodes [] 0
  { nodes := h.1
    fresh := 1
    operationsHistory_ := []
    memoryParts_ := [0]
    freeMemory_ := h.2
    requestsCount := 0 }

/-- The `while` loop of `findOperationById` on the bounds `left` and `right`; the first
argument bounds the number of iterations.  `none` is `operationsHistory_.end()`. -/
def findLoop (history : List Operation) (id : Nat) : Nat → Int → Int → Option Nat
  | 0, _, _ => none
  | fuel + 1, left, right =>
    if left ≤ right then
      let mid := left + (right - left) / 2
      if (history.getD mid.toNat default).id = id then some mid.toNat
      else if (history.getD mid.toNat default).id > id then
        findLoop history id fuel left (mid - 1)
      else findLoop history id fuel (mid + 1) right
    else none

/-- Method `MemoryManager::findOperationById`.  Every iteration shrinks `right - left`, so
`size() + 1` iterations are enough. -/
def findOperationById (st : MemoryManager) (id : Nat) : Option Nat :=
  findLoop st.operationsHistory_ id (st.operationsHistory_.length + 1) 0
    ((st.operationsHistory_.length : Int) - 1)

/-- Method `MemoryManager::merge`. -/
def merge (st : MemoryManager) (first : Nat) (second : Option Nat) : MemoryManager × Bool :=
  match second with
  | none => (st, false)
  | some second =>
    if st.memoryParts_.head? = some second then (st, false)
    else if (st.nodes first).state = IS_FREE ∧ (st.nodes second).state = IS_FREE then
      let r₁ := Heap.remove partOps st.nodes st.freeMemory_ (st.nodes first).index
      let r₂ := Heap.remove partOps r₁.1 r₁.2 (r₁.1 second).index
      let m₁ := setIndex r₂.1 first OUT_OF_HEAP
      let m₂ := setIndex m₁ second OUT_OF_HEAP
      let m₃ := setSize m₂ first ((m₂ first).size + (m₂ second).size)
      ({ st with
          nodes := m₃
          freeMemory_ := r₂.2
          memoryParts_ := st.memoryParts_.erase second }, true)
    else (st, false)

/-- The two statements `part->index = freeMemory_.size(); freeMemory_.insert(part);`. -/
def insertFree (st : MemoryManager) (part : Nat) : MemoryManager :=
  let m := setIndex st.nodes part st.freeMemory_.length
  let h := Heap.insert partOps m st.freeMemory_ part
  { st with nodes := h.1, freeMemory_ := h.2 }

/-- Method `MemoryManager::revoke`. -/
def revoke (st : MemoryManager) (requestNumber : Nat) : MemoryManager :=
  let st := { st with requestsCount := st.requestsCount + 1 }
  match findOperationById st requestNumber with
  | none => st
  | some operationForRevoke =>
    let part := (st.operationsHistory_.getD operationForRevoke default).part
    let st := { st with nodes := setState st.nodes part IS_FREE }
    let st := (merge st part (nextOf st.memoryParts_ part)).1
    let prev := if (st.nodes part).offset ≠ 1 then prevOf st.memoryParts_ part else part
    let r := merge st prev (some part)
    let st := if r.2 then insertFree r.1 prev else insertFree r.1 part
    { st with operationsHistory_ := st.operationsHistory_.eraseIdx operationForRevoke }

/-- Method `MemoryManager::allocate`. -/
def allocate (st : MemoryManager) (requestedMemorySize : Int) :
    Except HeapException (MemoryManager × Int) := do
  let st := { st with requestsCount := st.requestsCount + 1 }
  if st.freeMemory_.isEmpty then
    return (st, FAIL_CODE)
  let maxSizeMemoryPart ← Heap.top st.freeMemory_
  if (st.nodes maxSizeMemoryPart).size < requestedMemorySize then
    return (st, FAIL_CODE)
  let h ← Heap.pop partOps st.nodes st.freeMemory_
  let st := { st with nodes := h.1, freeMemory_ := h.2 }
  let firstFreeCell := (st.nodes maxSizeMemoryPart).offset
  if (st.nodes maxSizeMemoryPart).size > requestedMemorySize then
    let newMemoryPart : MemoryPart :=
      ⟨requestedMemorySize, (st.nodes maxSizeMemoryPart).offset, OUT_OF_HEAP, IS_OCCUPIED⟩
    let m₁ := setOffset st.nodes maxSizeMemoryPart
      ((st.nodes maxSizeMemoryPart).offset + requestedMemorySize)
    let m₂ := setSize m₁ maxSizeMemoryPart ((m₁ maxSizeMemoryPart).size - requestedMemorySize)
    let m₃ := setIndex m₂ maxSizeMemoryPart st.freeMemory_.length
    let node := st.fresh
    let m₄ := Function.update m₃ node newMemoryPart
    let parts := insertBefore st.memoryParts_ maxSizeMemoryPart node
    let h := Heap.insert partOps m₄ st.freeMemory_ maxSizeMemoryPart
    let st := { st with nodes := h.1, freeMemory_ := h.2, memoryParts_ := parts,
                        fresh := node + 1 }
    return ({ st with
      operationsHistory_ := st.operationsHistory_ ++ [⟨st.requestsCount, node⟩] },
      firstFreeCell)
  else
    let st := { st with nodes := setState st.nodes maxSizeMemoryPart IS_OCCUPIED }
    return ({ st with
      operationsHistory_ := st.operationsHistory_ ++ [⟨st.requestsCount, maxSizeMemoryPart⟩] },
      firstFreeCell)

end MemoryManager

/-! ## Requests -/

/-- Classes `AllocationRequest` and `RevocationRequest`.  `readInput` builds a revocation
from `-rawRequest` for a negative `rawRequest`, a positive number, which the conversions
to `size_t` and `unsigned int` leave as it is. -/
inductive Request where
  | AllocationRequest (size : Int)
  | RevocationRequest (operationForRevoke : Nat)
  deriving DecidableEq

/-- Function `readInput`, on the number read from the stream. -/
def readInput (rawRequest : Int) : Request :=
  if rawRequest ≥ 0 then .AllocationRequest rawRequest
  else .RevocationRequest (-rawRequest).toNat

/-- Function `processRequest`; the result is `none` for a revocation, for which the
source returns nothing that is used. -/
def processRequest (memoryManager : MemoryManager) :
    Request → Except HeapException (MemoryManager × Option Int)
  | .AllocationRequest size => do
    let r ← memoryManager.allocate size
    return (r.1, some r.2)
  | .RevocationRequest operationForRevoke =>
    return (memoryManager.revoke operationForRevoke, none)

/-- The request loop of `main` and of `TestMemoryManage`: the requests are processed in
order and the results of the allocations are collected. -/
def processAll (memoryManager : MemoryManager) :
    List Request → Except HeapException (MemoryManager × List Int)
  | [] => return (memoryManager, [])
  | request :: rest => do
    let r ← processRequest memoryManager request
    let s ← processAll r.1 rest
    return (s.1, match r.2 with
      | some result => result :: s.2
      | none => s.2)

/-- Function `TestMemoryManage` up to its final comparison: a manager of the given size
processes the raw requests. -/
def runRequests (size : Int) (rawRequests : List Int) :
    Except HeapException (MemoryManager × List Int) :=
  processAll (MemoryManager.new size) (rawRequests.map readInput)


/-! ## Definitions used in the statements and proofs -/

/-- The vector `xs` with the elements at `i` and `j` exchanged. -/
def swapIdx {T : Type} [Inhabited T] (xs : List T) (i j : Nat) : List T :=
  (xs.set i (Heap.elemAt xs j)).set j (Heap.elemAt xs i)

/-- The template arguments of a heap whose comparison and swap reach into no memory:
a comparison `c` on the elements themselves and `std::swap`. -/
def pureOps {T : Type} (c : T → T → Bool) : HeapOps Unit T :=
  ⟨fun _ => c, fun _ a b => ((), b, a)⟩

/-- Heap order of the vector `xs` under the comparison `c`: no element compares before
its parent, the element at `(i - 1) / 2`. -/
def IsHeap {T : Type} [Inhabited T] (c : T → T → Bool) (xs : List T) : Prop :=
  ∀ i, 0 < i → i < xs.length → c (Heap.elemAt xs i) (Heap.elemAt xs ((i - 1) / 2)) = false

/-- The comparison `c` is a strict weak ordering. -/
structure StrictWeak {T : Type} (c : T → T → Bool) : Prop where
  asymm : ∀ a b, c a b = true → c b a = false
  negtrans : ∀ a b d, c a b = false → c b d = false → c a d = false

/-- Heap order everywhere but on the edges that touch `pos`, whose children moreover do not
compare before the parent of `pos`. -/
def HoleInv {T : Type} [Inhabited T] (c : T → T → Bool) (xs : List T) (pos : Nat) : Prop :=
  (∀ i, 0 < i → i < xs.length → i ≠ pos → (i - 1) / 2 ≠ pos →
      c (Heap.elemAt xs i) (Heap.elemAt xs ((i - 1) / 2)) = false) ∧
  (∀ i, 0 < i → i < xs.length → (i - 1) / 2 = pos → 0 < pos →
      c (Heap.elemAt xs i) (Heap.elemAt xs ((pos - 1) / 2)) = false)

/-- Heap order everywhere but on the edges from `pos` to its children, which moreover do
not compare before the parent of `pos`. -/
def DownInv {T : Type} [Inhabited T] (c : T → T → Bool) (xs : List T) (pos : Nat) : Prop :=
  (∀ i, 0 < i → i < xs.length → (i - 1) / 2 ≠ pos →
      c (Heap.elemAt xs i) (Heap.elemAt xs ((i - 1) / 2)) = false) ∧
  (∀ i, 0 < i → i < xs.length → (i - 1) / 2 = pos → 0 < pos →
      c (Heap.elemAt xs i) (Heap.elemAt xs ((pos - 1) / 2)) = false)

/-- What the proofs about a heap with memory need from its template arguments: on
memories and vectors that are `Good`, `Swap` exchanges its two arguments, keeps the memory
`Good` and changes it only within `Frame`, which no comparison can see. -/
structure HeapLaws {σ T : Type} [Inhabited T] (ops : HeapOps σ T) (Good : σ → List T → Prop)
    (Frame : σ → σ → Prop) : Prop where
  frame_refl : ∀ m, Frame m m
  frame_trans : ∀ m₁ m₂ m₃, Frame m₁ m₂ → Frame m₂ m₃ → Frame m₁ m₃
  compare_frame : ∀ m m', Frame m m' → ops.compare m' = ops.compare m
  strict : ∀ m, StrictWeak (ops.compare m)
  swap : ∀ m xs i j, Good m xs → i < xs.length → j < xs.length → i ≠ j →
    (ops.Swap m (Heap.elemAt xs i) (Heap.elemAt xs j)).2 = (Heap.elemAt xs j, Heap.elemAt xs i) ∧
    Good (ops.Swap m (Heap.elemAt xs i) (Heap.elemAt xs j)).1 (swapIdx xs i j) ∧
    Frame m (ops.Swap m (Heap.elemAt xs i) (Heap.elemAt xs j)).1
  dropLast : ∀ m xs, Good m xs → Good m xs.dropLast

/-- Every iterator of the heap vector `xs` points to a node that records its own
position, and no node is pointed to twice. -/
def HeapIdx (m : Nodes) (xs : List Nat) : Prop :=
  xs.Nodup ∧ ∀ p, p < xs.length → (m (Heap.elemAt xs p)).index = (p : Int)

/-- Memories `m` and `m'` hold the same regions: they differ at most in the fields
`index`. -/
def SameRegions (m m' : Nodes) : Prop :=
  ∀ h, (m' h).size = (m h).size ∧ (m' h).offset = (m h).offset ∧ (m' h).state = (m h).state

/-- The regions `parts`, read in list order, lie end to end: the first starts at `start`,
each later one starts where the one before it ends, and the last ends just before
`stop`. -/
def ChainFrom (m : Nodes) : Int → List Nat → Int → Prop
  | start, [], stop => start = stop
  | start, h :: rest, stop => (m h).offset = start ∧ ChainFrom m (start + (m h).size) rest stop

/-- The property `ChainFrom` can be computed. -/
instance ChainFrom.decide (m : Nodes) : ∀ (parts : List Nat) (start stop : Int),
    Decidable (ChainFrom m start parts stop)
  | [], start, stop => inferInstanceAs (Decidable (start = stop))
  | h :: rest, start, stop =>
    @instDecidableAnd _ _ _ (ChainFrom.decide m rest (start + (m h).size) stop)

/-- The regions of the list tile the address space `[1, totalSize]`: the first region has
offset `1`, each later region starts where the one before it ends, and the last region
ends at `totalSize`. -/
def Tiles (totalSize : Int) (st : MemoryManager) : Prop :=
  st.memoryParts_ ≠ [] ∧ ChainFrom st.nodes 1 st.memoryParts_ (totalSize + 1)

/-- The property `Tiles` can be computed. -/
instance Tiles.decide (totalSize : Int) (st : MemoryManager) : Decidable (Tiles totalSize st) :=
  inferInstanceAs (Decidable (_ ∧ _))

/-- The part of the state invariant about the region list. -/
structure ListOk (totalSize : Int) (m : Nodes) (parts : List Nat) (fresh : Nat) : Prop where
  nodup : parts.Nodup
  ne_nil : parts ≠ []
  lt_fresh : ∀ h ∈ parts, h < fresh
  chain : ChainFrom m 1 parts (totalSize + 1)
  sizes : parts.length = 1 ∨ ∀ h ∈ parts, 1 ≤ (m h).size

/-- The part of the state invariant about the heap of free regions. -/
structure HeapOk (m : Nodes) (parts heap : List Nat) : Prop where
  idx : HeapIdx m heap
  order : IsHeap (CompareMemoryPartsBySize m) heap
  free : ∀ h ∈ heap, h ∈ parts ∧ (m h).state = IS_FREE

/-- The part of the state invariant about the history of allocations. -/
structure HistOk (m : Nodes) (parts : List Nat) (history : List Operation) (count : Nat) :
    Prop where
  sorted : history.Pairwise (fun a b => a.id < b.id)
  bound : ∀ r ∈ history, r.id ≤ count
  nodup : (history.map (·.part)).Nodup
  occupied : ∀ r ∈ history, r.part ∈ parts ∧ (m r.part).state = IS_OCCUPIED
  recorded : ∀ h ∈ parts, (m h).state = IS_OCCUPIED → ∃ r ∈ history, r.part = h

/-- The state invariant of a `MemoryManager` of size `totalSize`. -/
structure Inv (totalSize : Int) (st : MemoryManager) : Prop where
  list : ListOk totalSize st.nodes st.memoryParts_ st.fresh
  heap : HeapOk st.nodes st.memoryParts_ st.freeMemory_
  hist : HistOk st.nodes st.memoryParts_ st.operationsHistory_ st.requestsCount

/-- The states a `MemoryManager(totalSize)` reaches by calls `allocate(n)` with `n ≥ 1`
and `revoke(k)`. -/
inductive Reachable (totalSize : Int) : MemoryManager → Prop
  | new : Reachable totalSize (MemoryManager.new totalSize)
  | allocate {st st' : MemoryManager} {n o : Int} : Reachable totalSize st → 1 ≤ n →
      st.allocate n = .ok (st', o) → Reachable totalSize st'
  | revoke {st : MemoryManager} (k : Nat) : Reachable totalSize st →
      Reachable totalSize (st.revoke k)

/-- What the specification calls a region: the size, the offset and the state of a node of
the region list, without the heap position it records. -/
structure Region where
  size : Int
  offset : Int
  state : MemoryState
  deriving DecidableEq

/-- The region a list node holds. -/
def MemoryPart.region (p : MemoryPart) : Region := ⟨p.size, p.offset, p.state⟩

/-- The regions of the region list, in list order. -/
def MemoryManager.regions (st : MemoryManager) : List Region :=
  st.memoryParts_.map (fun h => (st.nodes h).region)

/-- The state `st` in the middle of `revoke` on the state `st0`, for the region `R` of the
revoked record: `M` is the region that holds the freed space so far, `sz` its size. -/
structure FreedAt (T : Int) (st0 st : MemoryManager) (R : Nat) (pre : List Nat) (M : Nat)
    (post : List Nat) (sz : Int) : Prop where
  parts : st.memoryParts_ = pre ++ M :: post
  fresh : st.fresh = st0.fresh
  hist : st.operationsHistory_ = st0.operationsHistory_
  count : st.requestsCount = st0.requestsCount + 1
  others : ∀ x ∈ st.memoryParts_, x ≠ M → (st.nodes x).region = (st0.nodes x).region
  region : (st.nodes M).region = ⟨sz, (st0.nodes M).offset, IS_FREE⟩
  list : ListOk T st.nodes st.memoryParts_ st.fresh
  heap : HeapOk st.nodes st.memoryParts_ st.freeMemory_
  notin : M ∉ st.freeMemory_
  sub : ∀ x ∈ st.memoryParts_, x ∈ st0.memoryParts_
  keeps : ∀ x ∈ st0.memoryParts_, (st0.nodes x).state = IS_OCCUPIED → x ≠ R →
    x ∈ st.memoryParts_
  freed : (st.nodes R).state = IS_FREE

/-- A region of the list is referenced by an element of the free heap if and only if its
state is `IS_FREE`, and no region is referenced by more than one heap element. -/
def FreeIffInHeap (st : MemoryManager) : Prop :=
  (∀ h ∈ st.memoryParts_, h ∈ st.freeMemory_ ↔ (st.nodes h).state = IS_FREE) ∧
    st.freeMemory_.Nodup

/-- The property `FreeIffInHeap` can be computed. -/
instance FreeIffInHeap.decide (st : MemoryManager) : Decidable (FreeIffInHeap st) :=
  inferInstanceAs (Decidable (_ ∧ _))

/-- Some region of the list is free and has `s` cells or more. -/
def HasFreeRegion (st : MemoryManager) (s : Int) : Prop :=
  ∃ h ∈ st.memoryParts_, (st.nodes h).state = IS_FREE ∧ s ≤ (st.nodes h).size

/-- The property `HasFreeRegion` can be computed. -/
instance HasFreeRegion.decide (st : MemoryManager) (s : Int) : Decidable (HasFreeRegion st s) :=
  inferInstanceAs (Decidable (∃ h ∈ st.memoryParts_, _))

/-- A neighbour of the revoked region takes part in the merge when it is free. -/
def freeNeighbour (o : Option Region) : Option Region :=
  o.filter (fun N => decide (N.state = IS_FREE))

/-- The free region that takes the place of the revoked region `R` and of its free
neighbours: it starts at the smallest of their offsets and its size is the sum of their
sizes. -/
def mergedRegion (pre : List Region) (R : Region) (post : List Region) : Region :=
  let group := (freeNeighbour pre.getLast?).toList ++ R :: (freeNeighbour post.head?).toList
  ⟨(group.map Region.size).sum, (group.map Region.offset).foldl min R.offset, IS_FREE⟩

/-- What the specification says `revoke` makes of the region list, on the regions `pre`
before the revoked region `R` and the regions `post` after it: `R`, its successor if that
is free and its predecessor if that is free are replaced by the one region
`mergedRegion`; every other region stays as it is. -/
def coalesce (pre : List Region) (R : Region) (post : List Region) : List Region :=
  (if (freeNeighbour pre.getLast?).isSome then pre.dropLast else pre) ++
    mergedRegion pre R post ::
      (if (freeNeighbour post.head?).isSome then post.tail else post)

/-- The allocation sizes of the requests are `1` or more. -/
def ValidRequest : Request → Prop
  | .AllocationRequest s => 1 ≤ s
  | .RevocationRequest _ => True

/-- The property `ValidRequest` can be computed. -/
instance ValidRequest.decide : ∀ q, Decidable (ValidRequest q)
  | .AllocationRequest s => inferInstanceAs (Decidable (1 ≤ s))
  | .RevocationRequest _ => inferInstanceAs (Decidable True)

/-- The ids of the history are strictly increasing and none is above the counter. -/
def HistOrdered (st : MemoryManager) : Prop :=
  st.operationsHistory_.Pairwise (fun a b => a.id < b.id) ∧
    ∀ r ∈ st.operationsHistory_, r.id ≤ st.requestsCount

/-- The records of the request number `j`, once `j` requests have been processed: every
record under `j` names the region `h`. -/
def RecordOf (j h : Nat) (st : MemoryManager) : Prop :=
  HistOrdered st ∧ j ≤ st.requestsCount ∧
    ∀ r ∈ st.operationsHistory_, r.id = j → r.part = h

/-- The block granted to the request number `j`, in a reachable state: while a record
under `j` is in the history, the region `h` it names is still `R`. -/
def Granted (T : Int) (j h : Nat) (R : Region) (st : MemoryManager) : Prop :=
  Reachable T st ∧ RecordOf j h st ∧
    ((∃ r ∈ st.operationsHistory_, r.id = j) → (st.nodes h).region = R)

/-- No two regions that are neighbours in the list are both free. -/
def NoAdjacentFree (regions : List Region) : Prop :=
  regions.Chain' (fun a b => ¬ (a.state = IS_FREE ∧ b.state = IS_FREE))

/-- The max-heap property of a vector of integers: every element is at most its parent,
the element at `(i - 1) / 2`. -/
def MaxHeap (xs : List Int) : Prop :=
  ∀ i, 1 ≤ i → i < xs.length → Heap.elemAt xs i ≤ Heap.elemAt xs ((i - 1) / 2)

/-- Heap order on the edges whose parent is at `k` or after it. -/
def HeapFrom {T : Type} [Inhabited T] (c : T → T → Bool) (xs : List T) (k : Nat) : Prop :=
  ∀ i, 0 < i → i < xs.length → k ≤ (i - 1) / 2 →
    c (Heap.elemAt xs i) (Heap.elemAt xs ((i - 1) / 2)) = false

/-- Heap order on the edges whose parent is at `k` or after it, but on the edges from
`pos` to its children, which moreover do not compare before the parent of `pos` when that
is at `k` or after it. -/
def DownFrom {T : Type} [Inhabited T] (c : T → T → Bool) (xs : List T) (k pos : Nat) : Prop :=
  (∀ i, 0 < i → i < xs.length → k ≤ (i - 1) / 2 → (i - 1) / 2 ≠ pos →
      c (Heap.elemAt xs i) (Heap.elemAt xs ((i - 1) / 2)) = false) ∧
  (∀ i, 0 < i → i < xs.length → (i - 1) / 2 = pos → 0 < pos → k ≤ (pos - 1) / 2 →
      c (Heap.elemAt xs i) (Heap.elemAt xs ((pos - 1) / 2)) = false)

end MemoryManagerModel

/-!
# The football team (`algorithms/football_team/football_team.cpp`)

Conventions of the embedding.

* A vector is a list; an iterator into the vector `players` is a position, `players.end()`
  is the position `players.length`.  Reading through an iterator at or past the end is
  undefined in C++; the functions that do so return `none`.
* A `long long` efficiency is an `Int` from `-2^63` to `2^63 - 1`.  An addition or a
  subtraction of `long long` values whose result leaves that range is undefined in C++; it
  goes through `longLong`, and the function returns `none`.  `ReadInput` reads each
  efficiency as an `int` and counts the players with an `int`, so on its input no sum leaves
  the range (`totalEfficiency_of_int_input`).
* `unsigned int` ids are `Nat`; where the source converts one to `int`, so does
  `unsignedToInt`.
* `Sort` is a reserved word here, the function template `Sort` is `sort`.  The recursion of
  `Sort` and the loops run on a bound and return `none` when it is used up, which the
  theorems show never to happen.
-/

namespace FootballTeamModel

/-- Structure `Player` of the source.  The field `efficiency` is a `long long`, a value
from `-2^63` to `2^63 - 1`; the field `id` is an `unsigned int`. -/
structure Player where
  efficiency : Int
  id : Nat
  deriving DecidableEq, Inhabited

/-- The value of a `long long` addition or subtraction whose exact result is `value`: the
result itself when it lies between `-2^63` and `2^63 - 1`; otherwise the operation
overflows, which is undefined in C++, and there is no value. -/
def longLong (value : Int) : Option Int :=
  if -(2 ^ 63) ≤ value ∧ value < 2 ^ 63 then some value else none

/-- Function `CompareByEfficiency`. -/
def CompareByEfficiency (first second : Player) : Bool :=
  if first.efficiency ≠ second.efficiency then
    decide (first.efficiency < second.efficiency)
  else decide (first.id < second.id)

/-- Function `CompareById`. -/
def CompareById (first second : Player) : Bool :=
  if first.id ≠ second.id then decide (first.id < second.id)
  else decide (first.efficiency < second.efficiency)

/-- Function object `less<>` on `int`. -/
def less (a b : Int) : Bool := decide (a < b)

/-- The `while` loop of `Merge` on what is left of `firstPart` and `secondPart`; the
result is what the loop and the final `copy` write from `begin` on.  The first argument
bounds the number of iterations. -/
def MergeLoop {α : Type} (cmp : α → α → Bool) : Nat → List α → List α → Option (List α)
  | 0, _, _ => none
  | _ + 1, [], secondPart => some secondPart
  | _ + 1, x :: firstPart, [] => some (x :: firstPart)
  | fuel + 1, x :: firstPart, y :: secondPart =>
    if cmp y x then (MergeLoop cmp fuel (x :: firstPart) secondPart).map (y :: ·)
    else (MergeLoop cmp fuel firstPart (y :: secondPart)).map (x :: ·)

/-- Function template `Merge`, on the copies `firstPart` of `[begin, pivot)` and
`secondPart` of `[pivot, end)`; the result is the new content of `[begin, end)`.  Every
iteration but the last writes one element. -/
def Merge {α : Type} (cmp : α → α → Bool) (firstPart secondPart : List α) : Option (List α) :=
  MergeLoop cmp (firstPart.length + secondPart.length + 1) firstPart secondPart

/-- The recursion of `Sort` on the content of `[begin, end)`; the first argument bounds
its depth. -/
def sortLoop {α : Type} (cmp : α → α → Bool) : Nat → List α → Option (List α)
  | 0, _ => none
  | depth + 1, elements =>
    if elements.length < 2 then some elements
    else
      let middle := elements.length / 2
      match sortLoop cmp depth (elements.take middle),
          sortLoop cmp depth (elements.drop middle) with
      | some firstPart, some secondPart => Merge cmp firstPart secondPart
      | _, _ => none

/-- Function template `Sort`; the result is the new content of `[begin, end)`.  Every
call on two elements or more halves the interval. -/
def sort {α : Type} (cmp : α → α → Bool) (elements : List α) : Option (List α) :=
  sortLoop cmp (elements.length + 1) elements

/-- Class `TeamInterval<PlayerIterator>`: the iterators are positions in the vector they
point into; `efficiency_` is a `long long`, and the methods that compute it go through
`longLong`. -/
structure TeamInterval where
  first_ : Nat
  last_ : Nat
  efficiency_ : Int
  deriving DecidableEq

/-- The loop of `TeamInterval::calculate_efficiency_` with `count` elements to go from
the position `it`. -/
def TeamInterval.calculateLoop (players : List Player) : Nat → Nat → Int → Option Int
  | 0, _, efficiency => some efficiency
  | count + 1, it, efficiency =>
    match players[it]? with
    | none => none
    | some player =>
      match longLong (efficiency + player.efficiency) with
      | none => none
      | some efficiency => calculateLoop players count (it + 1) efficiency

/-- Method `TeamInterval::calculate_efficiency_`: the sum over `[first_, end())`, where
`end()` is `next(last_)`. -/
def TeamInterval.calculate_efficiency_ (players : List Player) (first_ last_ : Nat) :
    Option Int :=
  if first_ ≤ last_ + 1 then TeamInterval.calculateLoop players (last_ + 1 - first_) first_ 0
  else none

/-- Constructor `TeamInterval(first, last)`. -/
def TeamInterval.new (players : List Player) (first last : Nat) : Option TeamInterval :=
  (TeamInterval.calculate_efficiency_ players first last).map (fun e => ⟨first, last, e⟩)

/-- Method `TeamInterval::shift_first`. -/
def TeamInterval.shift_first (players : List Player) (t : TeamInterval) :
    Option TeamInterval :=
  match players[t.first_]? with
  | none => none
  | some player =>
    (longLong (t.efficiency_ - player.efficiency)).map fun efficiency =>
      { t with efficiency_ := efficiency, first_ := t.first_ + 1 }

/-- Method `TeamInterval::shift_last`. -/
def TeamInterval.shift_last (players : List Player) (t : TeamInterval) :
    Option TeamInterval :=
  match players[t.last_ + 1]? with
  | none => none
  | some player =>
    (longLong (t.efficiency_ + player.efficiency)).map fun efficiency =>
      { t with last_ := t.last_ + 1, efficiency_ := efficiency }

/-- Class `Team`; `efficiency_` is a `long long`, copied from the interval. -/
structure Team where
  efficiency_ : Int
  players_ : List Player
  deriving DecidableEq

/-- Constructor `Team(const TeamInterval<PlayerIterator>&)`: the players of
`[first(), end())`, sorted with `CompareById`. -/
def Team.new (players : List Player) (playersInterval : TeamInterval) : Option Team :=
  if playersInterval.first_ ≤ playersInterval.last_ + 1 ∧
      playersInterval.last_ + 1 ≤ players.length then
    (sort CompareById ((players.drop playersInterval.first_).take
      (playersInterval.last_ + 1 - playersInterval.first_))).map
      fun sorted => ⟨playersInterval.efficiency_, sorted⟩
  else none

/-- Method `Team::efficiency`. -/
def Team.efficiency (team : Team) : Int := team.efficiency_

/-- The conversion of an `unsigned int` to `int` in the assignment
`ids[i] = players_[i].id`: a value below `2^31` is kept, a value from `2^31` on does not
fit and becomes the value `2^32` less (the rule of C++20, and what the compilers did
before it). -/
def unsignedToInt (value : Nat) : Int :=
  if value < 2 ^ 31 then (value : Int) else (value : Int) - 2 ^ 32

/-- Method `Team::playersIds`: the ids of `players_`, in the order of `players_`, each
converted to `int`. -/
def Team.playersIds (team : Team) : List Int :=
  team.players_.map (fun p => unsignedToInt p.id)

/-- The inner `while` loop of `buildMaxEfficiencyTeam`; the first argument bounds the
number of iterations. -/
def shiftFirstLoop (players : List Player) : Nat → TeamInterval → Option TeamInterval
  | 0, _ => none
  | fuel + 1, currentInterval =>
    match players[currentInterval.first_]?, players[currentInterval.first_ + 1]?,
        players[currentInterval.last_]? with
    | some first, some second, some last =>
      match longLong (first.efficiency + second.efficiency) with
      | none => none
      | some firstTwo =>
        if firstTwo < last.efficiency then
          match currentInterval.shift_first players with
          | some shifted => shiftFirstLoop players fuel shifted
          | none => none
        else some currentInterval
    | _, _, _ => none

/-- The outer `while` loop of `buildMaxEfficiencyTeam`; the first argument bounds the
number of iterations.  The result is the final `bestInterval`. -/
def buildLoop (players : List Player) : Nat → TeamInterval → TeamInterval → Option TeamInterval
  | 0, _, _ => none
  | fuel + 1, currentInterval, bestInterval =>
    if currentInterval.last_ = players.length - 1 then some bestInterval
    else
      match currentInterval.shift_last players with
      | none => none
      | some extended =>
        match shiftFirstLoop players players.length extended with
        | none => none
        | some currentInterval =>
          buildLoop players fuel currentInterval
            (if currentInterval.efficiency_ > bestInterval.efficiency_ then currentInterval
              else bestInterval)

/-- Function `buildMaxEfficiencyTeam`.  Every iteration of the inner loop moves `first_`
and every iteration of the outer loop moves `last_`, so `players.size()` iterations are
enough for each. -/
def buildMaxEfficiencyTeam (players : List Player) : Option Team := do
  let players ← sort CompareByEfficiency players
  let currentInterval ← TeamInterval.new players 0 0
  let bestInterval ← TeamInterval.new players 0 0
  let bestInterval ← buildLoop players players.length currentInterval bestInterval
  Team.new players bestInterval

/-- Function `TestTeamCreate` up to its final comparison: the player `i + 1` gets the
efficiency `input[i]`. -/
def TestTeamCreate (input : List Int) : Option (List Int) :=
  (buildMaxEfficiencyTeam (input.enum.map fun e => ⟨e.2, e.1 + 1⟩)).map Team.playersIds

/-- The list is in order under `cmp`: no element compares before an earlier one. -/
def InOrder {α : Type} (cmp : α → α → Bool) (l : List α) : Prop :=
  l.Pairwise (fun a b => cmp b a = false)

/-- The comparison `cmp` is a strict total order: a strict weak ordering in which two
elements that do not compare either way are equal. -/
def TotalOrder {α : Type} (cmp : α → α → Bool) : Prop :=
  MemoryManagerModel.StrictWeak cmp ∧ ∀ a b, cmp a b = false → cmp b a = false → a = b

/-- The sum of the efficiencies of the players of `team`. -/
def totalEfficiency (team : List Player) : Int := (team.map (·.efficiency)).sum

/-- No member's efficiency exceeds the sum of the efficiencies of two other members: for
every three entries `x`, `y`, `z` of `team`, `x` has at most the efficiency of `y` and `z`
together. -/
def Balanced (team : List Player) : Prop :=
  ∀ x y z : Player, [x, y, z].Subperm team → x.efficiency ≤ y.efficiency + z.efficiency

/-- The efficiency of the player at the position `i` of the vector, `0` past its end. -/
def efficiencyAt (players : List Player) (i : Nat) : Int :=
  (players.getD i default).efficiency

/-- The sum of the efficiencies of the first `k` players of the vector. -/
def prefixEfficiency (players : List Player) (k : Nat) : Int :=
  totalEfficiency (players.take k)

/-- What `bestInterval` is once the players at the positions up to `r` have been taken
in: an interval of positions up to `r` that is balanced, with its efficiency; it has the
efficiency of the first player or more, and for every position `R` from `1` to `r` the
efficiency of an interval `[f, R]` or more, where no interval that ends at `R` and
starts before `f` is balanced. -/
structure BestOk (a : List Player) (r : Nat) (best : TeamInterval) : Prop where
  le : best.first_ ≤ best.last_
  lt : best.last_ ≤ r
  balanced : best.first_ = best.last_ ∨
    efficiencyAt a best.last_ ≤ efficiencyAt a best.first_ + efficiencyAt a (best.first_ + 1)
  efficiency : best.efficiency_ =
    prefixEfficiency a (best.last_ + 1) - prefixEfficiency a best.first_
  first : efficiencyAt a 0 ≤ best.efficiency_
  windows : ∀ R, 1 ≤ R → R ≤ r → ∃ f, f < R ∧
    (∀ l, l < f → efficiencyAt a l + efficiencyAt a (l + 1) < efficiencyAt a R) ∧
    prefixEfficiency a (R + 1) - prefixEfficiency a f ≤ best.efficiency_

/-- The invariant of the outer loop of `buildMaxEfficiencyTeam`, at its test. -/
structure LoopInv (a : List Player) (current best : TeamInterval) : Prop where
  last_lt : current.last_ < a.length
  first_le : current.first_ ≤ current.last_
  first_lt : 1 ≤ current.last_ → current.first_ < current.last_
  efficiency : current.efficiency_ =
    prefixEfficiency a (current.last_ + 1) - prefixEfficiency a current.first_
  before : ∀ l, l < current.first_ →
    efficiencyAt a l + efficiencyAt a (l + 1) < efficiencyAt a current.last_
  best : BestOk a current.last_ best

end FootballTeamModel

namespace MemoryManagerModel

open MemoryState

/-- Every occupied region of the list records `OUT_OF_HEAP` as its heap position. -/
def OccupiedOutOfHeap (st : MemoryManager) : Prop :=
  ∀ h ∈ st.memoryParts_, (st.nodes h).state = IS_OCCUPIED → (st.nodes h).index = OUT_OF_HEAP

/-- The property `OccupiedOutOfHeap` can be computed. -/
instance OccupiedOutOfHeap.decide (st : MemoryManager) : Decidable (OccupiedOutOfHeap st) :=
  inferInstanceAs (Decidable (∀ h ∈ st.memoryParts_, _))

/-! # Theorems -/

/-! ## Exchanging two elements of a vector -/

section SwapIdx

variable {T : Type} [Inhabited T]

theorem elemAt_of_lt {xs : List T} {i : Nat} (h : i < xs.length) :
    Heap.elemAt xs i = xs[i] := by
  simp [Heap.elemAt, h]

theorem elemAt_mem {xs : List T} {i : Nat} (h : i < xs.length) : Heap.elemAt xs i ∈ xs := by
  rw [elemAt_of_lt h]; exact List.getElem_mem h

theorem exists_elemAt_of_mem {xs : List T} {x : T} (h : x ∈ xs) :
    ∃ i, i < xs.length ∧ Heap.elemAt xs i = x := by
  obtain ⟨i, hi, rfl⟩ := List.getElem_of_mem h
  exact ⟨i, hi, elemAt_of_lt hi⟩

@[simp] theorem length_swapIdx (xs : List T) (i j : Nat) :
    (swapIdx xs i j).length = xs.length := by
  simp [swapIdx]

theorem elemAt_swapIdx {xs : List T} {i j : Nat} (hi : i < xs.length) (hj : j < xs.length)
    (k : Nat) :
    Heap.elemAt (swapIdx xs i j) k =
      if k = j then Heap.elemAt xs i else if k = i then Heap.elemAt xs j
      else Heap.elemAt xs k := by
  unfold swapIdx Heap.elemAt
  simp only [List.getD_eq_getElem?_getD, List.getElem?_set]
  by_cases hkj : k = j
  · subst hkj; simp [hj]
  · by_cases hki : k = i
    · subst hki
      have hjk : ¬ j = k := fun h => hkj h.symm
      simp [hi, hkj, hjk]
    · simp [hkj, hki, Ne.symm hkj, Ne.symm hki]

omit [Inhabited T] in
theorem set_perm_cons_eraseIdx (x : T) : ∀ (xs : List T) (k : Nat), k < xs.length →
    (xs.set k x).Perm (x :: xs.eraseIdx k)
  | [], _, h => by simp at h
  | y :: ys, 0, _ => by simp
  | y :: ys, k + 1, h => by
    have ih := set_perm_cons_eraseIdx x ys k (by simpa using h)
    simp only [List.set_cons_succ, List.eraseIdx_cons_succ]
    exact (List.Perm.cons y ih).trans (List.Perm.swap x y _)

theorem perm_cons_eraseIdx : ∀ (xs : List T) (k : Nat), k < xs.length →
    xs.Perm (Heap.elemAt xs k :: xs.eraseIdx k)
  | [], _, h => by simp at h
  | y :: ys, 0, _ => by simp [Heap.elemAt]
  | y :: ys, k + 1, h => by
    have ih := perm_cons_eraseIdx ys k (by simpa using h)
    have e : Heap.elemAt (y :: ys) (k + 1) = Heap.elemAt ys k := by simp [Heap.elemAt]
    rw [e, List.eraseIdx_cons_succ]
    exact (List.Perm.cons y ih).trans (List.Perm.swap _ y _)

theorem swapIdx_perm_aux : ∀ (xs : List T) (i j : Nat), i < j → j < xs.length →
    (swapIdx xs i j).Perm xs
  | [], _, _, _, h => by simp at h
  | y :: ys, 0, 0, h, _ => by omega
  | y :: ys, 0, j + 1, _, h => by
    have hj : j < ys.length := by simpa using h
    have h1 := set_perm_cons_eraseIdx y ys j hj
    have h2 := perm_cons_eraseIdx ys j hj
    simp only [swapIdx, Heap.elemAt, List.getD_eq_getElem?_getD, List.getElem?_cons_succ,
      List.getElem?_cons_zero, List.set_cons_zero, List.set_cons_succ, Option.getD_some,
      List.getElem?_eq_getElem hj] at h2 ⊢
    exact ((List.Perm.cons _ h1).trans (List.Perm.swap _ _ _)).trans (List.Perm.cons y h2.symm)
  | y :: ys, i + 1, 0, h, _ => by omega
  | y :: ys, i + 1, j + 1, h, hj => by
    have ih := swapIdx_perm_aux ys i j (by omega) (by simpa using hj)
    simp only [swapIdx, Heap.elemAt, List.getD_eq_getElem?_getD, List.getElem?_cons_succ,
      List.set_cons_succ] at ih ⊢
    exact List.Perm.cons y ih

theorem swapIdx_comm (xs : List T) {i j : Nat} (h : i ≠ j) : swapIdx xs i j = swapIdx xs j i := by
  unfold swapIdx
  exact List.set_comm _ _ _ h

theorem swapIdx_perm {xs : List T} {i j : Nat} (hi : i < xs.length) (hj : j < xs.length)
    (h : i ≠ j) : (swapIdx xs i j).Perm xs := by
  rcases Nat.lt_or_gt_of_ne h with hlt | hgt
  · exact swapIdx_perm_aux xs i j hlt hj
  · rw [swapIdx_comm xs h]; exact swapIdx_perm_aux xs j i hgt hi

end SwapIdx

/-! ## The sift loops on a heap without memory -/

section PureHeap

variable {T : Type} [Inhabited T]

omit [Inhabited T] in
theorem StrictWeak.irrefl {c : T → T → Bool} (hc : StrictWeak c) (a : T) : c a a = false := by
  cases h : c a a
  · rfl
  · have := hc.asymm a a h; rw [h] at this; exact this

omit [Inhabited T] in
theorem StrictWeak.trans_lt {c : T → T → Bool} (hc : StrictWeak c) {a b d : T}
    (h₁ : c a b = true) (h₂ : c b d = true) : c a d = true := by
  cases h : c a d
  · have := hc.negtrans a d b h (hc.asymm _ _ h₂)
    rw [h₁] at this; exact absurd this (by simp)
  · rfl

theorem pure_swapAt (c : T → T → Bool) (xs : List T) (i j : Nat) :
    Heap.swapAt (pureOps c) () xs i j = ((), swapIdx xs i j) := rfl

theorem pure_siftUpLoop_succ (c : T → T → Bool) (fuel : Nat) (xs : List T) (pos : Nat) :
    Heap.siftUpLoop (pureOps c) (fuel + 1) () xs pos =
      if c (Heap.elemAt xs pos) (Heap.elemAt xs ((pos - 1) / 2)) = true then
        Heap.siftUpLoop (pureOps c) fuel () (swapIdx xs pos ((pos - 1) / 2)) ((pos - 1) / 2)
      else ((), xs, pos) := rfl

theorem pure_siftDownLoop_succ (c : T → T → Bool) (iter : Nat) (xs : List T) (pos : Nat) :
    Heap.siftDownLoop (pureOps c) (iter + 1) () xs pos =
      (let largestChild₁ :=
        if pos * 2 + 1 < xs.length ∧
            c (Heap.elemAt xs (pos * 2 + 1)) (Heap.elemAt xs pos) = true
        then pos * 2 + 1 else pos
      let largestChild :=
        if pos * 2 + 2 < xs.length ∧
            c (Heap.elemAt xs (pos * 2 + 2)) (Heap.elemAt xs largestChild₁) = true
        then pos * 2 + 2 else largestChild₁
      if largestChild = pos then ((), xs, pos)
      else Heap.siftDownLoop (pureOps c) iter () (swapIdx xs pos largestChild) largestChild) :=
  rfl

/-- One iteration of `siftUp` keeps the invariant of the loop. -/
theorem HoleInv.step_up {c : T → T → Bool} (hc : StrictWeak c) {xs : List T} {pos : Nat}
    (hpos : pos < xs.length) (h : HoleInv c xs pos)
    (hlt : c (Heap.elemAt xs pos) (Heap.elemAt xs ((pos - 1) / 2)) = true) :
    HoleInv c (swapIdx xs pos ((pos - 1) / 2)) ((pos - 1) / 2) := by
  have hpos0 : 0 < pos := by
    rcases Nat.eq_zero_or_pos pos with h0 | h0
    · subst h0; rw [hc.irrefl] at hlt; exact absurd hlt (by simp)
    · exact h0
  have hpar : (pos - 1) / 2 < xs.length := by omega
  have hne : (pos - 1) / 2 ≠ pos := by omega
  obtain ⟨hedge, hgp⟩ := h
  refine ⟨?_, ?_⟩
  · intro i hi0 hilen hipar hPi
    rw [length_swapIdx] at hilen
    rw [elemAt_swapIdx hpos hpar, elemAt_swapIdx hpos hpar]
    simp only [if_neg hipar, if_neg hPi]
    by_cases hip : i = pos
    · exact absurd (by rw [hip]) hPi
    · rw [if_neg hip]
      by_cases hPp : (i - 1) / 2 = pos
      · rw [if_pos hPp]; exact hgp i hi0 hilen hPp hpos0
      · rw [if_neg hPp]; exact hedge i hi0 hilen hip hPp
  · intro i hi0 hilen hPi hpar0
    rw [length_swapIdx] at hilen
    rw [elemAt_swapIdx hpos hpar, elemAt_swapIdx hpos hpar]
    have h1 : ((pos - 1) / 2 - 1) / 2 ≠ (pos - 1) / 2 := by omega
    have h2 : ((pos - 1) / 2 - 1) / 2 ≠ pos := by omega
    have h3 : i ≠ (pos - 1) / 2 := by omega
    simp only [if_neg h1, if_neg h2, if_neg h3]
    have hy := hedge ((pos - 1) / 2) hpar0 hpar hne h2
    by_cases hip : i = pos
    · rw [if_pos hip]; exact hy
    · rw [if_neg hip]
      exact hc.negtrans _ _ _ (hPi ▸ hedge i hi0 hilen hip (by omega)) hy

theorem HoleInv.toDownInv {c : T → T → Bool} {xs : List T} {pos : Nat} (h : HoleInv c xs pos)
    (hup : c (Heap.elemAt xs pos) (Heap.elemAt xs ((pos - 1) / 2)) = false) :
    DownInv c xs pos := by
  refine ⟨?_, h.2⟩
  intro i hi0 hilen hPi
  by_cases hip : i = pos
  · subst hip; exact hup
  · exact h.1 i hi0 hilen hip hPi

/-- Specification of the loop of `siftUp`: with enough fuel it stops because its condition
fails, at a position from which only the edges to the children can be out of order. -/
theorem pure_siftUpLoop_spec {c : T → T → Bool} (hc : StrictWeak c) :
    ∀ (fuel : Nat) (xs : List T) (pos : Nat), pos < fuel → pos < xs.length →
      HoleInv c xs pos →
      DownInv c (Heap.siftUpLoop (pureOps c) fuel () xs pos).2.1
        (Heap.siftUpLoop (pureOps c) fuel () xs pos).2.2
  | 0, _, _, hf, _, _ => by omega
  | fuel + 1, xs, pos, hf, hpos, h => by
    rw [pure_siftUpLoop_succ]
    by_cases hlt : c (Heap.elemAt xs pos) (Heap.elemAt xs ((pos - 1) / 2)) = true
    · rw [if_pos hlt]
      have hpos0 : 0 < pos := by
        rcases Nat.eq_zero_or_pos pos with h0 | h0
        · subst h0; rw [hc.irrefl] at hlt; exact absurd hlt (by simp)
        · exact h0
      exact pure_siftUpLoop_spec hc fuel _ _ (by omega) (by rw [length_swapIdx]; omega)
        (h.step_up hc hpos hlt)
    · rw [if_neg hlt]
      exact h.toDownInv (by simpa using hlt)

theorem pure_siftUpLoop_perm {c : T → T → Bool} (hc : StrictWeak c) :
    ∀ (fuel : Nat) (xs : List T) (pos : Nat), pos < xs.length →
      (Heap.siftUpLoop (pureOps c) fuel () xs pos).2.1.Perm xs ∧
      (Heap.siftUpLoop (pureOps c) fuel () xs pos).2.2 < xs.length
  | 0, _, _, hpos => ⟨List.Perm.refl _, hpos⟩
  | fuel + 1, xs, pos, hpos => by
    rw [pure_siftUpLoop_succ]
    by_cases hlt : c (Heap.elemAt xs pos) (Heap.elemAt xs ((pos - 1) / 2)) = true
    · rw [if_pos hlt]
      have hpos0 : 0 < pos := by
        rcases Nat.eq_zero_or_pos pos with h0 | h0
        · subst h0; rw [hc.irrefl] at hlt; exact absurd hlt (by simp)
        · exact h0
      have hpar : (pos - 1) / 2 < xs.length := by omega
      have ih := pure_siftUpLoop_perm hc fuel (swapIdx xs pos ((pos - 1) / 2)) ((pos - 1) / 2)
        (by rw [length_swapIdx]; exact hpar)
      refine ⟨ih.1.trans (swapIdx_perm hpos hpar (by omega)), ?_⟩
      simpa using ih.2
    · rw [if_neg hlt]; exact ⟨List.Perm.refl _, hpos⟩

end PureHeap

section PureHeapDown

variable {T : Type} [Inhabited T]

theorem DownInv.isHeap_of_leaf {c : T → T → Bool} {xs : List T} {pos : Nat}
    (h : DownInv c xs pos) (hleaf : xs.length ≤ pos * 2 + 1) : IsHeap c xs := by
  intro i hi0 hilen
  exact h.1 i hi0 hilen (by omega)

theorem IsHeap.toDown {c : T → T → Bool} (hc : StrictWeak c) {xs : List T} (h : IsHeap c xs)
    (pos : Nat) (hpos : pos < xs.length) : DownInv c xs pos := by
  refine ⟨fun i hi0 hilen _ => h i hi0 hilen, ?_⟩
  intro i hi0 hilen hPi hpos0
  have h1 := h i hi0 hilen
  rw [hPi] at h1
  exact hc.negtrans _ _ _ h1 (h pos hpos0 hpos)

/-- One iteration of `siftDown` that exchanges `pos` with its child `ch` keeps the
invariant of the loop. -/
theorem DownInv.step_down {c : T → T → Bool} (hc : StrictWeak c) {xs : List T} {pos ch : Nat}
    (hch : ch < xs.length) (hPch : (ch - 1) / 2 = pos) (hch0 : 0 < ch) (hne : ch ≠ pos)
    (h : DownInv c xs pos)
    (hlt : c (Heap.elemAt xs ch) (Heap.elemAt xs pos) = true)
    (hother : ∀ o, 0 < o → o < xs.length → (o - 1) / 2 = pos → o ≠ ch →
      c (Heap.elemAt xs o) (Heap.elemAt xs ch) = false) :
    DownInv c (swapIdx xs pos ch) ch := by
  have hpos : pos < xs.length := by omega
  obtain ⟨hedge, hgp⟩ := h
  refine ⟨?_, ?_⟩
  · intro i hi0 hilen hPi
    rw [length_swapIdx] at hilen
    rw [elemAt_swapIdx hpos hch, elemAt_swapIdx hpos hch]
    rw [if_neg hPi]
    by_cases hic : i = ch
    · rw [if_pos hic, if_pos (by rw [hic]; exact hPch)]
      exact hc.asymm _ _ hlt
    · rw [if_neg hic]
      by_cases hip : i = pos
      · rw [if_pos hip]
        have hpos0 : 0 < pos := by omega
        have hnp : (i - 1) / 2 ≠ pos := by omega
        rw [if_neg hnp, hip]
        exact hgp ch hch0 hch hPch hpos0
      · rw [if_neg hip]
        by_cases hPp : (i - 1) / 2 = pos
        · rw [if_pos hPp]; exact hother i hi0 hilen hPp hic
        · rw [if_neg hPp]; exact hedge i hi0 hilen hPp
  · intro i hi0 hilen hPi _
    rw [length_swapIdx] at hilen
    rw [elemAt_swapIdx hpos hch, elemAt_swapIdx hpos hch]
    have h1 : i ≠ ch := by omega
    have h2 : i ≠ pos := by omega
    have h3 : (ch - 1) / 2 ≠ ch := by omega
    rw [if_neg h1, if_neg h2, if_neg h3, if_pos hPch]
    have := hedge i hi0 hilen (by omega)
    rw [hPi] at this
    exact this

/-- Specification of the loop of `siftDown`: when the iterations left are enough to reach
a leaf, the loop ends with the vector in heap order. -/
theorem pure_siftDownLoop_spec {c : T → T → Bool} (hc : StrictWeak c) :
    ∀ (iter : Nat) (xs : List T) (pos : Nat), pos < xs.length → xs.length / 2 ≤ iter + pos →
      DownInv c xs pos →
      IsHeap c (Heap.siftDownLoop (pureOps c) iter () xs pos).2.1
  | 0, xs, pos, _, hit, h => h.isHeap_of_leaf (by omega)
  | iter + 1, xs, pos, hpos, hit, h => by
    rw [pure_siftDownLoop_succ]
    by_cases hl : pos * 2 + 1 < xs.length ∧
        c (Heap.elemAt xs (pos * 2 + 1)) (Heap.elemAt xs pos) = true
    · simp only [if_pos hl]
      by_cases hr : pos * 2 + 2 < xs.length ∧
          c (Heap.elemAt xs (pos * 2 + 2)) (Heap.elemAt xs (pos * 2 + 1)) = true
      · simp only [if_pos hr]
        rw [if_neg (by omega)]
        refine pure_siftDownLoop_spec hc iter _ _ (by rw [length_swapIdx]; exact hr.1)
          (by rw [length_swapIdx]; omega) ?_
        refine h.step_down hc hr.1 (by omega) (by omega) (by omega) (hc.trans_lt hr.2 hl.2) ?_
        intro o ho0 holen hPo hne
        have : o = pos * 2 + 1 := by omega
        subst this
        exact hc.asymm _ _ hr.2
      · simp only [if_neg hr]
        rw [if_neg (by omega)]
        refine pure_siftDownLoop_spec hc iter _ _ (by rw [length_swapIdx]; exact hl.1)
          (by rw [length_swapIdx]; omega) ?_
        refine h.step_down hc hl.1 (by omega) (by omega) (by omega) hl.2 ?_
        intro o ho0 holen hPo hne
        have ho : o = pos * 2 + 2 := by omega
        subst ho
        cases hco : c (Heap.elemAt xs (pos * 2 + 2)) (Heap.elemAt xs (pos * 2 + 1))
        · rfl
        · exact absurd ⟨holen, hco⟩ hr
    · simp only [if_neg hl]
      by_cases hr : pos * 2 + 2 < xs.length ∧
          c (Heap.elemAt xs (pos * 2 + 2)) (Heap.elemAt xs pos) = true
      · simp only [if_pos hr]
        rw [if_neg (by omega)]
        refine pure_siftDownLoop_spec hc iter _ _ (by rw [length_swapIdx]; exact hr.1)
          (by rw [length_swapIdx]; omega) ?_
        refine h.step_down hc hr.1 (by omega) (by omega) (by omega) hr.2 ?_
        intro o ho0 holen hPo hne
        have ho : o = pos * 2 + 1 := by omega
        subst ho
        cases hco : c (Heap.elemAt xs (pos * 2 + 1)) (Heap.elemAt xs pos)
        · exact hc.negtrans _ _ _ hco (hc.asymm _ _ hr.2)
        · exact absurd ⟨holen, hco⟩ hl
      · simp only [if_neg hr, if_true]
        intro i hi0 hilen
        by_cases hPi : (i - 1) / 2 = pos
        · rw [hPi]
          have hi : i = pos * 2 + 1 ∨ i = pos * 2 + 2 := by omega
          rcases hi with hi | hi
          · subst hi
            cases hco : c (Heap.elemAt xs (pos * 2 + 1)) (Heap.elemAt xs pos)
            · rfl
            · exact absurd ⟨hilen, hco⟩ hl
          · subst hi
            cases hco : c (Heap.elemAt xs (pos * 2 + 2)) (Heap.elemAt xs pos)
            · rfl
            · exact absurd ⟨hilen, hco⟩ hr
        · exact h.1 i hi0 hilen hPi

theorem pure_siftDownLoop_perm (c : T → T → Bool) :
    ∀ (iter : Nat) (xs : List T) (pos : Nat), pos < xs.length →
      (Heap.siftDownLoop (pureOps c) iter () xs pos).2.1.Perm xs
  | 0, _, _, _ => List.Perm.refl _
  | iter + 1, xs, pos, hpos => by
    rw [pure_siftDownLoop_succ]
    by_cases hl : pos * 2 + 1 < xs.length ∧
        c (Heap.elemAt xs (pos * 2 + 1)) (Heap.elemAt xs pos) = true
    · simp only [if_pos hl]
      by_cases hr : pos * 2 + 2 < xs.length ∧
          c (Heap.elemAt xs (pos * 2 + 2)) (Heap.elemAt xs (pos * 2 + 1)) = true
      · simp only [if_pos hr]
        rw [if_neg (by omega)]
        exact (pure_siftDownLoop_perm c iter _ _ (by rw [length_swapIdx]; exact hr.1)).trans
          (swapIdx_perm hpos hr.1 (by omega))
      · simp only [if_neg hr]
        rw [if_neg (by omega)]
        exact (pure_siftDownLoop_perm c iter _ _ (by rw [length_swapIdx]; exact hl.1)).trans
          (swapIdx_perm hpos hl.1 (by omega))
    · simp only [if_neg hl]
      by_cases hr : pos * 2 + 2 < xs.length ∧
          c (Heap.elemAt xs (pos * 2 + 2)) (Heap.elemAt xs pos) = true
      · simp only [if_pos hr]
        rw [if_neg (by omega)]
        exact (pure_siftDownLoop_perm c iter _ _ (by rw [length_swapIdx]; exact hr.1)).trans
          (swapIdx_perm hpos hr.1 (by omega))
      · simp only [if_neg hr, if_true]
        exact List.Perm.refl _

end PureHeapDown

section PureHeapOps

variable {T : Type} [Inhabited T]

theorem elemAt_append_left {xs : List T} (ys : List T) {k : Nat} (h : k < xs.length) :
    Heap.elemAt (xs ++ ys) k = Heap.elemAt xs k := by
  simp [Heap.elemAt, List.getElem?_append_left h]

theorem elemAt_append_length (xs : List T) (x : T) :
    Heap.elemAt (xs ++ [x]) xs.length = x := by
  simp [Heap.elemAt]

theorem elemAt_dropLast {xs : List T} {k : Nat} (h : k < xs.length - 1) :
    Heap.elemAt xs.dropLast k = Heap.elemAt xs k := by
  have hk : k < xs.length := by omega
  simp [Heap.elemAt, List.getElem?_dropLast, h, hk]

/-- A vector that agrees with a heap everywhere but at `pos` satisfies the invariant of
the loop of `siftUp` at `pos`. -/
theorem holeInv_of_agree {c : T → T → Bool} (hc : StrictWeak c) {xs ys : List T} {pos : Nat}
    (h : IsHeap c xs)
    (hag : ∀ k, k < ys.length → k ≠ pos → k < xs.length ∧ Heap.elemAt ys k = Heap.elemAt xs k) :
    HoleInv c ys pos := by
  refine ⟨?_, ?_⟩
  · intro i hi0 hilen hip hPi
    obtain ⟨h1, h2⟩ := hag i hilen hip
    obtain ⟨_, h4⟩ := hag ((i - 1) / 2) (by omega) hPi
    rw [h2, h4]; exact h i hi0 h1
  · intro i hi0 hilen hPi hpos0
    obtain ⟨h1, h2⟩ := hag i hilen (by omega)
    obtain ⟨_, h4⟩ := hag ((pos - 1) / 2) (by omega) (by omega)
    rw [h2, h4]
    have e1 := h i hi0 h1
    rw [hPi] at e1
    exact hc.negtrans _ _ _ e1 (h pos hpos0 (by omega))

theorem pure_updateHeap_spec {c : T → T → Bool} (hc : StrictWeak c) {xs : List T} {pos : Nat}
    (hpos : pos < xs.length) (h : HoleInv c xs pos) :
    IsHeap c (Heap.updateHeap (pureOps c) () xs pos).2 ∧
      (Heap.updateHeap (pureOps c) () xs pos).2.Perm xs := by
  have hu := pure_siftUpLoop_spec hc (pos + 1) xs pos (by omega) hpos h
  have hp := pure_siftUpLoop_perm hc (pos + 1) xs pos hpos
  have hlen := hp.1.length_eq
  simp only [Heap.updateHeap, Heap.siftUp, Heap.siftDown]
  constructor
  · exact pure_siftDownLoop_spec hc _ _ _ (by rw [hlen]; exact hp.2) (by omega) hu
  · exact (pure_siftDownLoop_perm c _ _ _ (by rw [hlen]; exact hp.2)).trans hp.1

/-- Specification of `insert` on a heap without memory: heap order is kept and the new
vector holds the old elements and `x`. -/
theorem pure_insert_spec {c : T → T → Bool} (hc : StrictWeak c) {xs : List T} (x : T)
    (h : IsHeap c xs) :
    IsHeap c (Heap.insert (pureOps c) () xs x).2 ∧
      (Heap.insert (pureOps c) () xs x).2.Perm (x :: xs) := by
  have hpos : (xs ++ [x]).length - 1 < (xs ++ [x]).length := by simp
  have hinv : HoleInv c (xs ++ [x]) ((xs ++ [x]).length - 1) := by
    refine holeInv_of_agree hc h ?_
    intro k hk hne
    have hk' : k < xs.length := by simp at hk hne; omega
    exact ⟨hk', elemAt_append_left _ hk'⟩
  obtain ⟨h1, h2⟩ := pure_updateHeap_spec hc hpos hinv
  refine ⟨h1, h2.trans ?_⟩
  exact List.perm_append_comm

theorem IsHeap.dropLast_heap {c : T → T → Bool} {xs : List T} (h : IsHeap c xs) :
    IsHeap c xs.dropLast := by
  intro i hi0 hilen
  rw [List.length_dropLast] at hilen
  rw [elemAt_dropLast hilen, elemAt_dropLast (by omega)]
  exact h i hi0 (by omega)

/-- Specification of `remove` on a heap without memory, for a position in range: heap
order is kept and exactly the element at that position is dropped. -/
theorem pure_remove_spec {c : T → T → Bool} (hc : StrictWeak c) {xs : List T} {p : Nat}
    (hp : p < xs.length) (h : IsHeap c xs) :
    IsHeap c (Heap.remove (pureOps c) () xs (p : Int)).2 ∧
      (Heap.remove (pureOps c) () xs (p : Int)).2.Perm (xs.eraseIdx p) := by
  have hne : xs.isEmpty = false := by
    cases xs with
    | nil => simp at hp
    | cons => rfl
  unfold Heap.remove
  rw [hne]
  simp only [Bool.false_eq_true, if_false]
  rw [if_neg (by omega)]
  by_cases hlast : (p : Int) = (xs.length : Int) - 1
  · rw [if_pos hlast]
    have hpl : p + 1 = xs.length := by omega
    exact ⟨h.dropLast_heap, by rw [List.dropLast_eq_eraseIdx hpl]⟩
  · rw [if_neg hlast]
    have hpl : p < xs.length - 1 := by omega
    have hl : xs.length - 1 < xs.length := by omega
    simp only [pure_swapAt, Int.toNat_ofNat]
    have hperm : (swapIdx xs p (xs.length - 1)).dropLast.Perm (xs.eraseIdx p) := by
      have e1 := perm_cons_eraseIdx (swapIdx xs p (xs.length - 1)) (xs.length - 1)
        (by rw [length_swapIdx]; exact hl)
      rw [← List.dropLast_eq_eraseIdx (by rw [length_swapIdx]; omega)] at e1
      rw [elemAt_swapIdx hp hl, if_pos rfl] at e1
      have e3 := (swapIdx_perm hp hl (by omega)).symm.trans e1
      exact ((perm_cons_eraseIdx xs p hp).symm.trans e3).cons_inv.symm
    have hlen : (swapIdx xs p (xs.length - 1)).dropLast.length = xs.length - 1 := by simp
    have hys : (swapIdx xs p (xs.length - 1)).dropLast.isEmpty = false := by
      cases hd : (swapIdx xs p (xs.length - 1)).dropLast with
      | nil => rw [hd] at hlen; simp at hlen; omega
      | cons => rfl
    rw [hys]
    simp only [Bool.false_eq_true, if_false]
    have hinv : HoleInv c (swapIdx xs p (xs.length - 1)).dropLast p := by
      refine holeInv_of_agree hc h ?_
      intro k hk hkp
      rw [hlen] at hk
      refine ⟨by omega, ?_⟩
      rw [elemAt_dropLast (by rw [length_swapIdx]; exact hk), elemAt_swapIdx hp hl,
        if_neg (by omega), if_neg hkp]
    obtain ⟨h1, h2⟩ := pure_updateHeap_spec hc (by rw [hlen]; exact hpl) hinv
    exact ⟨h1, h2.trans hperm⟩

/-- Method `remove` does nothing when `position` is out of range. -/
theorem remove_out_of_range {σ : Type} (ops : HeapOps σ T) (m : σ) (xs : List T) (p : Int)
    (hp : p < 0 ∨ (xs.length : Int) ≤ p) : Heap.remove ops m xs p = (m, xs) := by
  unfold Heap.remove
  split
  · rfl
  · rw [if_pos (by omega)]

end PureHeapOps

/-! ## A heap with memory behaves as the heap without memory on its vector -/

section SimHeap

variable {σ T : Type} [Inhabited T] {ops : HeapOps σ T} {Good : σ → List T → Prop}
  {Frame : σ → σ → Prop}

theorem sim_swapAt (L : HeapLaws ops Good Frame) {m : σ} {xs : List T} {i j : Nat}
    (hg : Good m xs) (hi : i < xs.length) (hj : j < xs.length) (hne : i ≠ j) :
    (Heap.swapAt ops m xs i j).2 = swapIdx xs i j ∧
      Good (Heap.swapAt ops m xs i j).1 (swapIdx xs i j) ∧
      Frame m (Heap.swapAt ops m xs i j).1 := by
  obtain ⟨h1, h2, h3⟩ := L.swap m xs i j hg hi hj hne
  refine ⟨?_, h2, h3⟩
  simp only [Heap.swapAt, h1, swapIdx]

theorem sim_siftUpLoop (L : HeapLaws ops Good Frame) :
    ∀ (fuel : Nat) (m : σ) (xs : List T) (pos : Nat), Good m xs → pos < xs.length →
      (Heap.siftUpLoop ops fuel m xs pos).2 =
          (Heap.siftUpLoop (pureOps (ops.compare m)) fuel () xs pos).2 ∧
        Good (Heap.siftUpLoop ops fuel m xs pos).1 (Heap.siftUpLoop ops fuel m xs pos).2.1 ∧
        Frame m (Heap.siftUpLoop ops fuel m xs pos).1
  | 0, m, xs, pos, hg, _ => ⟨rfl, hg, L.frame_refl m⟩
  | fuel + 1, m, xs, pos, hg, hpos => by
    rw [pure_siftUpLoop_succ]
    simp only [Heap.siftUpLoop]
    by_cases hlt : ops.compare m (Heap.elemAt xs pos) (Heap.elemAt xs ((pos - 1) / 2)) = true
    · rw [if_pos hlt, if_pos hlt]
      have hpos0 : 0 < pos := by
        rcases Nat.eq_zero_or_pos pos with h0 | h0
        · subst h0; rw [(L.strict m).irrefl] at hlt; exact absurd hlt (by simp)
        · exact h0
      have hpar : (pos - 1) / 2 < xs.length := by omega
      obtain ⟨s1, s2, s3⟩ := sim_swapAt L hg hpos hpar (by omega)
      have ih := sim_siftUpLoop L fuel (Heap.swapAt ops m xs pos ((pos - 1) / 2)).1
        (swapIdx xs pos ((pos - 1) / 2)) ((pos - 1) / 2) s2
        (by rw [length_swapIdx]; exact hpar)
      rw [L.compare_frame _ _ s3] at ih
      rw [s1]
      exact ⟨ih.1, ih.2.1, L.frame_trans _ _ _ s3 ih.2.2⟩
    · rw [if_neg hlt, if_neg hlt]
      exact ⟨rfl, hg, L.frame_refl m⟩

theorem sim_siftDownLoop (L : HeapLaws ops Good Frame) :
    ∀ (iter : Nat) (m : σ) (xs : List T) (pos : Nat), Good m xs → pos < xs.length →
      (Heap.siftDownLoop ops iter m xs pos).2 =
          (Heap.siftDownLoop (pureOps (ops.compare m)) iter () xs pos).2 ∧
        Good (Heap.siftDownLoop ops iter m xs pos).1 (Heap.siftDownLoop ops iter m xs pos).2.1 ∧
        Frame m (Heap.siftDownLoop ops iter m xs pos).1
  | 0, m, xs, pos, hg, _ => ⟨rfl, hg, L.frame_refl m⟩
  | iter + 1, m, xs, pos, hg, hpos => by
    rw [pure_siftDownLoop_succ]
    simp only [Heap.siftDownLoop]
    generalize hch : (if pos * 2 + 2 < xs.length ∧
          ops.compare m (Heap.elemAt xs (pos * 2 + 2))
            (Heap.elemAt xs (if pos * 2 + 1 < xs.length ∧
              ops.compare m (Heap.elemAt xs (pos * 2 + 1)) (Heap.elemAt xs pos) = true
            then pos * 2 + 1 else pos)) = true
        then pos * 2 + 2
        else (if pos * 2 + 1 < xs.length ∧
              ops.compare m (Heap.elemAt xs (pos * 2 + 1)) (Heap.elemAt xs pos) = true
            then pos * 2 + 1 else pos)) = ch
    have hchlen : ch < xs.length := by
      rw [← hch]
      split_ifs <;> omega
    by_cases hcp : ch = pos
    · rw [if_pos hcp, if_pos hcp]
      exact ⟨rfl, hg, L.frame_refl m⟩
    · rw [if_neg hcp, if_neg hcp]
      obtain ⟨s1, s2, s3⟩ := sim_swapAt L hg hpos hchlen (Ne.symm hcp)
      have ih := sim_siftDownLoop L iter (Heap.swapAt ops m xs pos ch).1
        (swapIdx xs pos ch) ch s2 (by rw [length_swapIdx]; exact hchlen)
      rw [L.compare_frame _ _ s3] at ih
      rw [s1]
      exact ⟨ih.1, ih.2.1, L.frame_trans _ _ _ s3 ih.2.2⟩

end SimHeap

section SimHeapOps

variable {σ T : Type} [Inhabited T] {ops : HeapOps σ T} {Good : σ → List T → Prop}
  {Frame : σ → σ → Prop}

theorem sim_updateHeap (L : HeapLaws ops Good Frame) {m : σ} {xs : List T} {pos : Nat}
    (hg : Good m xs) (hpos : pos < xs.length) :
    (Heap.updateHeap ops m xs pos).2 = (Heap.updateHeap (pureOps (ops.compare m)) () xs pos).2 ∧
      Good (Heap.updateHeap ops m xs pos).1 (Heap.updateHeap ops m xs pos).2 ∧
      Frame m (Heap.updateHeap ops m xs pos).1 := by
  obtain ⟨u1, u2, u3⟩ := sim_siftUpLoop L (pos + 1) m xs pos hg hpos
  have hp := pure_siftUpLoop_perm (L.strict m) (pos + 1) xs pos hpos
  have hposu : (Heap.siftUpLoop ops (pos + 1) m xs pos).2.2 <
      (Heap.siftUpLoop ops (pos + 1) m xs pos).2.1.length := by
    rw [u1, hp.1.length_eq]; exact hp.2
  obtain ⟨d1, d2, d3⟩ := sim_siftDownLoop L
    ((Heap.siftUpLoop ops (pos + 1) m xs pos).2.1.length / 2) _ _ _ u2 hposu
  rw [L.compare_frame _ _ u3] at d1
  simp only [Heap.updateHeap, Heap.siftUp, Heap.siftDown]
  refine ⟨?_, d2, L.frame_trans _ _ _ u3 d3⟩
  rw [d1, u1]

theorem heap_updateHeap_spec (L : HeapLaws ops Good Frame) {m : σ} {xs : List T} {pos : Nat}
    (hg : Good m xs) (hpos : pos < xs.length) (hinv : HoleInv (ops.compare m) xs pos) :
    Good (Heap.updateHeap ops m xs pos).1 (Heap.updateHeap ops m xs pos).2 ∧
      Frame m (Heap.updateHeap ops m xs pos).1 ∧
      IsHeap (ops.compare m) (Heap.updateHeap ops m xs pos).2 ∧
      (Heap.updateHeap ops m xs pos).2.Perm xs := by
  obtain ⟨s1, s2, s3⟩ := sim_updateHeap L hg hpos
  obtain ⟨p1, p2⟩ := pure_updateHeap_spec (L.strict m) hpos hinv
  exact ⟨s2, s3, by rw [s1]; exact p1, by rw [s1]; exact p2⟩

/-- Specification of `insert` on a heap with memory. -/
theorem heap_insert_spec (L : HeapLaws ops Good Frame) {m : σ} {xs : List T} {x : T}
    (hg : Good m (xs ++ [x])) (h : IsHeap (ops.compare m) xs) :
    Good (Heap.insert ops m xs x).1 (Heap.insert ops m xs x).2 ∧
      Frame m (Heap.insert ops m xs x).1 ∧
      IsHeap (ops.compare m) (Heap.insert ops m xs x).2 ∧
      (Heap.insert ops m xs x).2.Perm (x :: xs) := by
  have hpos : (xs ++ [x]).length - 1 < (xs ++ [x]).length := by simp
  obtain ⟨s1, s2, s3⟩ := sim_updateHeap L hg hpos
  obtain ⟨p1, p2⟩ := pure_insert_spec (L.strict m) x h
  simp only [Heap.insert] at p1 p2 ⊢
  exact ⟨s2, s3, by rw [s1]; exact p1, by rw [s1]; exact p2⟩

/-- Specification of `remove` on a heap with memory, for a position in range. -/
theorem heap_remove_spec (L : HeapLaws ops Good Frame) {m : σ} {xs : List T} {p : Nat}
    (hg : Good m xs) (h : IsHeap (ops.compare m) xs) (hp : p < xs.length) :
    Good (Heap.remove ops m xs (p : Int)).1 (Heap.remove ops m xs (p : Int)).2 ∧
      Frame m (Heap.remove ops m xs (p : Int)).1 ∧
      IsHeap (ops.compare m) (Heap.remove ops m xs (p : Int)).2 ∧
      (Heap.remove ops m xs (p : Int)).2.Perm (xs.eraseIdx p) := by
  obtain ⟨p1, p2⟩ := pure_remove_spec (L.strict m) hp h
  have hne : xs.isEmpty = false := by
    cases xs with
    | nil => simp at hp
    | cons => rfl
  unfold Heap.remove at p1 p2 ⊢
  rw [hne] at p1 p2 ⊢
  simp only [Bool.false_eq_true, if_false] at p1 p2 ⊢
  rw [if_neg (by omega)] at p1 p2 ⊢
  by_cases hlast : (p : Int) = (xs.length : Int) - 1
  · rw [if_pos hlast] at p1 p2 ⊢
    exact ⟨L.dropLast _ _ hg, L.frame_refl m, p1, p2⟩
  · rw [if_neg hlast] at p1 p2 ⊢
    have hpl : p < xs.length - 1 := by omega
    have hl : xs.length - 1 < xs.length := by omega
    obtain ⟨s1, s2, s3⟩ := sim_swapAt L hg hp hl (by omega)
    simp only [pure_swapAt, Int.toNat_ofNat] at p1 p2 ⊢
    rw [s1]
    have hlen : (swapIdx xs p (xs.length - 1)).dropLast.length = xs.length - 1 := by simp
    have hys : (swapIdx xs p (xs.length - 1)).dropLast.isEmpty = false := by
      cases hd : (swapIdx xs p (xs.length - 1)).dropLast with
      | nil => rw [hd] at hlen; simp at hlen; omega
      | cons => rfl
    rw [hys] at p1 p2 ⊢
    simp only [Bool.false_eq_true, if_false] at p1 p2 ⊢
    obtain ⟨t1, t2, t3⟩ := sim_updateHeap L (L.dropLast _ _ s2)
      (show p < (swapIdx xs p (xs.length - 1)).dropLast.length by rw [hlen]; exact hpl)
    rw [L.compare_frame _ _ s3] at t1
    exact ⟨t2, L.frame_trans _ _ _ s3 t3, by rw [t1]; exact p1, by rw [t1]; exact p2⟩

/-- Method `remove` at any position, in range or not, keeps what the heap needs and drops
at most one element. -/
theorem heap_remove_any (L : HeapLaws ops Good Frame) {m : σ} {xs : List T}
    (hg : Good m xs) (h : IsHeap (ops.compare m) xs) (p : Int) :
    Good (Heap.remove ops m xs p).1 (Heap.remove ops m xs p).2 ∧
      Frame m (Heap.remove ops m xs p).1 ∧
      IsHeap (ops.compare m) (Heap.remove ops m xs p).2 ∧
      (Heap.remove ops m xs p).2.Subperm xs := by
  by_cases hp : p < 0 ∨ (xs.length : Int) ≤ p
  · rw [remove_out_of_range ops m xs p hp]
    exact ⟨hg, L.frame_refl m, h, List.Subperm.refl _⟩
  · have hp' : p.toNat < xs.length := by omega
    have e : p = (p.toNat : Int) := by omega
    rw [e]
    obtain ⟨h1, h2, h3, h4⟩ := heap_remove_spec L hg h hp'
    exact ⟨h1, h2, h3, h4.subperm.trans (List.eraseIdx_sublist _ _).subperm⟩

end SimHeapOps

/-! ## The heap of the free regions -/

theorem compare_strictWeak (m : Nodes) : StrictWeak (CompareMemoryPartsBySize m) := by
  constructor
  · intro a b
    simp only [CompareMemoryPartsBySize]
    split_ifs <;> simp <;> omega
  · intro a b d
    simp only [CompareMemoryPartsBySize]
    split_ifs <;> simp <;> omega

theorem compare_congr {m m' : Nodes} {xs : List Nat}
    (h : ∀ a ∈ xs, (m' a).size = (m a).size ∧ (m' a).offset = (m a).offset) {a b : Nat}
    (ha : a ∈ xs) (hb : b ∈ xs) :
    CompareMemoryPartsBySize m' a b = CompareMemoryPartsBySize m a b := by
  simp only [CompareMemoryPartsBySize, (h a ha).1, (h a ha).2, (h b hb).1, (h b hb).2]

theorem SameRegions.compare_eq {m m' : Nodes} (h : SameRegions m m') :
    CompareMemoryPartsBySize m' = CompareMemoryPartsBySize m := by
  funext a b
  simp only [CompareMemoryPartsBySize, (h a).1, (h a).2.1, (h b).1, (h b).2.1]

theorem SameRegions.refl (m : Nodes) : SameRegions m m := fun _ => ⟨rfl, rfl, rfl⟩

theorem SameRegions.trans_same {m₁ m₂ m₃ : Nodes} (h₁ : SameRegions m₁ m₂) (h₂ : SameRegions m₂ m₃) :
    SameRegions m₁ m₃ := fun h =>
  ⟨(h₂ h).1.trans (h₁ h).1, (h₂ h).2.1.trans (h₁ h).2.1, (h₂ h).2.2.trans (h₁ h).2.2⟩

theorem elemAt_inj_of_nodup {xs : List Nat} (hn : xs.Nodup) {p q : Nat} (hp : p < xs.length)
    (hq : q < xs.length) (h : Heap.elemAt xs p = Heap.elemAt xs q) : p = q := by
  rw [elemAt_of_lt hp, elemAt_of_lt hq] at h
  exact (List.Nodup.getElem_inj_iff hn).mp h

theorem HeapIdx.dropLast_idx {m : Nodes} {xs : List Nat} (h : HeapIdx m xs) :
    HeapIdx m xs.dropLast := by
  refine ⟨h.1.sublist (List.dropLast_sublist xs), ?_⟩
  intro p hp
  rw [List.length_dropLast] at hp
  rw [elemAt_dropLast hp]
  exact h.2 p (by omega)

/-- The template arguments of the heap of free regions satisfy `HeapLaws`: exchanging two
iterators of the vector also exchanges the positions their nodes record. -/
theorem partLaws : HeapLaws partOps HeapIdx SameRegions where
  frame_refl := SameRegions.refl
  frame_trans := fun _ _ _ => SameRegions.trans_same
  compare_frame := fun _ _ h => h.compare_eq
  strict := compare_strictWeak
  dropLast := fun _ _ h => h.dropLast_idx
  swap := by
    intro m xs i j hg hi hj hne
    have hidx : (m (Heap.elemAt xs i)).index ≠ (m (Heap.elemAt xs j)).index := by
      rw [hg.2 i hi, hg.2 j hj]; omega
    have hab : Heap.elemAt xs i ≠ Heap.elemAt xs j := fun e =>
      hne (elemAt_inj_of_nodup hg.1 hi hj e)
    simp only [partOps, SwapMemoryPartIterators, if_neg hidx]
    refine ⟨trivial, ⟨?_, ?_⟩, ?_⟩
    · exact (swapIdx_perm hi hj hne).nodup_iff.mpr hg.1
    · intro p hp
      rw [length_swapIdx] at hp
      rw [elemAt_swapIdx hi hj]
      by_cases hpj : p = j
      · rw [if_pos hpj, Function.update_noteq hab, Function.update_same]
        simp only [hg.2 j hj, hpj]
      · rw [if_neg hpj]
        by_cases hpi : p = i
        · rw [if_pos hpi, Function.update_same]
          simp only [hg.2 i hi, hpi]
        · rw [if_neg hpi]
          have h1 : Heap.elemAt xs p ≠ Heap.elemAt xs j := fun e =>
            hpj (elemAt_inj_of_nodup hg.1 hp hj e)
          have h2 : Heap.elemAt xs p ≠ Heap.elemAt xs i := fun e =>
            hpi (elemAt_inj_of_nodup hg.1 hp hi e)
          rw [Function.update_noteq h1, Function.update_noteq h2]
          exact hg.2 p hp
    · intro h
      by_cases h1 : h = Heap.elemAt xs j
      · subst h1
        rw [Function.update_same]
        by_cases h2 : Heap.elemAt xs j = Heap.elemAt xs i
        · exact absurd h2.symm hab
        · rw [Function.update_noteq h2]; exact ⟨rfl, rfl, rfl⟩
      · rw [Function.update_noteq h1]
        by_cases h2 : h = Heap.elemAt xs i
        · subst h2; rw [Function.update_same]; exact ⟨rfl, rfl, rfl⟩
        · rw [Function.update_noteq h2]; exact ⟨rfl, rfl, rfl⟩

/-! ## The region list -/

open MemoryManager

theorem nextOf_append {pre : List Nat} {a : Nat} (ha : a ∉ pre) (b : Nat) (post : List Nat) :
    nextOf (pre ++ a :: b :: post) a = some b := by
  induction pre with
  | nil => simp [nextOf]
  | cons x pre ih =>
    have hx : x ≠ a := fun e => ha (by simp [e])
    have ha' : a ∉ pre := fun e => ha (by simp [e])
    cases pre with
    | nil => simp [nextOf, hx]
    | cons y pre => simpa [nextOf, hx] using ih ha'

theorem nextOf_append_last {pre : List Nat} {a : Nat} (ha : a ∉ pre) :
    nextOf (pre ++ [a]) a = none := by
  induction pre with
  | nil => simp [nextOf]
  | cons x pre ih =>
    have hx : x ≠ a := fun e => ha (by simp [e])
    have ha' : a ∉ pre := fun e => ha (by simp [e])
    cases pre with
    | nil => simp [nextOf, hx]
    | cons y pre => simpa [nextOf, hx] using ih ha'

theorem prevOf_append {pre : List Nat} {a b : Nat} (hb : b ∉ pre) (hab : a ≠ b)
    (post : List Nat) : prevOf (pre ++ a :: b :: post) b = a := by
  induction pre with
  | nil => simp [prevOf]
  | cons x pre ih =>
    have hx : x ≠ b := fun e => hb (by simp [e])
    have hb' : b ∉ pre := fun e => hb (by simp [e])
    cases pre with
    | nil => simp [prevOf, hab]
    | cons y pre =>
      have hy : y ≠ b := fun e => hb (by simp [e])
      simpa [prevOf, hy] using ih hb'

theorem insertBefore_append {pre : List Nat} {a : Nat} (ha : a ∉ pre) (post : List Nat)
    (node : Nat) : insertBefore (pre ++ a :: post) a node = pre ++ node :: a :: post := by
  induction pre with
  | nil => simp [insertBefore]
  | cons x pre ih =>
    have hx : x ≠ a := fun e => ha (by simp [e])
    have ha' : a ∉ pre := fun e => ha (by simp [e])
    simp [insertBefore, hx, ih ha']

theorem mem_insertBefore {l : List Nat} {position node a : Nat} :
    a ∈ insertBefore l position node ↔ a = node ∨ a ∈ l := by
  induction l with
  | nil => simp [insertBefore]
  | cons x l ih =>
    simp only [insertBefore]
    split
    · simp
    · simp only [List.mem_cons, ih]; tauto

theorem split_of_mem_nodup {l : List Nat} {a : Nat} (hn : l.Nodup) (ha : a ∈ l) :
    ∃ pre post, l = pre ++ a :: post ∧ a ∉ pre ∧ a ∉ post := by
  obtain ⟨pre, post, rfl⟩ := List.append_of_mem ha
  refine ⟨pre, post, rfl, ?_, ?_⟩
  · intro hp
    rw [List.nodup_append] at hn
    exact hn.2.2 hp (by simp)
  · intro hp
    rw [List.nodup_append, List.nodup_cons] at hn
    exact hn.2.1.1 hp

theorem erase_append_mid {pre : List Nat} {a : Nat} (ha : a ∉ pre) (post : List Nat) :
    (pre ++ a :: post).erase a = pre ++ post := by
  rw [List.erase_append_right _ ha, List.erase_cons_head]

theorem chainFrom_append (m : Nodes) : ∀ (l₁ l₂ : List Nat) (start stop : Int),
    ChainFrom m start (l₁ ++ l₂) stop ↔
      ∃ mid, ChainFrom m start l₁ mid ∧ ChainFrom m mid l₂ stop
  | [], l₂, start, stop => by simp [ChainFrom]
  | h :: l₁, l₂, start, stop => by
    show (m h).offset = start ∧ ChainFrom m (start + (m h).size) (l₁ ++ l₂) stop ↔
      ∃ mid, ((m h).offset = start ∧ ChainFrom m (start + (m h).size) l₁ mid) ∧
        ChainFrom m mid l₂ stop
    rw [chainFrom_append m l₁ l₂]
    constructor
    · rintro ⟨h1, mid, h2, h3⟩; exact ⟨mid, ⟨h1, h2⟩, h3⟩
    · rintro ⟨mid, ⟨h1, h2⟩, h3⟩; exact ⟨h1, mid, h2, h3⟩

theorem chainFrom_congr {m m' : Nodes} : ∀ (l : List Nat) (start stop : Int),
    (∀ h ∈ l, (m' h).size = (m h).size ∧ (m' h).offset = (m h).offset) →
      (ChainFrom m' start l stop ↔ ChainFrom m start l stop)
  | [], _, _, _ => Iff.rfl
  | h :: l, start, stop, hag => by
    have h1 := hag h (by simp)
    simp only [ChainFrom, h1.1, h1.2]
    rw [chainFrom_congr l _ _ (fun x hx => hag x (by simp [hx]))]

theorem chainFrom_unique {m : Nodes} : ∀ (l : List Nat) (start stop stop' : Int),
    ChainFrom m start l stop → ChainFrom m start l stop' → stop = stop'
  | [], _, _, _, h1, h2 => h1.symm.trans h2
  | _ :: l, _, _, _, h1, h2 => chainFrom_unique l _ _ _ h1.2 h2.2

theorem chainFrom_le {m : Nodes} : ∀ (l : List Nat) (start stop : Int),
    (∀ h ∈ l, 1 ≤ (m h).size) → ChainFrom m start l stop → start + l.length ≤ stop
  | [], _, _, _, h => by simp [ChainFrom] at h; simp [h]
  | x :: l, start, stop, hs, h => by
    have := chainFrom_le l _ _ (fun y hy => hs y (by simp [hy])) h.2
    have := hs x (by simp)
    simp only [List.length_cons, Nat.cast_add, Nat.cast_one]
    omega

/-! ## The heap of free regions inside the manager -/

theorem isHeap_congr {m m' : Nodes} {xs : List Nat}
    (h : ∀ a ∈ xs, (m' a).size = (m a).size ∧ (m' a).offset = (m a).offset)
    (hh : IsHeap (CompareMemoryPartsBySize m) xs) : IsHeap (CompareMemoryPartsBySize m') xs := by
  intro i hi0 hilen
  rw [compare_congr h (elemAt_mem hilen) (elemAt_mem (by omega))]
  exact hh i hi0 hilen

theorem HeapOk.congr_heap {m m' : Nodes} {parts parts' xs : List Nat} (h : HeapOk m parts xs)
    (hm : ∀ a ∈ xs, m' a = m a) (hp : ∀ a ∈ xs, a ∈ parts → a ∈ parts') :
    HeapOk m' parts' xs := by
  refine ⟨⟨h.idx.1, ?_⟩, ?_, ?_⟩
  · intro p hp'
    rw [hm _ (elemAt_mem hp')]; exact h.idx.2 p hp'
  · exact isHeap_congr (fun a ha => by rw [hm a ha]; exact ⟨rfl, rfl⟩) h.order
  · intro a ha
    rw [hm a ha]
    exact ⟨hp a ha (h.free a ha).1, (h.free a ha).2⟩

theorem HeapOk.of_same {m m' : Nodes} {parts xs ys : List Nat} (h : HeapOk m parts xs)
    (hidx : HeapIdx m' ys) (hsame : SameRegions m m')
    (hord : IsHeap (CompareMemoryPartsBySize m) ys) (hsub : ∀ a ∈ ys, a ∈ xs) :
    HeapOk m' parts ys := by
  refine ⟨hidx, ?_, ?_⟩
  · rw [hsame.compare_eq]; exact hord
  · intro a ha
    exact ⟨(h.free a (hsub a ha)).1, by rw [(hsame a).2.2]; exact (h.free a (hsub a ha)).2⟩

/-- Method `remove` on the heap of free regions, at any position. -/
theorem HeapOk.remove {m : Nodes} {parts xs : List Nat} (h : HeapOk m parts xs) (p : Int) :
    HeapOk (Heap.remove partOps m xs p).1 parts (Heap.remove partOps m xs p).2 ∧
      SameRegions m (Heap.remove partOps m xs p).1 ∧
      (Heap.remove partOps m xs p).2.Subperm xs := by
  obtain ⟨h1, h2, h3, h4⟩ := heap_remove_any partLaws h.idx h.order p
  exact ⟨h.of_same h1 h2 h3 (fun a ha => h4.subset ha), h2, h4⟩

/-- Removing at the position a node records takes the node out of the heap, if it was
in it. -/
theorem HeapOk.remove_not_mem {m : Nodes} {parts xs : List Nat} (h : HeapOk m parts xs)
    (x : Nat) : x ∉ (Heap.remove partOps m xs (m x).index).2 := by
  intro hx
  by_cases hmem : x ∈ xs
  · obtain ⟨p, hp, hpx⟩ := exists_elemAt_of_mem hmem
    have hidx : (m x).index = (p : Int) := by rw [← hpx]; exact h.idx.2 p hp
    rw [hidx] at hx
    obtain ⟨_, _, _, h4⟩ := heap_remove_spec partLaws h.idx h.order hp
    have hx' := h4.mem_iff.mp hx
    have hnd := h.idx.1
    have hperm := perm_cons_eraseIdx xs p hp
    have := hperm.nodup_iff.mp hnd
    rw [List.nodup_cons, hpx] at this
    exact this.1 hx'
  · exact hmem ((h.remove (m x).index).2.2.subset hx)

/-- Method `insert` on the heap of free regions, for a free region of the list that is
not in the heap and records the position it is appended at. -/
theorem HeapOk.insert {m : Nodes} {parts xs : List Nat} (h : HeapOk m parts xs) {x : Nat}
    (hx : x ∉ xs) (hxp : x ∈ parts) (hf : (m x).state = IS_FREE)
    (hi : (m x).index = (xs.length : Int)) :
    HeapOk (Heap.insert partOps m xs x).1 parts (Heap.insert partOps m xs x).2 ∧
      SameRegions m (Heap.insert partOps m xs x).1 ∧
      (Heap.insert partOps m xs x).2.Perm (x :: xs) := by
  have hg : HeapIdx m (xs ++ [x]) := by
    refine ⟨?_, ?_⟩
    · rw [List.nodup_append]
      refine ⟨h.idx.1, List.nodup_singleton x, ?_⟩
      intro a ha hb
      simp at hb; subst hb; exact hx ha
    · intro p hp
      simp only [List.length_append, List.length_singleton] at hp
      by_cases hpl : p < xs.length
      · rw [elemAt_append_left _ hpl]; exact h.idx.2 p hpl
      · have : p = xs.length := by omega
        subst this
        rw [elemAt_append_length]; exact hi
  obtain ⟨h1, h2, h3, h4⟩ := heap_insert_spec partLaws hg h.order
  refine ⟨⟨h1, ?_, ?_⟩, h2, h4⟩
  · rw [h2.compare_eq]; exact h3
  · intro a ha
    have := h4.mem_iff.mp ha
    rw [(h2 a).2.2]
    rcases List.mem_cons.mp this with e | e
    · subst e; exact ⟨hxp, hf⟩
    · exact h.free a e

/-- Method `pop` on a non-empty heap of free regions: it takes out the first element. -/
theorem HeapOk.pop {m : Nodes} {parts : List Nat} {x : Nat} {xs : List Nat}
    (h : HeapOk m parts (x :: xs)) :
    Heap.pop partOps m (x :: xs) = .ok (Heap.remove partOps m (x :: xs) 0) ∧
      HeapOk (Heap.remove partOps m (x :: xs) 0).1 parts (Heap.remove partOps m (x :: xs) 0).2 ∧
      SameRegions m (Heap.remove partOps m (x :: xs) 0).1 ∧
      (Heap.remove partOps m (x :: xs) 0).2.Perm xs := by
  refine ⟨rfl, (h.remove 0).1, (h.remove 0).2.1, ?_⟩
  obtain ⟨_, _, _, h4⟩ := heap_remove_spec partLaws h.idx h.order
    (show 0 < (x :: xs).length by simp)
  simpa using h4

/-! ## The four paths through `allocate` -/

theorem allocate_nil (st : MemoryManager) (s : Int) (h : st.freeMemory_ = []) :
    st.allocate s = .ok ({ st with requestsCount := st.requestsCount + 1 }, FAIL_CODE) := by
  simp only [allocate, h, List.isEmpty_nil, if_true]
  rfl

theorem allocate_small (st : MemoryManager) (s : Int) {x : Nat} {xs : List Nat}
    (h : st.freeMemory_ = x :: xs) (hs : (st.nodes x).size < s) :
    st.allocate s = .ok ({ st with requestsCount := st.requestsCount + 1 }, FAIL_CODE) := by
  simp only [allocate, h, List.isEmpty_cons, Heap.top, Bool.false_eq_true, if_false]
  simp only [bind, Except.bind, if_pos hs]
  rfl

theorem allocate_exact (st : MemoryManager) (s : Int) {x : Nat} {xs : List Nat}
    (h : st.freeMemory_ = x :: xs) (hs : ¬ (st.nodes x).size < s)
    (hs' : ¬ ((Heap.remove partOps st.nodes (x :: xs) 0).1 x).size > s) :
    st.allocate s = .ok
      ({ nodes := setState (Heap.remove partOps st.nodes (x :: xs) 0).1 x IS_OCCUPIED
         fresh := st.fresh
         operationsHistory_ := st.operationsHistory_ ++ [⟨st.requestsCount + 1, x⟩]
         memoryParts_ := st.memoryParts_
         freeMemory_ := (Heap.remove partOps st.nodes (x :: xs) 0).2
         requestsCount := st.requestsCount + 1 },
       ((Heap.remove partOps st.nodes (x :: xs) 0).1 x).offset) := by
  simp only [allocate, h, List.isEmpty_cons, Heap.top, Heap.pop, Bool.false_eq_true, if_false]
  simp only [bind, Except.bind, if_neg hs, if_neg hs']
  rfl

theorem allocate_split (st : MemoryManager) (s : Int) {x : Nat} {xs : List Nat}
    (h : st.freeMemory_ = x :: xs) (hs : ¬ (st.nodes x).size < s)
    (hs' : ((Heap.remove partOps st.nodes (x :: xs) 0).1 x).size > s) :
    st.allocate s = .ok
      ({ nodes := (Heap.insert partOps
            (Function.update
              (setIndex
                (setSize
                  (setOffset (Heap.remove partOps st.nodes (x :: xs) 0).1 x
                    (((Heap.remove partOps st.nodes (x :: xs) 0).1 x).offset + s)) x
                  ((setOffset (Heap.remove partOps st.nodes (x :: xs) 0).1 x
                    (((Heap.remove partOps st.nodes (x :: xs) 0).1 x).offset + s) x).size - s))
                x (Heap.remove partOps st.nodes (x :: xs) 0).2.length)
              st.fresh
              ⟨s, ((Heap.remove partOps st.nodes (x :: xs) 0).1 x).offset, OUT_OF_HEAP,
                IS_OCCUPIED⟩)
            (Heap.remove partOps st.nodes (x :: xs) 0).2 x).1
         fresh := st.fresh + 1
         operationsHistory_ := st.operationsHistory_ ++ [⟨st.requestsCount + 1, st.fresh⟩]
         memoryParts_ := insertBefore st.memoryParts_ x st.fresh
         freeMemory_ := (Heap.insert partOps
            (Function.update
              (setIndex
                (setSize
                  (setOffset (Heap.remove partOps st.nodes (x :: xs) 0).1 x
                    (((Heap.remove partOps st.nodes (x :: xs) 0).1 x).offset + s)) x
                  ((setOffset (Heap.remove partOps st.nodes (x :: xs) 0).1 x
                    (((Heap.remove partOps st.nodes (x :: xs) 0).1 x).offset + s) x).size - s))
                x (Heap.remove partOps st.nodes (x :: xs) 0).2.length)
              st.fresh
              ⟨s, ((Heap.remove partOps st.nodes (x :: xs) 0).1 x).offset, OUT_OF_HEAP,
                IS_OCCUPIED⟩)
            (Heap.remove partOps st.nodes (x :: xs) 0).2 x).2
         requestsCount := st.requestsCount + 1 },
       ((Heap.remove partOps st.nodes (x :: xs) 0).1 x).offset) := by
  simp only [allocate, h, List.isEmpty_cons, Heap.top, Heap.pop, Bool.false_eq_true, if_false]
  simp only [bind, Except.bind, if_neg hs, if_pos hs']
  rfl

/-- Method `allocate` returns, whatever the state: it throws no exception. -/
theorem allocate_total (st : MemoryManager) (s : Int) :
    ∃ st' o, st.allocate s = .ok (st', o) := by
  cases h : st.freeMemory_ with
  | nil => exact ⟨_, _, allocate_nil st s h⟩
  | cons x xs =>
    by_cases hs : (st.nodes x).size < s
    · exact ⟨_, _, allocate_small st s h hs⟩
    · by_cases hs' : ((Heap.remove partOps st.nodes (x :: xs) 0).1 x).size > s
      · exact ⟨_, _, allocate_split st s h hs hs'⟩
      · exact ⟨_, _, allocate_exact st s h hs hs'⟩

theorem SameRegions.region {m m' : Nodes} (h : SameRegions m m') (a : Nat) :
    (m' a).region = (m a).region := by
  simp only [MemoryPart.region, (h a).1, (h a).2.1, (h a).2.2]

theorem SameRegions.symm {m m' : Nodes} (h : SameRegions m m') : SameRegions m' m :=
  fun a => ⟨(h a).1.symm, (h a).2.1.symm, (h a).2.2.symm⟩

theorem region_eq_iff {p q : MemoryPart} :
    p.region = q.region ↔ p.size = q.size ∧ p.offset = q.offset ∧ p.state = q.state := by
  simp [MemoryPart.region]

/-- The exact-fit path of `allocate`, on a state that satisfies the invariant of the
heap. -/
theorem allocate_exact_spec {st : MemoryManager} {x : Nat} {xs : List Nat}
    (hheap : HeapOk st.nodes st.memoryParts_ st.freeMemory_)
    (h : st.freeMemory_ = x :: xs) :
    ∃ st', st.allocate (st.nodes x).size = .ok (st', (st.nodes x).offset) ∧
      st'.memoryParts_ = st.memoryParts_ ∧ st'.fresh = st.fresh ∧
      st'.requestsCount = st.requestsCount + 1 ∧
      st'.operationsHistory_ = st.operationsHistory_ ++ [⟨st.requestsCount + 1, x⟩] ∧
      (∀ a, a ≠ x → (st'.nodes a).region = (st.nodes a).region) ∧
      (st'.nodes x).region = ⟨(st.nodes x).size, (st.nodes x).offset, IS_OCCUPIED⟩ ∧
      HeapOk st'.nodes st'.memoryParts_ st'.freeMemory_ ∧
      st'.freeMemory_.Perm xs := by
  rw [h] at hheap
  obtain ⟨_, hok, hsame, hperm⟩ := hheap.pop
  have hx : x ∉ (Heap.remove partOps st.nodes (x :: xs) 0).2 := by
    intro hmem
    have := hheap.idx.1
    rw [List.nodup_cons] at this
    exact this.1 (hperm.mem_iff.mp hmem)
  have e := allocate_exact st (st.nodes x).size h (lt_irrefl _)
    (by rw [(hsame x).1]; exact lt_irrefl _)
  rw [(hsame x).2.1] at e
  refine ⟨_, e, rfl, rfl, rfl, rfl, ?_, ?_, ?_, hperm⟩
  · intro a ha
    simp only [setState, Function.update_noteq ha]
    exact hsame.region a
  · simp only [setState, Function.update_same, MemoryPart.region, (hsame x).1, (hsame x).2.1]
  · refine hok.congr_heap ?_ (fun _ _ hp => hp)
    intro a ha
    have : a ≠ x := fun e => hx (e ▸ ha)
    simp only [setState, Function.update_noteq this]

/-- The splitting path of `allocate`, on a state that satisfies the invariant of the heap
and whose list nodes have addresses below `fresh`. -/
theorem allocate_split_spec {st : MemoryManager} {x : Nat} {xs : List Nat} {s : Int}
    (hheap : HeapOk st.nodes st.memoryParts_ st.freeMemory_)
    (hfresh : ∀ a ∈ st.memoryParts_, a < st.fresh)
    (h : st.freeMemory_ = x :: xs) (hs : s < (st.nodes x).size) :
    ∃ st', st.allocate s = .ok (st', (st.nodes x).offset) ∧
      st'.memoryParts_ = insertBefore st.memoryParts_ x st.fresh ∧
      st'.fresh = st.fresh + 1 ∧
      st'.requestsCount = st.requestsCount + 1 ∧
      st'.operationsHistory_ = st.operationsHistory_ ++ [⟨st.requestsCount + 1, st.fresh⟩] ∧
      (∀ a, a ≠ x → a ≠ st.fresh → (st'.nodes a).region = (st.nodes a).region) ∧
      (st'.nodes x).region =
        ⟨(st.nodes x).size - s, (st.nodes x).offset + s, (st.nodes x).state⟩ ∧
      (st'.nodes st.fresh).region = ⟨s, (st.nodes x).offset, IS_OCCUPIED⟩ ∧
      HeapOk st'.nodes st'.memoryParts_ st'.freeMemory_ ∧
      st'.freeMemory_.Perm (x :: xs) := by
  have hxparts : x ∈ st.memoryParts_ := (hheap.free x (by rw [h]; simp)).1
  have hxfree : (st.nodes x).state = IS_FREE := (hheap.free x (by rw [h]; simp)).2
  have hxf : x ≠ st.fresh := fun e => absurd (hfresh x hxparts) (by omega)
  rw [h] at hheap
  obtain ⟨_, hok, hsame, hperm⟩ := hheap.pop
  have hx : x ∉ (Heap.remove partOps st.nodes (x :: xs) 0).2 := by
    intro hmem
    have := hheap.idx.1
    rw [List.nodup_cons] at this
    exact this.1 (hperm.mem_iff.mp hmem)
  have e := allocate_split st s h (not_lt.mpr hs.le) (by rw [(hsame x).1]; exact hs)
  rw [(hsame x).2.1] at e
  generalize hr : Heap.remove partOps st.nodes (x :: xs) 0 = r at e hok hsame hperm hx
  obtain ⟨m₁, h₁⟩ := r
  simp only at e hok hsame hperm hx
  generalize hm₄ : Function.update
      (setIndex (setSize (setOffset m₁ x ((st.nodes x).offset + s)) x
        ((setOffset m₁ x ((st.nodes x).offset + s) x).size - s)) x h₁.length)
      st.fresh ⟨s, (st.nodes x).offset, OUT_OF_HEAP, IS_OCCUPIED⟩ = m₄ at e
  have hm₄x : m₄ x = ⟨(st.nodes x).size - s, (st.nodes x).offset + s, h₁.length,
      (st.nodes x).state⟩ := by
    rw [← hm₄, Function.update_noteq hxf]
    simp only [setIndex, setSize, setOffset, Function.update_same, (hsame x).1, (hsame x).2.2]
  have hm₄f : m₄ st.fresh = ⟨s, (st.nodes x).offset, OUT_OF_HEAP, IS_OCCUPIED⟩ := by
    rw [← hm₄, Function.update_same]
  have hm₄o : ∀ a, a ≠ x → a ≠ st.fresh → m₄ a = m₁ a := by
    intro a h1 h2
    rw [← hm₄, Function.update_noteq h2]
    simp only [setIndex, setSize, setOffset, Function.update_noteq h1]
  have hok4 : HeapOk m₄ (insertBefore st.memoryParts_ x st.fresh) h₁ := by
    refine hok.congr_heap ?_ ?_
    · intro a ha
      have h1 : a ≠ x := fun e => hx (e ▸ ha)
      have h2 : a ≠ st.fresh := fun e => absurd (hfresh a (hok.free a ha).1) (by omega)
      exact hm₄o a h1 h2
    · intro a _ hp
      exact mem_insertBefore.mpr (Or.inr hp)
  obtain ⟨i1, i2, i3⟩ := hok4.insert hx (mem_insertBefore.mpr (Or.inr hxparts))
    (by rw [hm₄x]; exact hxfree) (by rw [hm₄x])
  refine ⟨_, e, rfl, rfl, rfl, rfl, ?_, ?_, ?_, i1, i3.trans (List.Perm.cons x hperm)⟩
  · intro a h1 h2
    show ((Heap.insert partOps m₄ h₁ x).1 a).region = _
    rw [i2.region a, hm₄o a h1 h2]
    exact hsame.region a
  · show ((Heap.insert partOps m₄ h₁ x).1 x).region = _
    rw [i2.region x, hm₄x]; rfl
  · show ((Heap.insert partOps m₄ h₁ x).1 st.fresh).region = _
    rw [i2.region st.fresh, hm₄f]; rfl

/-! ## The binary search of `findOperationById` -/

theorem findLoop_none {history : List Operation} {id : Nat}
    (h : ∀ r ∈ history, r.id ≠ id) :
    ∀ (fuel : Nat) (left right : Int), 0 ≤ left → right < history.length →
      findLoop history id fuel left right = none
  | 0, _, _, _, _ => rfl
  | fuel + 1, left, right, hl, hr => by
    simp only [findLoop]
    split
    · rename_i hle
      have hmid : (left + (right - left) / 2).toNat < history.length := by omega
      have hne : (history.getD (left + (right - left) / 2).toNat default).id ≠ id := by
        rw [List.getD_eq_getElem _ _ hmid]
        exact h _ (List.getElem_mem hmid)
      rw [if_neg hne]
      split
      · exact findLoop_none h fuel _ _ hl (by omega)
      · exact findLoop_none h fuel _ _ (by omega) hr
    · rfl

/-- On a history sorted by strictly increasing ids the search finds the record that
carries the id, when the bounds enclose its position and the fuel covers the interval. -/
theorem findLoop_some {history : List Operation} {id : Nat}
    (hs : history.Pairwise (fun a b => a.id < b.id)) {i : Nat} (hi : i < history.length)
    (hid : history[i].id = id) :
    ∀ (fuel : Nat) (left right : Int), 0 ≤ left → right < history.length →
      left ≤ i → (i : Int) ≤ right → right - left < fuel →
      findLoop history id fuel left right = some i
  | 0, _, _, _, _, _, _, hf => by omega
  | fuel + 1, left, right, hl, hr, hli, hir, hf => by
    have hmono : ∀ a b (ha : a < history.length) (hb : b < history.length),
        a < b → history[a].id < history[b].id := by
      intro a b ha hb hab
      exact (List.pairwise_iff_getElem.mp hs) a b ha hb hab
    simp only [findLoop]
    rw [if_pos (by omega)]
    have hmid : (left + (right - left) / 2).toNat < history.length := by omega
    rw [List.getD_eq_getElem _ _ hmid]
    rcases Nat.lt_trichotomy (left + (right - left) / 2).toNat i with hlt | heq | hgt
    · have h1 := hmono _ _ hmid hi hlt
      rw [if_neg (by omega), if_neg (by omega)]
      exact findLoop_some hs hi hid fuel _ _ (by omega) hr (by omega) hir (by omega)
    · rw [if_pos (by simp only [heq]; exact hid), heq]
    · have h1 := hmono _ _ hi hmid hgt
      rw [if_neg (by omega), if_pos (by omega)]
      exact findLoop_some hs hi hid fuel _ _ hl (by omega) hli (by omega) (by omega)

theorem findOperationById_none {st : MemoryManager} {id : Nat}
    (h : ∀ r ∈ st.operationsHistory_, r.id ≠ id) : st.findOperationById id = none :=
  findLoop_none h _ _ _ (le_refl 0) (by omega)

theorem findOperationById_some {st : MemoryManager} {id : Nat}
    (hs : st.operationsHistory_.Pairwise (fun a b => a.id < b.id)) {i : Nat}
    (hi : i < st.operationsHistory_.length) (hid : st.operationsHistory_[i].id = id) :
    st.findOperationById id = some i :=
  findLoop_some hs hi hid _ _ _ (le_refl 0) (by omega) (by omega) (by omega) (by omega)

/-! ## The invariant of the region list under the changes the manager makes -/

theorem ListOk.congr_list {T : Int} {m m' : Nodes} {parts : List Nat} {fresh : Nat}
    (h : ListOk T m parts fresh)
    (hm : ∀ a ∈ parts, (m' a).size = (m a).size ∧ (m' a).offset = (m a).offset) :
    ListOk T m' parts fresh := by
  refine ⟨h.nodup, h.ne_nil, h.lt_fresh, (chainFrom_congr _ _ _ hm).mpr h.chain, ?_⟩
  rcases h.sizes with h1 | h1
  · exact Or.inl h1
  · exact Or.inr (fun a ha => by rw [(hm a ha).1]; exact h1 a ha)

theorem ListOk.sizes_of_two {T : Int} {m : Nodes} {parts : List Nat} {fresh : Nat}
    (h : ListOk T m parts fresh) (h2 : 2 ≤ parts.length) : ∀ a ∈ parts, 1 ≤ (m a).size := by
  rcases h.sizes with h1 | h1
  · omega
  · exact h1

/-- Merging the region `b` into the region `a` before it keeps the invariant of the
list. -/
theorem ListOk.merge {T : Int} {m m' : Nodes} {pre post : List Nat} {a b : Nat} {fresh : Nat}
    (h : ListOk T m (pre ++ a :: b :: post) fresh)
    (hm : ∀ x, x ≠ a → (m' x).size = (m x).size ∧ (m' x).offset = (m x).offset)
    (hsize : (m' a).size = (m a).size + (m b).size) (hoff : (m' a).offset = (m a).offset) :
    ListOk T m' (pre ++ a :: post) fresh := by
  have hnd := h.nodup
  have hsz := h.sizes_of_two (by simp only [List.length_append, List.length_cons]; omega)
  have hsub : (pre ++ a :: post).Sublist (pre ++ a :: b :: post) :=
    List.Sublist.append_left ((List.sublist_cons_self b post).cons₂ a) pre
  have hnd' := hnd.sublist hsub
  have hapre : a ∉ pre := by
    intro hp; rw [List.nodup_append] at hnd; exact hnd.2.2 hp (by simp)
  have hapost : a ∉ post := by
    intro hp
    rw [List.nodup_append, List.nodup_cons] at hnd'
    exact hnd'.2.1.1 hp
  refine ⟨hnd', by simp, fun x hx => h.lt_fresh x (hsub.subset hx), ?_, Or.inr ?_⟩
  · have hc := h.chain
    rw [chainFrom_append] at hc ⊢
    obtain ⟨mid, hc1, hc2⟩ := hc
    refine ⟨mid, (chainFrom_congr _ _ _
      (fun x hx => hm x (fun e => hapre (e ▸ hx)))).mpr hc1, ?_⟩
    simp only [ChainFrom] at hc2 ⊢
    refine ⟨by rw [hoff]; exact hc2.1, ?_⟩
    rw [chainFrom_congr _ _ _ (fun x hx => hm x (fun e => hapost (e ▸ hx))), hsize]
    have := hc2.2.2
    rw [← add_assoc]; exact this
  · intro x hx
    by_cases hxa : x = a
    · subst hxa
      rw [hsize]
      have h1 := hsz x (by simp)
      have h2 := hsz b (by simp)
      omega
    · rw [(hm x hxa).1]; exact hsz x (hsub.subset hx)

/-- Carving the first `s` cells of the region `x` into a new region `n` before it keeps
the invariant of the list. -/
theorem ListOk.split {T : Int} {m m' : Nodes} {pre post : List Nat} {x n : Nat} {fresh : Nat}
    {s : Int} (h : ListOk T m (pre ++ x :: post) fresh) (hn : n = fresh) (hs1 : 1 ≤ s)
    (hs2 : s < (m x).size)
    (hm : ∀ a, a ≠ x → a ≠ n → (m' a).size = (m a).size ∧ (m' a).offset = (m a).offset)
    (hx : (m' x).size = (m x).size - s ∧ (m' x).offset = (m x).offset + s)
    (hnew : (m' n).size = s ∧ (m' n).offset = (m x).offset) :
    ListOk T m' (pre ++ n :: x :: post) (fresh + 1) := by
  have hnd := h.nodup
  have hnparts : n ∉ pre ++ x :: post := fun hp => by
    have := h.lt_fresh n hp; omega
  have hxpre : x ∉ pre := by
    intro hp; rw [List.nodup_append] at hnd; exact hnd.2.2 hp (by simp)
  have hxpost : x ∉ post := by
    intro hp
    rw [List.nodup_append, List.nodup_cons] at hnd
    exact hnd.2.1.1 hp
  have hnpre : n ∉ pre := fun hp => hnparts (by simp [hp])
  have hnpost : n ∉ post := fun hp => hnparts (by simp [hp])
  have hnx : n ≠ x := fun e => hnparts (by simp [e])
  refine ⟨?_, by simp, ?_, ?_, Or.inr ?_⟩
  · have hperm : (pre ++ n :: x :: post).Perm (n :: (pre ++ x :: post)) :=
      List.perm_middle
    rw [hperm.nodup_iff, List.nodup_cons]
    exact ⟨hnparts, hnd⟩
  · intro a ha
    simp only [List.mem_append, List.mem_cons] at ha
    rcases ha with ha | ha | ha | ha
    · have := h.lt_fresh a (by simp [ha]); omega
    · omega
    · have := h.lt_fresh a (by simp [ha]); omega
    · have := h.lt_fresh a (by simp [ha]); omega
  · have hc := h.chain
    rw [chainFrom_append] at hc ⊢
    obtain ⟨mid, hc1, hc2⟩ := hc
    refine ⟨mid, (chainFrom_congr _ _ _
      (fun a ha => hm a (fun e => hxpre (e ▸ ha)) (fun e => hnpre (e ▸ ha)))).mpr hc1, ?_⟩
    simp only [ChainFrom] at hc2 ⊢
    refine ⟨by rw [hnew.2]; exact hc2.1, by rw [hnew.1, hx.2, hc2.1], ?_⟩
    rw [chainFrom_congr _ _ _
      (fun a ha => hm a (fun e => hxpost (e ▸ ha)) (fun e => hnpost (e ▸ ha))), hnew.1, hx.1]
    have := hc2.2
    have e : mid + s + ((m x).size - s) = mid + (m x).size := by ring
    rw [e]; exact this
  · intro a ha
    simp only [List.mem_append, List.mem_cons] at ha
    have hold : ∀ a ∈ pre ++ x :: post, a ≠ x → 1 ≤ (m a).size := by
      intro a ha hax
      rcases h.sizes with h1 | h1
      · exfalso
        have : pre = [] ∧ post = [] := by
          simp only [List.length_append, List.length_cons] at h1
          constructor
          · apply List.eq_nil_of_length_eq_zero; omega
          · apply List.eq_nil_of_length_eq_zero; omega
        rw [this.1, this.2] at ha
        simp at ha; exact hax ha
      · exact h1 a ha
    rcases ha with ha | ha | ha | ha
    · have hax : a ≠ x := fun e => hxpre (e ▸ ha)
      rw [(hm a hax (fun e => hnpre (e ▸ ha))).1]; exact hold a (by simp [ha]) hax
    · rw [ha, hnew.1]; exact hs1
    · rw [ha, hx.1]; omega
    · have hax : a ≠ x := fun e => hxpost (e ▸ ha)
      rw [(hm a hax (fun e => hnpost (e ▸ ha))).1]; exact hold a (by simp [ha]) hax

/-! ## The state invariant under `allocate` -/

theorem region_mk_iff {p : MemoryPart} {a b : Int} {c : MemoryState} :
    p.region = ⟨a, b, c⟩ ↔ p.size = a ∧ p.offset = b ∧ p.state = c := by
  simp [MemoryPart.region]

theorem Inv.bump {T : Int} {st : MemoryManager} (h : Inv T st) :
    Inv T { st with requestsCount := st.requestsCount + 1 } :=
  ⟨h.list, h.heap, ⟨h.hist.sorted, fun r hr => Nat.le_succ_of_le (h.hist.bound r hr),
    h.hist.nodup, h.hist.occupied, h.hist.recorded⟩⟩

/-- Appending the record of a newly occupied region keeps the invariant of the
history. -/
theorem HistOk.push {m m' : Nodes} {parts parts' : List Nat} {history : List Operation}
    {count p : Nat} (h : HistOk m parts history count)
    (hp : ∀ r ∈ history, r.part ≠ p) (hpocc : (m' p).state = IS_OCCUPIED) (hpin : p ∈ parts')
    (hold : ∀ r ∈ history, r.part ∈ parts' ∧ (m' r.part).state = IS_OCCUPIED)
    (hrec : ∀ a ∈ parts', (m' a).state = IS_OCCUPIED →
      a = p ∨ (a ∈ parts ∧ (m a).state = IS_OCCUPIED)) :
    HistOk m' parts' (history ++ [⟨count + 1, p⟩]) (count + 1) := by
  refine ⟨?_, ?_, ?_, ?_, ?_⟩
  · rw [List.pairwise_append]
    refine ⟨h.sorted, List.pairwise_singleton _ _, ?_⟩
    intro a ha b hb
    simp only [List.mem_singleton] at hb
    subst hb
    exact Nat.lt_succ_of_le (h.bound a ha)
  · intro r hr
    rcases List.mem_append.mp hr with hr | hr
    · exact Nat.le_succ_of_le (h.bound r hr)
    · simp only [List.mem_singleton] at hr; subst hr; exact le_refl _
  · rw [List.map_append, List.nodup_append]
    refine ⟨h.nodup, List.nodup_singleton _, ?_⟩
    intro a ha hb
    simp only [List.map_cons, List.map_nil, List.mem_singleton] at hb
    obtain ⟨r, hr, rfl⟩ := List.mem_map.mp ha
    exact hp r hr hb
  · intro r hr
    rcases List.mem_append.mp hr with hr | hr
    · exact hold r hr
    · simp only [List.mem_singleton] at hr; subst hr; exact ⟨hpin, hpocc⟩
  · intro a ha hocc
    rcases hrec a ha hocc with e | ⟨e1, e2⟩
    · exact ⟨⟨count + 1, p⟩, by simp, e.symm⟩
    · obtain ⟨r, hr, hra⟩ := h.recorded a e1 e2
      exact ⟨r, List.mem_append_left _ hr, hra⟩

/-- The state invariant is kept by `allocate(n)` with `n ≥ 1`. -/
theorem Inv.allocate_inv {T : Int} {st st' : MemoryManager} {s o : Int} (hinv : Inv T st)
    (hs : 1 ≤ s) (h : st.allocate s = .ok (st', o)) : Inv T st' := by
  cases hh : st.freeMemory_ with
  | nil =>
    rw [allocate_nil st s hh] at h
    cases h; exact hinv.bump
  | cons x xs =>
    have hxheap : x ∈ st.freeMemory_ := by rw [hh]; simp
    have hxparts := (hinv.heap.free x hxheap).1
    have hxfree := (hinv.heap.free x hxheap).2
    have hnotrec : ∀ r ∈ st.operationsHistory_, r.part ≠ x := by
      intro r hr e
      have := (hinv.hist.occupied r hr).2
      rw [e, hxfree] at this
      exact absurd this (by simp)
    rcases lt_trichotomy (st.nodes x).size s with hlt | heq | hgt
    · rw [allocate_small st s hh hlt] at h
      cases h; exact hinv.bump
    · obtain ⟨st'', e, e1, e2, e3, e4, e5, e6, e7, _⟩ := allocate_exact_spec hinv.heap hh
      rw [heq, h] at e
      cases e
      have hx := region_mk_iff.mp e6
      refine ⟨?_, e7, ?_⟩
      · rw [e1, e2]
        refine hinv.list.congr_list ?_
        intro a _
        by_cases hax : a = x
        · subst hax; exact ⟨hx.1, hx.2.1⟩
        · have := region_eq_iff.mp (e5 a hax); exact ⟨this.1, this.2.1⟩
      · rw [e1, e3, e4]
        refine hinv.hist.push hnotrec hx.2.2 hxparts ?_ ?_
        · intro r hr
          have := region_eq_iff.mp (e5 r.part (hnotrec r hr))
          exact ⟨(hinv.hist.occupied r hr).1, by rw [this.2.2]; exact (hinv.hist.occupied r hr).2⟩
        · intro a ha hocc
          by_cases hax : a = x
          · exact Or.inl hax
          · have := region_eq_iff.mp (e5 a hax)
            exact Or.inr ⟨ha, by rw [← this.2.2]; exact hocc⟩
    · obtain ⟨st'', e, e1, e2, e3, e4, e5, e6, e7, e8, _⟩ :=
        allocate_split_spec hinv.heap hinv.list.lt_fresh hh hgt
      rw [h] at e
      cases e
      have hx := region_mk_iff.mp e6
      have hn := region_mk_iff.mp e7
      obtain ⟨pre, post, hsplit, hxpre, hxpost⟩ := split_of_mem_nodup hinv.list.nodup hxparts
      have hfx : st.fresh ≠ x := fun e => by
        have := hinv.list.lt_fresh x hxparts; omega
      have hparts' : st'.memoryParts_ = pre ++ st.fresh :: x :: post := by
        rw [e1, hsplit, insertBefore_append hxpre]
      refine ⟨?_, e8, ?_⟩
      · rw [hparts', e2]
        have hl := hinv.list
        rw [hsplit] at hl
        refine hl.split rfl hs hgt ?_ ⟨hx.1, hx.2.1⟩ ⟨hn.1, hn.2.1⟩
        intro a h1 h2
        have := region_eq_iff.mp (e5 a h1 h2); exact ⟨this.1, this.2.1⟩
      · rw [e3, e4]
        have hrf : ∀ r ∈ st.operationsHistory_, r.part ≠ st.fresh := by
          intro r hr e
          have := hinv.list.lt_fresh _ (hinv.hist.occupied r hr).1
          omega
        refine hinv.hist.push hrf hn.2.2 (by rw [hparts']; simp) ?_ ?_
        · intro r hr
          have := region_eq_iff.mp (e5 r.part (hnotrec r hr) (hrf r hr))
          refine ⟨?_, by rw [this.2.2]; exact (hinv.hist.occupied r hr).2⟩
          rw [e1]; exact mem_insertBefore.mpr (Or.inr (hinv.hist.occupied r hr).1)
        · intro a ha hocc
          by_cases haf : a = st.fresh
          · exact Or.inl haf
          · right
            rw [e1] at ha
            have hap : a ∈ st.memoryParts_ := by
              rcases mem_insertBefore.mp ha with e | e
              · exact absurd e haf
              · exact e
            have hax : a ≠ x := by
              intro e
              rw [e, hx.2.2, hxfree] at hocc
              exact absurd hocc (by simp)
            have := region_eq_iff.mp (e5 a hax haf)
            exact ⟨hap, by rw [← this.2.2]; exact hocc⟩

/-! ## Method `merge` -/

theorem merge_none (st : MemoryManager) (first : Nat) : merge st first none = (st, false) := rfl

theorem merge_head {st : MemoryManager} {first second : Nat}
    (h : st.memoryParts_.head? = some second) : merge st first (some second) = (st, false) := by
  simp only [merge, if_pos h]

theorem merge_not_free {st : MemoryManager} {first second : Nat}
    (h : ¬ ((st.nodes first).state = IS_FREE ∧ (st.nodes second).state = IS_FREE)) :
    merge st first (some second) = (st, false) := by
  simp only [merge, if_neg h]
  split <;> rfl

/-- Method `merge` on two free regions, the second of which is not the first of the
list. -/
theorem merge_true_spec {st : MemoryManager} {a b : Nat}
    (hheap : HeapOk st.nodes st.memoryParts_ st.freeMemory_)
    (hhead : st.memoryParts_.head? ≠ some b) (hab : a ≠ b)
    (ha : (st.nodes a).state = IS_FREE) (hb : (st.nodes b).state = IS_FREE) :
    ∃ st', merge st a (some b) = (st', true) ∧
      st'.memoryParts_ = st.memoryParts_.erase b ∧ st'.fresh = st.fresh ∧
      st'.operationsHistory_ = st.operationsHistory_ ∧ st'.requestsCount = st.requestsCount ∧
      (∀ x, x ≠ a → (st'.nodes x).region = (st.nodes x).region) ∧
      (st'.nodes a).region =
        ⟨(st.nodes a).size + (st.nodes b).size, (st.nodes a).offset, IS_FREE⟩ ∧
      HeapOk st'.nodes st'.memoryParts_ st'.freeMemory_ ∧
      a ∉ st'.freeMemory_ ∧ st'.freeMemory_.Subperm st.freeMemory_ := by
  simp only [merge, if_neg hhead, if_pos (And.intro ha hb)]
  refine ⟨_, rfl, rfl, rfl, rfl, rfl, ?_⟩
  simp only
  obtain ⟨k1, s1, p1⟩ := hheap.remove (st.nodes a).index
  have n1 := hheap.remove_not_mem a
  generalize Heap.remove partOps st.nodes st.freeMemory_ (st.nodes a).index = r₁ at *
  obtain ⟨k2, s2, p2⟩ := k1.remove (r₁.1 b).index
  have n2 := k1.remove_not_mem b
  generalize Heap.remove partOps r₁.1 r₁.2 (r₁.1 b).index = r₂ at *
  have na : a ∉ r₂.2 := fun h => n1 (p2.subset h)
  have hs := s1.trans_same s2
  refine ⟨?_, ?_, ?_, na, p2.trans p1⟩
  · intro x hx
    by_cases hxb : x = b
    · subst hxb
      simp only [setSize, setIndex, Function.update_noteq hx, Function.update_same,
        MemoryPart.region, (hs x).1, (hs x).2.1, (hs x).2.2]
    · simp only [setSize, setIndex, Function.update_noteq hx, Function.update_noteq hxb]
      exact hs.region x
  · simp only [setSize, setIndex, Function.update_same, Function.update_noteq hab,
      Function.update_noteq hab.symm, MemoryPart.region, (hs a).1, (hs b).1, (hs a).2.1,
      (hs a).2.2, ha]
  · refine k2.congr_heap ?_ ?_
    · intro x hx
      have hxa : x ≠ a := fun e => na (e ▸ hx)
      have hxb : x ≠ b := fun e => n2 (e ▸ hx)
      simp only [setSize, setIndex, Function.update_noteq hxa, Function.update_noteq hxb]
    · intro x hx hp
      have hxb : x ≠ b := fun e => n2 (e ▸ hx)
      exact (List.mem_erase_of_ne hxb).mpr hp

/-! ## The steps of `revoke` -/

theorem nextOf_split {pre post : List Nat} {a : Nat} (ha : a ∉ pre) :
    nextOf (pre ++ a :: post) a = post.head? := by
  cases post with
  | nil => exact nextOf_append_last ha
  | cons b post => exact nextOf_append ha b post

theorem head?_ne_of_nodup {pre post : List Nat} {a b : Nat}
    (hn : (pre ++ a :: b :: post).Nodup) : (pre ++ a :: b :: post).head? ≠ some b := by
  intro h
  cases pre with
  | nil =>
    simp only [List.nil_append, List.head?_cons, Option.some.injEq] at h
    subst h
    simp at hn
  | cons x pre =>
    simp only [List.cons_append, List.head?_cons, Option.some.injEq] at h
    subst h
    simp at hn

/-- The first step of `revoke`: the region of the record is marked free. -/
theorem freedAt_start {T : Int} {st : MemoryManager} (hinv : Inv T st) {R : Nat}
    {pre post : List Nat} (hparts : st.memoryParts_ = pre ++ R :: post)
    (hocc : (st.nodes R).state = IS_OCCUPIED) :
    FreedAt T st
      { st with requestsCount := st.requestsCount + 1
                nodes := setState st.nodes R IS_FREE } R pre R post (st.nodes R).size := by
  have hRheap : R ∉ st.freeMemory_ := by
    intro h
    have := (hinv.heap.free R h).2
    rw [hocc] at this; exact absurd this (by simp)
  refine ⟨hparts, rfl, rfl, rfl, ?_, ?_, ?_, ?_, hRheap, fun _ h => h, fun _ h _ _ => h,
    by simp only [setState, Function.update_same]⟩
  · intro x _ hx
    simp only [setState, Function.update_noteq hx]
  · simp only [setState, Function.update_same, MemoryPart.region]
  · refine hinv.list.congr_list ?_
    intro a _
    by_cases ha : a = R
    · subst ha; simp only [setState, Function.update_same, and_self]
    · simp only [setState, Function.update_noteq ha, and_self]
  · refine hinv.heap.congr_heap ?_ (fun _ _ h => h)
    intro a ha
    have : a ≠ R := fun e => hRheap (e ▸ ha)
    simp only [setState, Function.update_noteq this]

/-- The second step of `revoke`: the call `merge(part, next(part))`. -/
theorem freedAt_next {T : Int} {st0 st : MemoryManager} {R : Nat} {pre post : List Nat}
    {sz : Int} (h : FreedAt T st0 st R pre R post sz) :
    ∃ postA szA,
      FreedAt T st0 (merge st R (nextOf st.memoryParts_ R)).1 R pre R postA szA ∧
      ((postA = post ∧ szA = sz ∧
          ∀ N, post.head? = some N → (st0.nodes N).state = IS_OCCUPIED) ∨
        ∃ N, post = N :: postA ∧ (st0.nodes N).state = IS_FREE ∧
          szA = sz + (st0.nodes N).size) := by
  have hnd := h.list.nodup
  rw [h.parts] at hnd
  have hRpre : R ∉ pre := by
    intro hp; rw [List.nodup_append] at hnd; exact hnd.2.2 hp (by simp)
  rw [h.parts, nextOf_split hRpre]
  cases post with
  | nil =>
    refine ⟨[], sz, ?_, Or.inl ⟨rfl, rfl, fun N hN => by simp at hN⟩⟩
    simp only [List.head?_nil, merge_none]
    exact h
  | cons N post₂ =>
    have hNR : N ≠ R := by
      intro e; subst e
      rw [List.nodup_append, List.nodup_cons] at hnd
      exact hnd.2.1.1 (by simp)
    have hNmem : N ∈ st.memoryParts_ := by rw [h.parts]; simp
    have hNreg := region_eq_iff.mp (h.others N hNmem hNR)
    have hRreg := region_mk_iff.mp h.region
    simp only [List.head?_cons]
    by_cases hfree : (st0.nodes N).state = IS_FREE
    · have hhead : st.memoryParts_.head? ≠ some N := by
        rw [h.parts]; exact head?_ne_of_nodup hnd
      obtain ⟨st', e, e1, e2, e3, e4, e5, e6, e7, e8, e9⟩ :=
        merge_true_spec h.heap hhead hNR.symm hRreg.2.2 (by rw [hNreg.2.2]; exact hfree)
      rw [e]
      have hNpre : N ∉ pre ++ [R] := by
        intro hp
        have hnd' : ((pre ++ [R]) ++ N :: post₂).Nodup := by simpa using hnd
        rw [List.nodup_append] at hnd'
        exact hnd'.2.2 hp (by simp)
      have hparts' : st'.memoryParts_ = pre ++ R :: post₂ := by
        rw [e1, h.parts]
        have := erase_append_mid hNpre post₂
        simpa using this
      have hR' := region_mk_iff.mp e6
      refine ⟨post₂, sz + (st0.nodes N).size, ⟨hparts', e2.trans h.fresh, e3.trans h.hist,
        e4.trans h.count, ?_, ?_, ?_, e7, e8, ?_, ?_, hR'.2.2⟩, Or.inr ⟨N, rfl, hfree, rfl⟩⟩
      · intro x hx hxR
        rw [e5 x hxR]
        refine h.others x ?_ hxR
        rw [h.parts]; rw [hparts'] at hx
        simp only [List.mem_append, List.mem_cons] at hx ⊢
        tauto
      · rw [e6, hRreg.1, hNreg.1, hRreg.2.1]
      · rw [hparts', e2]
        have hl := h.list
        rw [h.parts] at hl
        refine hl.merge ?_ hR'.1 hR'.2.1
        intro x hx
        have := region_eq_iff.mp (e5 x hx); exact ⟨this.1, this.2.1⟩
      · intro x hx
        refine h.sub x ?_
        rw [h.parts]; rw [hparts'] at hx
        simp only [List.mem_append, List.mem_cons] at hx ⊢
        tauto
      · intro x hx hocc hxR
        have hx' := h.keeps x hx hocc hxR
        have hxN : x ≠ N := by
          intro e; rw [e, hfree] at hocc; exact absurd hocc (by simp)
        rw [h.parts] at hx'; rw [hparts']
        simp only [List.mem_append, List.mem_cons] at hx' ⊢
        tauto
    · have hocc : (st0.nodes N).state = IS_OCCUPIED := by
        cases hst : (st0.nodes N).state
        · exact absurd hst hfree
        · rfl
      rw [merge_not_free (by rw [hNreg.2.2]; exact fun hh => hfree hh.2)]
      exact ⟨N :: post₂, sz, h, Or.inl ⟨rfl, rfl, fun N' hN' => by
        simp only [Option.some.injEq] at hN'; subst hN'; exact hocc⟩⟩

theorem insertFree_spec {st : MemoryManager} {x : Nat}
    (hheap : HeapOk st.nodes st.memoryParts_ st.freeMemory_) (hx : x ∉ st.freeMemory_)
    (hxp : x ∈ st.memoryParts_) (hf : (st.nodes x).state = IS_FREE) :
    HeapOk (insertFree st x).nodes (insertFree st x).memoryParts_ (insertFree st x).freeMemory_ ∧
      SameRegions st.nodes (insertFree st x).nodes ∧
      (insertFree st x).freeMemory_.Perm (x :: st.freeMemory_) := by
  have hsame : SameRegions st.nodes (setIndex st.nodes x st.freeMemory_.length) := by
    intro a
    by_cases ha : a = x
    · subst ha; simp only [setIndex, Function.update_same, and_self]
    · simp only [setIndex, Function.update_noteq ha, and_self]
  have hok : HeapOk (setIndex st.nodes x st.freeMemory_.length) st.memoryParts_
      st.freeMemory_ := by
    refine hheap.congr_heap ?_ (fun _ _ h => h)
    intro a ha
    have : a ≠ x := fun e => hx (e ▸ ha)
    simp only [setIndex, Function.update_noteq this]
  obtain ⟨i1, i2, i3⟩ := hok.insert hx hxp (by rw [(hsame x).2.2]; exact hf)
    (by simp only [setIndex, Function.update_same])
  exact ⟨i1, hsame.trans_same i2, i3⟩

theorem prevOf_split {pre post : List Nat} {P R : Nat}
    (hn : (pre ++ P :: R :: post).Nodup) : prevOf (pre ++ P :: R :: post) R = P := by
  have hRpre : R ∉ pre := by
    intro hp; rw [List.nodup_append] at hn; exact hn.2.2 hp (by simp)
  have hPR : P ≠ R := by
    intro e; subst e
    rw [List.nodup_append, List.nodup_cons] at hn
    exact hn.2.1.1 (by simp)
  exact prevOf_append hRpre hPR post

/-- The third step of `revoke`: the choice of `prev` and the call `merge(prev, part)`. -/
theorem freedAt_prev {T : Int} {st0 st : MemoryManager} {R : Nat} {pre post : List Nat}
    {sz : Int} (h : FreedAt T st0 st R pre R post sz) :
    (merge st (if (st.nodes R).offset ≠ 1 then prevOf st.memoryParts_ R else R)
        (some R) = (st, false) ∧
      ∀ P, pre.getLast? = some P → (st0.nodes P).state = IS_OCCUPIED) ∨
    ∃ P pre₂, pre = pre₂ ++ [P] ∧ (st0.nodes P).state = IS_FREE ∧
      (if (st.nodes R).offset ≠ 1 then prevOf st.memoryParts_ R else R) = P ∧
      (merge st P (some R)).2 = true ∧
      FreedAt T st0 (merge st P (some R)).1 R pre₂ P post ((st0.nodes P).size + sz) := by
  have hnd := h.list.nodup
  rw [h.parts] at hnd
  have hRreg := region_mk_iff.mp h.region
  rcases List.eq_nil_or_concat pre with hpre | ⟨pre₂, P, hpre⟩
  · subst hpre
    left
    have hoff : (st.nodes R).offset = 1 := by
      have := h.list.chain
      rw [h.parts] at this
      exact this.1
    rw [if_neg (by simp [hoff])]
    exact ⟨merge_head (by rw [h.parts]; rfl), fun P hP => by simp at hP⟩
  · rw [List.concat_eq_append] at hpre
    subst hpre
    have hparts : st.memoryParts_ = pre₂ ++ P :: R :: post := by
      rw [h.parts]; simp
    have hnd2 : (pre₂ ++ P :: R :: post).Nodup := by simpa using hnd
    have hoff : (st.nodes R).offset ≠ 1 := by
      have hc := h.list.chain
      rw [h.parts, chainFrom_append] at hc
      obtain ⟨mid, hc1, hc2⟩ := hc
      have hsz := h.list.sizes_of_two
        (by rw [hparts]; simp only [List.length_append, List.length_cons]; omega)
      have := chainFrom_le _ _ _ (fun x hx => hsz x (by
        rw [hparts]
        simp only [List.mem_append, List.mem_cons, List.mem_singleton] at hx ⊢
        tauto)) hc1
      have e := hc2.1
      simp only [List.length_append, List.length_singleton, Nat.cast_add, Nat.cast_one] at this
      omega
    rw [if_pos hoff, hparts, prevOf_split hnd2]
    have hPR : P ≠ R := by
      intro e; subst e
      rw [List.nodup_append, List.nodup_cons] at hnd2
      exact hnd2.2.1.1 (by simp)
    have hPmem : P ∈ st.memoryParts_ := by rw [hparts]; simp
    have hPreg := region_eq_iff.mp (h.others P hPmem hPR)
    by_cases hfree : (st0.nodes P).state = IS_FREE
    · right
      have hhead : st.memoryParts_.head? ≠ some R := by
        rw [hparts]; exact head?_ne_of_nodup hnd2
      obtain ⟨st', e, e1, e2, e3, e4, e5, e6, e7, e8, e9⟩ :=
        merge_true_spec h.heap hhead hPR (by rw [hPreg.2.2]; exact hfree) hRreg.2.2
      have hRpre : R ∉ pre₂ ++ [P] := by
        intro hp
        have hnd' : ((pre₂ ++ [P]) ++ R :: post).Nodup := by simpa using hnd2
        rw [List.nodup_append] at hnd'
        exact hnd'.2.2 hp (by simp)
      have hparts' : st'.memoryParts_ = pre₂ ++ P :: post := by
        rw [e1, hparts]
        have := erase_append_mid hRpre post
        simpa using this
      have hP' := region_mk_iff.mp e6
      have hRnot : R ∉ st'.memoryParts_ := by
        rw [hparts']
        intro hp
        simp only [List.mem_append, List.mem_cons] at hp
        rw [List.nodup_append, List.nodup_cons, List.nodup_cons] at hnd2
        rcases hp with hp | hp | hp
        · exact hRpre (by simp [hp])
        · exact hPR hp.symm
        · exact hnd2.2.1.2.1 hp
      refine ⟨P, pre₂, rfl, hfree, rfl, by rw [e], ?_⟩
      rw [e]
      refine ⟨hparts', e2.trans h.fresh, e3.trans h.hist, e4.trans h.count, ?_, ?_, ?_, e7, e8,
        ?_, ?_, by rw [(region_eq_iff.mp (e5 R hPR.symm)).2.2]; exact hRreg.2.2⟩
      · intro x hx hxP
        rw [e5 x hxP]
        refine h.others x ?_ (fun e => hRnot (e ▸ hx))
        rw [hparts]; rw [hparts'] at hx
        simp only [List.mem_append, List.mem_cons] at hx ⊢
        tauto
      · rw [e6, hPreg.1, hPreg.2.1, hRreg.1]
      · rw [hparts', e2]
        have hl := h.list
        rw [hparts] at hl
        refine hl.merge ?_ hP'.1 hP'.2.1
        intro x hx
        have := region_eq_iff.mp (e5 x hx); exact ⟨this.1, this.2.1⟩
      · intro x hx
        refine h.sub x ?_
        rw [hparts]; rw [hparts'] at hx
        simp only [List.mem_append, List.mem_cons] at hx ⊢
        tauto
      · intro x hx hocc hxR
        have hx' := h.keeps x hx hocc hxR
        rw [hparts] at hx'; rw [hparts']
        simp only [List.mem_append, List.mem_cons] at hx' ⊢
        tauto
    · left
      have hocc : (st0.nodes P).state = IS_OCCUPIED := by
        cases hst : (st0.nodes P).state
        · exact absurd hst hfree
        · rfl
      refine ⟨merge_not_free (by rw [hPreg.2.2]; exact fun hh => hfree hh.1), ?_⟩
      intro P' hP'
      rw [List.getLast?_concat, Option.some.injEq] at hP'
      subst hP'; exact hocc

/-! ## Method `revoke` as a whole -/

theorem revoke_not_found {st : MemoryManager} {k : Nat} (h : st.findOperationById k = none) :
    st.revoke k = { st with requestsCount := st.requestsCount + 1 } := by
  have h' : findOperationById { st with requestsCount := st.requestsCount + 1 } k = none := h
  simp only [revoke, h']

theorem revoke_found {st : MemoryManager} {k i : Nat} (h : st.findOperationById k = some i) :
    st.revoke k =
      (let part := (st.operationsHistory_.getD i default).part
       let st₁ : MemoryManager :=
         { st with requestsCount := st.requestsCount + 1
                   nodes := setState st.nodes part IS_FREE }
       let st₂ := (merge st₁ part (nextOf st₁.memoryParts_ part)).1
       let prev := if (st₂.nodes part).offset ≠ 1 then prevOf st₂.memoryParts_ part else part
       let r := merge st₂ prev (some part)
       let st₃ := if r.2 = true then insertFree r.1 prev else insertFree r.1 part
       { st₃ with operationsHistory_ := st₃.operationsHistory_.eraseIdx i }) := by
  have h' : findOperationById { st with requestsCount := st.requestsCount + 1 } k = some i := h
  simp only [revoke, h']

/-- The steps of a `revoke` that finds its record, taken one at a time. -/
theorem revoke_found_steps {st : MemoryManager} {k i : Nat}
    (h : st.findOperationById k = some i) :
    ∃ (st₁ st₂ : MemoryManager) (prev : Nat) (r : MemoryManager × Bool) (st₃ : MemoryManager),
      st₁ = { st with requestsCount := st.requestsCount + 1
                      nodes := setState st.nodes (st.operationsHistory_.getD i default).part
                        IS_FREE } ∧
      st₂ = (merge st₁ (st.operationsHistory_.getD i default).part
        (nextOf st₁.memoryParts_ (st.operationsHistory_.getD i default).part)).1 ∧
      prev = (if (st₂.nodes (st.operationsHistory_.getD i default).part).offset ≠ 1
        then prevOf st₂.memoryParts_ (st.operationsHistory_.getD i default).part
        else (st.operationsHistory_.getD i default).part) ∧
      r = merge st₂ prev (some (st.operationsHistory_.getD i default).part) ∧
      st₃ = (if r.2 = true then insertFree r.1 prev
        else insertFree r.1 (st.operationsHistory_.getD i default).part) ∧
      st.revoke k = { st₃ with operationsHistory_ := st₃.operationsHistory_.eraseIdx i } :=
  ⟨_, _, _, _, _, rfl, rfl, rfl, rfl, rfl, revoke_found h⟩

/-- The last steps of `revoke`: the region that holds the freed space enters the heap and
the record leaves the history. -/
theorem freedAt_finish {T : Int} {st0 st : MemoryManager} {R M : Nat} {pre post : List Nat}
    {sz : Int} {i : Nat} (hinv : Inv T st0) (hi : i < st0.operationsHistory_.length)
    (hR : st0.operationsHistory_[i].part = R)
    (hM : M = R ∨ (st0.nodes M).state = IS_FREE)
    (F : FreedAt T st0 st R pre M post sz) :
    Inv T { insertFree st M with
        operationsHistory_ := (insertFree st M).operationsHistory_.eraseIdx i } ∧
      M ∈ (insertFree st M).freeMemory_ ∧
      (insertFree st M).memoryParts_ = pre ++ M :: post ∧
      (∀ x ∈ pre ++ post, ((insertFree st M).nodes x).region = (st0.nodes x).region) ∧
      ((insertFree st M).nodes M).region = ⟨sz, (st0.nodes M).offset, IS_FREE⟩ ∧
      (insertFree st M).operationsHistory_.eraseIdx i = st0.operationsHistory_.eraseIdx i ∧
      (insertFree st M).requestsCount = st0.requestsCount + 1 := by
  have hMmem : M ∈ st.memoryParts_ := by rw [F.parts]; simp
  have hMreg := region_mk_iff.mp F.region
  obtain ⟨k1, k2, k3⟩ := insertFree_spec F.heap F.notin hMmem hMreg.2.2
  have hparts : (insertFree st M).memoryParts_ = st.memoryParts_ := rfl
  have hhist : (insertFree st M).operationsHistory_ = st0.operationsHistory_ := F.hist
  have hnd := F.list.nodup
  have hRocc : (st0.nodes R).state = IS_OCCUPIED := by
    rw [← hR]; exact (hinv.hist.occupied _ (List.getElem_mem hi)).2
  have hother : ∀ x ∈ st.memoryParts_, x ≠ M →
      ((insertFree st M).nodes x).region = (st0.nodes x).region := by
    intro x hx hxM
    rw [k2.region x]; exact F.others x hx hxM
  -- a record other than the revoked one names another region
  have hrec : ∀ r ∈ st0.operationsHistory_.eraseIdx i,
      r ∈ st0.operationsHistory_ ∧ r.part ≠ R := by
    intro r hr
    obtain ⟨j, hj, hji, hjr⟩ := List.mem_eraseIdx_iff_getElem.mp hr
    refine ⟨hjr ▸ List.getElem_mem hj, ?_⟩
    intro e
    have hnd' := hinv.hist.nodup
    have e1 : st0.operationsHistory_[j] = st0.operationsHistory_[i] :=
      List.inj_on_of_nodup_map hnd' (List.getElem_mem hj) (List.getElem_mem hi)
        (by rw [hjr, e, hR])
    exact hji ((List.Nodup.getElem_inj_iff (List.Nodup.of_map _ hnd')).mp e1)
  refine ⟨⟨?_, k1, ?_⟩, k3.mem_iff.mpr (by simp), F.parts, ?_, ?_, by rw [hhist], F.count⟩
  · show ListOk T (insertFree st M).nodes st.memoryParts_ st.fresh
    refine F.list.congr_list ?_
    intro a _
    exact ⟨(k2 a).1, (k2 a).2.1⟩
  · show HistOk (insertFree st M).nodes st.memoryParts_
      ((insertFree st M).operationsHistory_.eraseIdx i) (insertFree st M).requestsCount
    rw [hhist, show (insertFree st M).requestsCount = st0.requestsCount + 1 from F.count]
    refine ⟨hinv.hist.sorted.sublist (List.eraseIdx_sublist _ _), ?_, ?_, ?_, ?_⟩
    · intro r hr
      exact Nat.le_succ_of_le (hinv.hist.bound r (hrec r hr).1)
    · exact hinv.hist.nodup.sublist ((List.eraseIdx_sublist _ _).map _)
    · intro r hr
      obtain ⟨hr1, hr2⟩ := hrec r hr
      obtain ⟨hp, hocc⟩ := hinv.hist.occupied r hr1
      have hmem := F.keeps r.part hp hocc hr2
      have hneM : r.part ≠ M := by
        intro e
        rcases hM with hM | hM
        · exact hr2 (e.trans hM)
        · rw [e, hM] at hocc; exact absurd hocc (by simp)
      refine ⟨hmem, ?_⟩
      rw [(region_eq_iff.mp (hother r.part hmem hneM)).2.2]; exact hocc
    · intro x hx hocc
      have hxM : x ≠ M := by
        intro e
        rw [e, (k2 M).2.2, hMreg.2.2] at hocc
        exact absurd hocc (by simp)
      have hreg := region_eq_iff.mp (hother x hx hxM)
      rw [hreg.2.2] at hocc
      obtain ⟨r, hr, hrx⟩ := hinv.hist.recorded x (F.sub x hx) hocc
      have hxR : x ≠ R := by
        intro e
        have := F.freed
        rw [← e, ← (k2 x).2.2, hreg.2.2, hocc] at this
        exact absurd this (by simp)
      refine ⟨r, ?_, hrx⟩
      obtain ⟨j, hj, hjr⟩ := List.getElem_of_mem hr
      refine List.mem_eraseIdx_iff_getElem.mpr ⟨j, hj, ?_, hjr⟩
      intro e
      subst e
      rw [hjr] at hR
      exact hxR (hrx.symm.trans hR)
  · intro x hx
    rw [F.parts] at hnd
    have hxM : x ≠ M := by
      intro e; subst e
      rw [List.nodup_append, List.nodup_cons] at hnd
      rcases List.mem_append.mp hx with h1 | h1
      · exact hnd.2.2 h1 (by simp)
      · exact hnd.2.1.1 h1
    refine hother x ?_ hxM
    rw [F.parts]
    simp only [List.mem_append, List.mem_cons] at hx ⊢
    tauto
  · rw [k2.region M]; exact F.region

/-- Method `revoke` on the id of a record of the history, in a state that satisfies the
invariant: which regions it merges, what the merged region is, and that the invariant
holds again. -/
theorem revoke_spec {T : Int} {st : MemoryManager} (hinv : Inv T st) {i : Nat}
    (hi : i < st.operationsHistory_.length) :
    ∃ pre post preB M postA szP szN,
      st.memoryParts_ = pre ++ st.operationsHistory_[i].part :: post ∧
      (st.revoke st.operationsHistory_[i].id).memoryParts_ = preB ++ M :: postA ∧
      ((preB = pre ∧ M = st.operationsHistory_[i].part ∧ szP = 0 ∧
          ∀ P, pre.getLast? = some P → (st.nodes P).state = IS_OCCUPIED) ∨
        (pre = preB ++ [M] ∧ (st.nodes M).state = IS_FREE ∧ szP = (st.nodes M).size)) ∧
      ((postA = post ∧ szN = 0 ∧
          ∀ N, post.head? = some N → (st.nodes N).state = IS_OCCUPIED) ∨
        (∃ N, post = N :: postA ∧ (st.nodes N).state = IS_FREE ∧ szN = (st.nodes N).size)) ∧
      (∀ x ∈ preB ++ postA,
        ((st.revoke st.operationsHistory_[i].id).nodes x).region = (st.nodes x).region) ∧
      ((st.revoke st.operationsHistory_[i].id).nodes M).region =
        ⟨szP + (st.nodes st.operationsHistory_[i].part).size + szN, (st.nodes M).offset,
          IS_FREE⟩ ∧
      M ∈ (st.revoke st.operationsHistory_[i].id).freeMemory_ ∧
      Inv T (st.revoke st.operationsHistory_[i].id) ∧
      (st.revoke st.operationsHistory_[i].id).operationsHistory_ =
        st.operationsHistory_.eraseIdx i ∧
      (st.revoke st.operationsHistory_[i].id).requestsCount = st.requestsCount + 1 := by
  have hfind := findOperationById_some hinv.hist.sorted hi rfl
  have hget : (st.operationsHistory_.getD i default).part = st.operationsHistory_[i].part := by
    rw [List.getD_eq_getElem _ _ hi]
  generalize hRdef : st.operationsHistory_[i].part = R at hget
  have hRocc := hinv.hist.occupied _ (List.getElem_mem hi)
  rw [hRdef] at hRocc
  obtain ⟨pre, post, hparts, _, _⟩ := split_of_mem_nodup hinv.list.nodup hRocc.1
  obtain ⟨st₁, st₂, prev, r, st₃, h₁, h₂, h₃, h₄, h₅, hrev⟩ := revoke_found_steps hfind
  rw [hrev]
  rw [hget] at h₁ h₂ h₃ h₄ h₅
  have F1 : FreedAt T st st₁ R pre R post (st.nodes R).size := by
    rw [h₁]; exact freedAt_start hinv hparts hRocc.2
  obtain ⟨postA, szA, FA, caseA⟩ := freedAt_next F1
  rw [← h₂] at FA
  have hsucc : ∃ szN, szA = (st.nodes R).size + szN ∧
      ((postA = post ∧ szN = 0 ∧
          ∀ N, post.head? = some N → (st.nodes N).state = IS_OCCUPIED) ∨
        (∃ N, post = N :: postA ∧ (st.nodes N).state = IS_FREE ∧ szN = (st.nodes N).size)) := by
    rcases caseA with ⟨c1, c2, c3⟩ | ⟨N, c1, c2, c3⟩
    · exact ⟨0, by rw [c2]; ring, Or.inl ⟨c1, rfl, c3⟩⟩
    · exact ⟨(st.nodes N).size, c3, Or.inr ⟨N, c1, c2, rfl⟩⟩
  obtain ⟨szN, hszA, hsuccCase⟩ := hsucc
  rcases freedAt_prev FA with ⟨hm, hoccP⟩ | ⟨P, pre₂, hpre, hfreeP, hprevP, hr2, FB⟩
  · rw [← h₃] at hm
    rw [hm] at h₄
    rw [h₄] at h₅
    simp only [Bool.false_eq_true, if_false] at h₅
    subst h₅
    obtain ⟨g1, g2, g3, g4, g5, g6, g7⟩ :=
      freedAt_finish (i := i) hinv hi hRdef (Or.inl rfl) FA
    refine ⟨pre, post, pre, R, postA, 0, szN, hparts, g3, Or.inl ⟨rfl, rfl, rfl, hoccP⟩,
      hsuccCase, g4, ?_, g2, g1, g6, g7⟩
    rw [g5, hszA]; simp
  · rw [← h₃] at hprevP
    rw [hprevP] at h₄ h₅
    rw [← h₄] at hr2 FB
    rw [hr2] at h₅
    simp only [if_true] at h₅
    subst h₅
    obtain ⟨g1, g2, g3, g4, g5, g6, g7⟩ :=
      freedAt_finish (i := i) hinv hi hRdef (Or.inr hfreeP) FB
    refine ⟨pre, post, pre₂, P, postA, (st.nodes P).size, szN, hparts, g3,
      Or.inr ⟨hpre, hfreeP, rfl⟩, hsuccCase, g4, ?_, g2, g1, g6, g7⟩
    rw [g5, hszA]; simp [add_assoc]

/-- The state invariant is kept by `revoke`. -/
theorem Inv.revoke_inv {T : Int} {st : MemoryManager} (hinv : Inv T st) (k : Nat) :
    Inv T (st.revoke k) := by
  by_cases h : ∃ r ∈ st.operationsHistory_, r.id = k
  · obtain ⟨r, hr, hrk⟩ := h
    obtain ⟨i, hi, hir⟩ := List.getElem_of_mem hr
    obtain ⟨_, _, _, _, _, _, _, _, _, _, _, _, _, _, hI, _, _⟩ := revoke_spec hinv hi
    rw [hir, hrk] at hI
    exact hI
  · rw [revoke_not_found (findOperationById_none (fun r hr e => h ⟨r, hr, e⟩))]
    exact hinv.bump

/-- The constructor establishes the state invariant. -/
theorem Inv.new (T : Int) : Inv T (MemoryManager.new T) := by
  have hok : HeapOk (Function.update (fun _ => (default : MemoryPart)) 0 ⟨T, 1, 0, IS_FREE⟩)
      [0] [] :=
    ⟨⟨List.nodup_nil, fun p hp => by simp at hp⟩, fun i _ hi => by simp at hi,
      fun h hh => by simp at hh⟩
  obtain ⟨k1, k2, k3⟩ := hok.insert (x := 0) (by simp) (by simp)
    (by simp only [Function.update_same]) (by simp only [Function.update_same]; rfl)
  have h0 : ((MemoryManager.new T).nodes 0).region = ⟨T, 1, IS_FREE⟩ := by
    simp only [MemoryManager.new]
    rw [k2.region 0]
    simp only [Function.update_same, MemoryPart.region]
  have h0' := region_mk_iff.mp h0
  refine ⟨⟨by simp [MemoryManager.new], by simp [MemoryManager.new], ?_, ?_, Or.inl rfl⟩, k1,
    ⟨List.Pairwise.nil, fun r hr => by simp [MemoryManager.new] at hr, List.nodup_nil,
      fun r hr => by simp [MemoryManager.new] at hr, ?_⟩⟩
  · intro h hh
    simp only [MemoryManager.new, List.mem_singleton] at hh
    subst hh; exact Nat.zero_lt_one
  · show ChainFrom (MemoryManager.new T).nodes 1 [0] (T + 1)
    simp only [ChainFrom, h0'.1, h0'.2.1, true_and]
    ring
  · intro h hh hocc
    simp only [MemoryManager.new, List.mem_singleton] at hh
    subst hh
    rw [h0'.2.2] at hocc
    exact absurd hocc (by simp)

/-- Every reachable state satisfies the state invariant. -/
theorem inv_of_reachable {T : Int} {st : MemoryManager} (h : Reachable T st) : Inv T st := by
  induction h with
  | new => exact Inv.new T
  | allocate _ hn ha ih => exact ih.allocate_inv hn ha
  | revoke k _ ih => exact ih.revoke_inv k

/-! # The claims -/

/-- In every reachable state the regions tile `[1, totalSize]` (requests `allocate(n)`
with `n ≥ 1` and `revoke(k)`). -/
theorem tiles_of_reachable {T : Int} {st : MemoryManager} (h : Reachable T st) : Tiles T st :=
  ⟨(inv_of_reachable h).list.ne_nil, (inv_of_reachable h).list.chain⟩

set_option maxRecDepth 100000 in
/-- Claim C1, at the failing input: with total size 6 the accepted request stream
`0, 2, -2` (allocate 0 cells, allocate 2 cells, revoke request 2) ends in a region list
that does not tile `[1, 6]`.  The zero-size region of request 1 sits at offset 1 before
the region of request 2, which also has offset 1; `revoke` takes the latter for the first
node of the list, calls `merge(part, part)`, and `merge` erases the node. -/
theorem C1_tiling_broken_by_zero_size_request :
    ∃ st out, runRequests 6 [0, 2, -2] = .ok (st, out) ∧ ¬ Tiles 6 st :=
  ⟨_, _, rfl, by decide⟩

set_option maxRecDepth 100000 in
/-- Claim C2, at the failing input: with total size 4 the requests `1, 1, 1, 1` followed
by the revocations of the requests 1, 3 and 4 end in a state in which the first region is
free and is not referenced by the free heap. -/
theorem C2_free_region_lost_from_heap :
    ∃ st out, runRequests 4 [1, 1, 1, 1, -1, -3, -4] = .ok (st, out) ∧ ¬ FreeIffInHeap st :=
  ⟨_, _, rfl, by decide⟩

set_option maxRecDepth 100000 in
/-- Claim C3, at the failing input: with total size 6, after the requests `3, 1, 1, 1` and
the revocations of the requests 1, 3 and 4, `allocate(3)` returns `-1` although the
first region of the list is free and has 3 cells. -/
theorem C3_allocate_fails_with_free_region :
    ∃ st out, runRequests 6 [3, 1, 1, 1, -1, -3, -4] = .ok (st, out) ∧
      (∃ st', st.allocate 3 = .ok (st', FAIL_CODE)) ∧ HasFreeRegion st 3 :=
  ⟨_, _, rfl, ⟨_, rfl⟩, by decide⟩

theorem offset_pos_of_listOk {T : Int} {m : Nodes} {parts : List Nat} {fresh : Nat}
    (h : ListOk T m parts fresh) {x : Nat} (hx : x ∈ parts) : 1 ≤ (m x).offset := by
  obtain ⟨pre, post, hsplit, _, _⟩ := split_of_mem_nodup h.nodup hx
  have hc := h.chain
  rw [hsplit, chainFrom_append] at hc
  obtain ⟨mid, hc1, hc2⟩ := hc
  rw [hc2.1]
  cases pre with
  | nil => exact le_of_eq hc1
  | cons y pre =>
    have hsz := h.sizes_of_two (by
      rw [hsplit]; simp only [List.length_append, List.length_cons]; omega)
    have := chainFrom_le _ _ _ (fun a ha => hsz a (by
      rw [hsplit]; exact List.mem_append_left _ ha)) hc1
    omega

/-- In a heap no element compares before the first one. -/
theorem IsHeap.top_max {T : Type} [Inhabited T] {c : T → T → Bool} (hc : StrictWeak c)
    {xs : List T} (h : IsHeap c xs) :
    ∀ i, i < xs.length → c (Heap.elemAt xs i) (Heap.elemAt xs 0) = false := by
  intro i
  induction i using Nat.strong_induction_on with
  | _ i ih =>
    intro hi
    rcases Nat.eq_zero_or_pos i with h0 | h0
    · subst h0; exact hc.irrefl _
    · exact hc.negtrans _ _ _ (h i h0 hi) (ih ((i - 1) / 2) (by omega) (by omega))

/-- Method `allocate` on a reachable state whose free heap has the top region `M`, for a
size that fits into `M`: what it returns, the record it appends and what becomes of the
region list and of the heap on the splitting path and on the exact-fit path. -/
theorem allocate_top_spec {T : Int} {st : MemoryManager} {M : Nat} {rest : List Nat}
    {s : Int} (hreach : Reachable T st) (htop : st.freeMemory_ = M :: rest)
    (hs : s ≤ (st.nodes M).size) :
    ∃ st' occupied, st.allocate s = .ok (st', (st.nodes M).offset) ∧
      st'.operationsHistory_ =
        st.operationsHistory_ ++ [⟨st.requestsCount + 1, occupied⟩] ∧
      (st'.nodes occupied).region = ⟨s, (st.nodes M).offset, IS_OCCUPIED⟩ ∧
      (∀ x ∈ st.memoryParts_, x ≠ M → (st'.nodes x).region = (st.nodes x).region) ∧
      (s < (st.nodes M).size →
        occupied ∉ st.memoryParts_ ∧
        (∃ pre post, st.memoryParts_ = pre ++ M :: post ∧
          st'.memoryParts_ = pre ++ occupied :: M :: post) ∧
        (st'.nodes M).region = ⟨(st.nodes M).size - s, (st.nodes M).offset + s, IS_FREE⟩ ∧
        M ∈ st'.freeMemory_) ∧
      (s = (st.nodes M).size →
        occupied = M ∧ st'.memoryParts_ = st.memoryParts_ ∧ M ∉ st'.freeMemory_) := by
  have hinv := inv_of_reachable hreach
  have hMheap : M ∈ st.freeMemory_ := by rw [htop]; simp
  have hMparts := (hinv.heap.free M hMheap).1
  have hMfree := (hinv.heap.free M hMheap).2
  rcases lt_or_eq_of_le hs with hlt | heq
  · obtain ⟨st', e, e1, e2, e3, e4, e5, e6, e7, e8, e9⟩ :=
      allocate_split_spec hinv.heap hinv.list.lt_fresh htop hlt
    have hfresh : st.fresh ∉ st.memoryParts_ := fun hp => by
      have := hinv.list.lt_fresh _ hp; omega
    obtain ⟨pre, post, hsplit, hMpre, _⟩ := split_of_mem_nodup hinv.list.nodup hMparts
    refine ⟨st', st.fresh, e, e4, e7, ?_, ?_, ?_⟩
    · intro x hx hxM
      exact e5 x hxM (fun e => hfresh (e ▸ hx))
    · intro _
      refine ⟨hfresh, ⟨pre, post, hsplit, ?_⟩, ?_, e9.mem_iff.mpr (by simp)⟩
      · rw [e1, hsplit, insertBefore_append hMpre]
      · rw [e6, hMfree]
    · intro h; omega
  · subst heq
    obtain ⟨st', e, e1, e2, e3, e4, e5, e6, e7, e8⟩ := allocate_exact_spec hinv.heap htop
    refine ⟨st', M, e, e4, e6, fun x _ hxM => e5 x hxM, fun h => absurd h (lt_irrefl _), ?_⟩
    intro _
    refine ⟨rfl, e1, ?_⟩
    intro hmem
    have hnd := hinv.heap.idx.1
    rw [htop, List.nodup_cons] at hnd
    exact hnd.1 (e8.mem_iff.mp hmem)

/-- Claim C4: in a reachable state whose free heap has the top region `M`, of size `m`
and offset `o`, `allocate(s)` with `s ≤ m` returns `o`.  If `s < m` a new occupied region
`(s, o)` is linked in just before `M`, `M` becomes `(m - s, o + s)`, stays free and in the
heap; if `s = m` the list keeps its nodes, `M` becomes occupied and leaves the heap.  All
other regions keep size, offset and state, and one record, for the occupied region under
the number of the request, is appended to the history. -/
theorem C4_allocate_splits_top {T : Int} {st : MemoryManager} {M : Nat} {rest : List Nat}
    {s : Int} (hreach : Reachable T st) (htop : st.freeMemory_ = M :: rest)
    (hs : s ≤ (st.nodes M).size) :
    ∃ st' occupied, st.allocate s = .ok (st', (st.nodes M).offset) ∧
      st'.operationsHistory_ =
        st.operationsHistory_ ++ [⟨st.requestsCount + 1, occupied⟩] ∧
      (st'.nodes occupied).region = ⟨s, (st.nodes M).offset, IS_OCCUPIED⟩ ∧
      (∀ x ∈ st.memoryParts_, x ≠ M → (st'.nodes x).region = (st.nodes x).region) ∧
      (s < (st.nodes M).size →
        occupied ∉ st.memoryParts_ ∧
        (∃ pre post, st.memoryParts_ = pre ++ M :: post ∧
          st'.memoryParts_ = pre ++ occupied :: M :: post) ∧
        (st'.nodes M).region = ⟨(st.nodes M).size - s, (st.nodes M).offset + s, IS_FREE⟩ ∧
        M ∈ st'.freeMemory_) ∧
      (s = (st.nodes M).size →
        occupied = M ∧ st'.memoryParts_ = st.memoryParts_ ∧ M ∉ st'.freeMemory_) :=
  allocate_top_spec hreach htop hs

set_option maxRecDepth 100000 in
/-- Witness of C4: a fresh manager of size 6 and `allocate(2)`. -/
theorem C4_allocate_splits_top_witness :
    (MemoryManager.new 6).freeMemory_ = [0] ∧
      (2 : Int) ≤ ((MemoryManager.new 6).nodes 0).size ∧
      ∃ st' occupied, (MemoryManager.new 6).allocate 2 =
          .ok (st', ((MemoryManager.new 6).nodes 0).offset) ∧
        st'.operationsHistory_ = (MemoryManager.new 6).operationsHistory_ ++
          [⟨(MemoryManager.new 6).requestsCount + 1, occupied⟩] ∧
        (st'.nodes occupied).region =
          ⟨2, ((MemoryManager.new 6).nodes 0).offset, IS_OCCUPIED⟩ :=
  ⟨by decide, by decide,
    (@C4_allocate_splits_top 6 (MemoryManager.new 6) 0 [] 2 Reachable.new (by decide)
      (by decide)).imp
      fun _ h => h.imp fun _ h => ⟨h.1, h.2.1, h.2.2.1⟩⟩

/-- Claim C5: in every reachable state the free heap is in heap order under
`CompareMemoryPartsBySize`, and whenever `allocate(s)` succeeds the block is carved from
the top region of the heap, to which no other region of the heap is preferred: none has a
larger size, or the same size and a smaller offset. -/
theorem C5_heap_order_and_best_fit {T : Int} {st : MemoryManager} (hreach : Reachable T st) :
    IsHeap (CompareMemoryPartsBySize st.nodes) st.freeMemory_ ∧
      ∀ s, ∃ st' o, st.allocate s = .ok (st', o) ∧
        (o ≠ FAIL_CODE → ∃ M rest, st.freeMemory_ = M :: rest ∧
          o = (st.nodes M).offset ∧ s ≤ (st.nodes M).size ∧
          ∀ h ∈ st.freeMemory_, h ≠ M →
            ¬ ((st.nodes h).size > (st.nodes M).size ∨
              ((st.nodes h).size = (st.nodes M).size ∧
                (st.nodes h).offset < (st.nodes M).offset))) := by
  have hinv := inv_of_reachable hreach
  refine ⟨hinv.heap.order, ?_⟩
  intro s
  cases hh : st.freeMemory_ with
  | nil => exact ⟨_, _, allocate_nil st s hh, fun h => absurd rfl h⟩
  | cons M rest =>
    by_cases hlt : (st.nodes M).size < s
    · exact ⟨_, _, allocate_small st s hh hlt, fun h => absurd rfl h⟩
    · obtain ⟨st', occ, e, _⟩ := allocate_top_spec hreach hh (not_lt.mp hlt)
      refine ⟨st', _, e, fun _ => ⟨M, rest, rfl, rfl, not_lt.mp hlt, ?_⟩⟩
      intro h hmem _
      obtain ⟨i, hi, hih⟩ := exists_elemAt_of_mem hmem
      have hmax := hinv.heap.order.top_max (compare_strictWeak st.nodes) i (by rw [hh]; exact hi)
      rw [hh] at hmax
      rw [hih] at hmax
      have h0 : Heap.elemAt (M :: rest) 0 = M := rfl
      rw [h0] at hmax
      simp only [CompareMemoryPartsBySize] at hmax
      intro hcon
      split at hmax
      · rename_i heq
        simp only [decide_eq_false_iff_not, not_lt] at hmax
        rcases hcon with h1 | ⟨_, h2⟩
        · omega
        · omega
      · rename_i hne
        simp only [gt_iff_lt, decide_eq_false_iff_not, not_lt] at hmax
        rcases hcon with h1 | ⟨h2, _⟩
        · omega
        · exact hne h2

theorem eraseIdx_eq_filter_of_sorted : ∀ (l : List Operation) (i : Nat) (hi : i < l.length),
    l.Pairwise (fun a b => a.id < b.id) →
      l.eraseIdx i = l.filter (fun o => decide (o.id ≠ l[i].id))
  | [], _, hi, _ => by simp at hi
  | a :: l, 0, _, hs => by
    rw [List.pairwise_cons] at hs
    simp only [List.eraseIdx_cons_zero, List.getElem_cons_zero, ne_eq, not_true_eq_false,
      decide_False, Bool.false_eq_true, not_false_eq_true, List.filter_cons_of_neg]
    symm
    rw [List.filter_eq_self]
    intro b hb
    have := hs.1 b hb
    simp only [decide_eq_true_eq]
    omega
  | a :: l, i + 1, hi, hs => by
    rw [List.pairwise_cons] at hs
    have hi' : i < l.length := by simpa using hi
    have := hs.1 l[i] (List.getElem_mem hi')
    simp only [List.eraseIdx_cons_succ, List.getElem_cons_succ]
    rw [List.filter_cons_of_pos (by simp only [decide_eq_true_eq]; omega)]
    rw [eraseIdx_eq_filter_of_sorted l i hi' hs.2]

theorem freeNeighbour_occupied {m : Nodes} {o : Option Nat}
    (h : ∀ P, o = some P → (m P).state = IS_OCCUPIED) :
    freeNeighbour (o.map (fun h => (m h).region)) = none := by
  cases o with
  | none => rfl
  | some P =>
    have := h P rfl
    simp [freeNeighbour, Option.filter, MemoryPart.region, this]

theorem freeNeighbour_free {m : Nodes} {P : Nat} (h : (m P).state = IS_FREE) :
    freeNeighbour (some (m P).region) = some (m P).region := by
  simp [freeNeighbour, Option.filter, MemoryPart.region, h]

theorem chain_adjacent {T : Int} {m : Nodes} {pre post : List Nat} {a b : Nat} {fresh : Nat}
    (h : ListOk T m (pre ++ a :: b :: post) fresh) :
    (m b).offset = (m a).offset + (m a).size ∧ 1 ≤ (m a).size := by
  have hc := h.chain
  rw [chainFrom_append] at hc
  obtain ⟨mid, _, hc2⟩ := hc
  have hsz := h.sizes_of_two (by simp only [List.length_append, List.length_cons]; omega)
  refine ⟨?_, hsz a (by simp)⟩
  rw [hc2.2.1, hc2.1]

/-- Method `revoke` on the id of a live record, in a reachable state: the region list
afterwards is `coalesce` of the region list before, the merged region is in the heap and
the record is gone. -/
theorem revoke_coalesce_spec {T : Int} {st : MemoryManager} {r : Operation}
    (hreach : Reachable T st) (hr : r ∈ st.operationsHistory_) :
    ∃ pre post, st.memoryParts_ = pre ++ r.part :: post ∧
      (st.revoke r.id).regions =
        coalesce (pre.map (fun h => (st.nodes h).region)) (st.nodes r.part).region
          (post.map (fun h => (st.nodes h).region)) ∧
      (∃ M, M ∈ (st.revoke r.id).freeMemory_ ∧ M ∈ (st.revoke r.id).memoryParts_ ∧
        ((st.revoke r.id).nodes M).region =
          mergedRegion (pre.map (fun h => (st.nodes h).region)) (st.nodes r.part).region
            (post.map (fun h => (st.nodes h).region))) ∧
      (st.revoke r.id).operationsHistory_ =
        st.operationsHistory_.filter (fun o => decide (o.id ≠ r.id)) := by
  have hinv := inv_of_reachable hreach
  obtain ⟨i, hi, hir⟩ := List.getElem_of_mem hr
  obtain ⟨pre, post, preB, M, postA, szP, szN, e1, e2, cP, cN, e3, e4, e5, _, e7, _⟩ :=
    revoke_spec hinv hi
  rw [hir] at e1 e2 cP e3 e4 e5 e7
  have hl := hinv.list
  rw [e1] at hl
  have hmerged : ((st.revoke r.id).nodes M).region =
      mergedRegion (pre.map (fun h => (st.nodes h).region)) (st.nodes r.part).region
        (post.map (fun h => (st.nodes h).region)) ∧
      (if (freeNeighbour (pre.map (fun h => (st.nodes h).region)).getLast?).isSome
        then (pre.map (fun h => (st.nodes h).region)).dropLast
        else pre.map (fun h => (st.nodes h).region)) =
        preB.map (fun h => (st.nodes h).region) ∧
      (if (freeNeighbour (post.map (fun h => (st.nodes h).region)).head?).isSome
        then (post.map (fun h => (st.nodes h).region)).tail
        else post.map (fun h => (st.nodes h).region)) =
        postA.map (fun h => (st.nodes h).region) := by
    rw [e4]
    simp only [mergedRegion, List.getLast?_map, List.head?_map]
    rcases cP with ⟨p1, p2, p3, p4⟩ | ⟨p1, p2, p3⟩
    · rw [freeNeighbour_occupied p4]
      subst p1 p2 p3
      rcases cN with ⟨n1, n2, n3⟩ | ⟨N, n1, n2, n3⟩
      · rw [freeNeighbour_occupied n3]
        subst n1 n2
        simp [MemoryPart.region]
      · subst n1 n3
        have hadj := chain_adjacent hl
        simp only [List.head?_cons, Option.map_some', freeNeighbour_free n2]
        simp [MemoryPart.region]
        omega
    · subst p1 p3
      have hl' : ListOk T st.nodes (preB ++ M :: r.part :: post) st.fresh := by
        simpa using hl
      have hadjP := chain_adjacent hl'
      simp only [List.getLast?_concat, Option.map_some', freeNeighbour_free p2]
      rcases cN with ⟨n1, n2, n3⟩ | ⟨N, n1, n2, n3⟩
      · rw [freeNeighbour_occupied n3]
        subst n1 n2
        simp [MemoryPart.region]
        omega
      · subst n1 n3
        have hl'' : ListOk T st.nodes ((preB ++ [M]) ++ r.part :: N :: postA) st.fresh := hl
        have hadj := chain_adjacent hl''
        simp only [List.head?_cons, Option.map_some', freeNeighbour_free n2]
        simp [MemoryPart.region]
        omega
  refine ⟨pre, post, e1, ?_, ⟨M, e5, by rw [e2]; simp, hmerged.1⟩, ?_⟩
  · simp only [MemoryManager.regions, coalesce]
    rw [hmerged.2.1, hmerged.2.2, ← hmerged.1, e2]
    simp only [List.map_append, List.map_cons]
    congr 1
    · exact List.map_congr_left (fun x hx => e3 x (List.mem_append_left _ hx))
    · congr 1
      exact List.map_congr_left (fun x hx => e3 x (List.mem_append_right _ hx))
  · rw [e7, eraseIdx_eq_filter_of_sorted _ i hi hinv.hist.sorted, hir]

/-- Claim C6: in a reachable state, `revoke` of the id of a live record, whose region is
`R`, changes the region list exactly as `coalesce` says: `R`, its successor if free and
its predecessor if free are replaced by one free region that starts at the smallest of
their offsets and has the sum of their sizes, and every other region keeps its size,
offset and state.  The merged region is in the free heap afterwards and the record has
left the history. -/
theorem C6_revoke_coalesces {T : Int} {st : MemoryManager} {r : Operation}
    (hreach : Reachable T st) (hr : r ∈ st.operationsHistory_) :
    ∃ pre post, st.memoryParts_ = pre ++ r.part :: post ∧
      (st.revoke r.id).regions =
        coalesce (pre.map (fun h => (st.nodes h).region)) (st.nodes r.part).region
          (post.map (fun h => (st.nodes h).region)) ∧
      (∃ M, M ∈ (st.revoke r.id).freeMemory_ ∧ M ∈ (st.revoke r.id).memoryParts_ ∧
        ((st.revoke r.id).nodes M).region =
          mergedRegion (pre.map (fun h => (st.nodes h).region)) (st.nodes r.part).region
            (post.map (fun h => (st.nodes h).region))) ∧
      (st.revoke r.id).operationsHistory_ =
        st.operationsHistory_.filter (fun o => decide (o.id ≠ r.id)) :=
  revoke_coalesce_spec hreach hr

/-- Claim C7: `revoke` of an id that has no record in the history changes nothing but
`requestsCount`, which it advances by one, whatever the state; and in a reachable state
the second of two consecutive calls `revoke(k)` changes nothing but the counter. -/
theorem C7_revoke_without_record_is_noop :
    (∀ (st : MemoryManager) (id : Nat), (∀ r ∈ st.operationsHistory_, r.id ≠ id) →
        st.revoke id = { st with requestsCount := st.requestsCount + 1 }) ∧
    (∀ (T : Int) (st : MemoryManager) (k : Nat), Reachable T st →
        (st.revoke k).revoke k =
          { st.revoke k with requestsCount := (st.revoke k).requestsCount + 1 }) := by
  have part1 : ∀ (st : MemoryManager) (id : Nat), (∀ r ∈ st.operationsHistory_, r.id ≠ id) →
      st.revoke id = { st with requestsCount := st.requestsCount + 1 } :=
    fun st id h => revoke_not_found (findOperationById_none h)
  refine ⟨part1, ?_⟩
  intro T st k hreach
  apply part1
  by_cases h : ∃ r ∈ st.operationsHistory_, r.id = k
  · obtain ⟨r, hr, hrk⟩ := h
    obtain ⟨_, _, _, _, _, e⟩ := revoke_coalesce_spec hreach hr
    rw [hrk] at e
    rw [e]
    intro r' hr'
    simpa using (List.mem_filter.mp hr').2
  · rw [revoke_not_found (findOperationById_none (fun r hr e => h ⟨r, hr, e⟩))]
    exact fun r hr e => h ⟨r, hr, e⟩

/-- Claim C8: in a reachable state, when `allocate` returns `-1`, whatever the size asked
for, the region list, the free heap and the history are as before the call, and only
`requestsCount` has advanced, by one. -/
theorem C8_failed_allocate_changes_only_counter {T : Int} {st : MemoryManager}
    (hreach : Reachable T st) (s : Int) :
    ∃ st' o, st.allocate s = .ok (st', o) ∧
      (o = FAIL_CODE → st' = { st with requestsCount := st.requestsCount + 1 }) := by
  have hinv := inv_of_reachable hreach
  obtain ⟨l, hh⟩ : ∃ l, st.freeMemory_ = l := ⟨_, rfl⟩
  cases l with
  | nil => exact ⟨_, _, allocate_nil st s hh, fun _ => rfl⟩
  | cons M rest =>
    by_cases hlt : (st.nodes M).size < s
    · exact ⟨_, _, allocate_small st s hh hlt, fun _ => rfl⟩
    · obtain ⟨st', occ, e, _⟩ := allocate_top_spec hreach hh (not_lt.mp hlt)
      refine ⟨st', _, e, fun hfail => ?_⟩
      have hM : M ∈ st.memoryParts_ := (hinv.heap.free M (by rw [hh]; simp)).1
      have := offset_pos_of_listOk hinv.list hM
      rw [hfail] at this
      exact absurd this (by decide)

/-- Claim C10: in every reachable state the ids of the history are strictly increasing in
vector order, every record references an occupied region of the list, and every occupied
region of the list is referenced by exactly one record. -/
theorem C10_history_matches_occupied_regions {T : Int} {st : MemoryManager}
    (hreach : Reachable T st) :
    st.operationsHistory_.Pairwise (fun a b => a.id < b.id) ∧
      (∀ r ∈ st.operationsHistory_,
        r.part ∈ st.memoryParts_ ∧ (st.nodes r.part).state = IS_OCCUPIED) ∧
      (∀ h ∈ st.memoryParts_, (st.nodes h).state = IS_OCCUPIED →
        ∃! r, r ∈ st.operationsHistory_ ∧ r.part = h) := by
  have hinv := inv_of_reachable hreach
  refine ⟨hinv.hist.sorted, hinv.hist.occupied, ?_⟩
  intro h hh hocc
  obtain ⟨r, hr, hrh⟩ := hinv.hist.recorded h hh hocc
  refine ⟨r, ⟨hr, hrh⟩, ?_⟩
  rintro r' ⟨hr', hr'h⟩
  exact List.inj_on_of_nodup_map hinv.hist.nodup hr' hr (hr'h.trans hrh.symm)

/-! ## Request numbers -/

/-- The paths of `allocate`, in any state: it either fails and only advances the counter,
or appends one record under the new value of the counter. -/
theorem allocate_cases (st : MemoryManager) (s : Int) :
    st.allocate s = .ok ({ st with requestsCount := st.requestsCount + 1 }, FAIL_CODE) ∨
    ∃ st' o h, st.allocate s = .ok (st', o) ∧
      st'.operationsHistory_ = st.operationsHistory_ ++ [⟨st.requestsCount + 1, h⟩] ∧
      st'.requestsCount = st.requestsCount + 1 := by
  obtain ⟨l, hh⟩ : ∃ l, st.freeMemory_ = l := ⟨_, rfl⟩
  cases l with
  | nil => exact Or.inl (allocate_nil st s hh)
  | cons x xs =>
    by_cases hs : (st.nodes x).size < s
    · exact Or.inl (allocate_small st s hh hs)
    · by_cases hs' : ((Heap.remove partOps st.nodes (x :: xs) 0).1 x).size > s
      · exact Or.inr ⟨_, _, _, allocate_split st s hh hs hs', rfl, rfl⟩
      · exact Or.inr ⟨_, _, _, allocate_exact st s hh hs hs', rfl, rfl⟩

theorem merge_fields (st : MemoryManager) (a : Nat) (b : Option Nat) :
    (merge st a b).1.operationsHistory_ = st.operationsHistory_ ∧
      (merge st a b).1.requestsCount = st.requestsCount := by
  cases b with
  | none => exact ⟨rfl, rfl⟩
  | some b =>
    simp only [merge]
    split
    · exact ⟨rfl, rfl⟩
    · split
      · exact ⟨rfl, rfl⟩
      · exact ⟨rfl, rfl⟩

/-- The effect of `revoke` on the counter and on the history, in any state: the counter
advances by one, and the history is left as it is or loses one record. -/
theorem revoke_fields (st : MemoryManager) (k : Nat) :
    (st.revoke k).requestsCount = st.requestsCount + 1 ∧
      ((st.revoke k).operationsHistory_ = st.operationsHistory_ ∨
        ∃ i, (st.revoke k).operationsHistory_ = st.operationsHistory_.eraseIdx i) := by
  cases hf : st.findOperationById k with
  | none =>
    rw [revoke_not_found hf]
    exact ⟨rfl, Or.inl rfl⟩
  | some i =>
    obtain ⟨st₁, st₂, prev, r, st₃, h₁, h₂, h₃, h₄, h₅, hrev⟩ := revoke_found_steps hf
    rw [hrev]
    have e2 := merge_fields st₁ (st.operationsHistory_.getD i default).part
      (nextOf st₁.memoryParts_ (st.operationsHistory_.getD i default).part)
    rw [← h₂] at e2
    have e4 := merge_fields st₂ prev (some (st.operationsHistory_.getD i default).part)
    rw [← h₄] at e4
    have e5 : st₃.operationsHistory_ = r.1.operationsHistory_ ∧
        st₃.requestsCount = r.1.requestsCount := by
      rw [h₅]; split <;> exact ⟨rfl, rfl⟩
    have e1 : st₁.operationsHistory_ = st.operationsHistory_ ∧
        st₁.requestsCount = st.requestsCount + 1 := by
      rw [h₁]; exact ⟨rfl, rfl⟩
    refine ⟨?_, Or.inr ⟨i, ?_⟩⟩
    · show st₃.requestsCount = _
      rw [e5.2, e4.2, e2.2, e1.2]
    · show st₃.operationsHistory_.eraseIdx i = _
      rw [e5.1, e4.1, e2.1, e1.1]

/-- The loop over the requests returns, whatever the state and the requests. -/
theorem processAll_total : ∀ (reqs : List Request) (st : MemoryManager),
    ∃ st' outs, processAll st reqs = .ok (st', outs)
  | [], st => ⟨st, [], rfl⟩
  | .AllocationRequest s :: rest, st => by
    obtain ⟨st₁, o, h₁⟩ := allocate_total st s
    obtain ⟨st₂, outs, h₂⟩ := processAll_total rest st₁
    refine ⟨st₂, o :: outs, ?_⟩
    simp only [processAll, processRequest, h₁, bind, Except.bind, pure, Except.pure, h₂]
  | .RevocationRequest k :: rest, st => by
    obtain ⟨st₂, outs, h₂⟩ := processAll_total rest (st.revoke k)
    refine ⟨st₂, outs, ?_⟩
    simp only [processAll, processRequest, bind, Except.bind, pure, Except.pure, h₂]

theorem processAll_allocation {st st₁ st₂ : MemoryManager} {s o : Int} {rest : List Request}
    {outs : List Int} (h₁ : st.allocate s = .ok (st₁, o))
    (h₂ : processAll st₁ rest = .ok (st₂, outs)) :
    processAll st (.AllocationRequest s :: rest) = .ok (st₂, o :: outs) := by
  simp only [processAll, processRequest, h₁, bind, Except.bind, pure, Except.pure, h₂]

theorem processAll_revocation {st st₂ : MemoryManager} {k : Nat} {rest : List Request}
    {outs : List Int} (h₂ : processAll (st.revoke k) rest = .ok (st₂, outs)) :
    processAll st (.RevocationRequest k :: rest) = .ok (st₂, outs) := by
  simp only [processAll, processRequest, bind, Except.bind, pure, Except.pure, h₂]

/-- A property of the state that every call of `allocate` and of `revoke` keeps, for the
requests that satisfy `V`, holds after the loop over such requests. -/
theorem processAll_invariant {I : MemoryManager → Prop} {V : Request → Prop}
    (halloc : ∀ st s st₁ o, V (.AllocationRequest s) → I st →
      st.allocate s = .ok (st₁, o) → I st₁)
    (hrev : ∀ st k, V (.RevocationRequest k) → I st → I (st.revoke k)) :
    ∀ (reqs : List Request) (st st' : MemoryManager) (outs : List Int),
      (∀ q ∈ reqs, V q) → I st → processAll st reqs = .ok (st', outs) → I st'
  | [], st, st', outs, _, hI, h => by
    simp only [processAll, pure, Except.pure, Except.ok.injEq, Prod.mk.injEq] at h
    rw [← h.1]; exact hI
  | .AllocationRequest s :: rest, st, st', outs, hV, hI, h => by
    obtain ⟨st₁, o, h₁⟩ := allocate_total st s
    obtain ⟨st₂, outs₂, h₂⟩ := processAll_total rest st₁
    rw [processAll_allocation h₁ h₂] at h
    simp only [Except.ok.injEq, Prod.mk.injEq] at h
    rw [← h.1]
    exact processAll_invariant halloc hrev rest st₁ st₂ outs₂
      (fun q hq => hV q (List.mem_cons_of_mem _ hq))
      (halloc st s st₁ o (hV _ (List.mem_cons_self _ _)) hI h₁) h₂
  | .RevocationRequest k :: rest, st, st', outs, hV, hI, h => by
    obtain ⟨st₂, outs₂, h₂⟩ := processAll_total rest (st.revoke k)
    rw [processAll_revocation h₂] at h
    simp only [Except.ok.injEq, Prod.mk.injEq] at h
    rw [← h.1]
    exact processAll_invariant halloc hrev rest (st.revoke k) st₂ outs₂
      (fun q hq => hV q (List.mem_cons_of_mem _ hq))
      (hrev st k (hV _ (List.mem_cons_self _ _)) hI) h₂

theorem allocate_count {st st₁ : MemoryManager} {s o : Int}
    (h : st.allocate s = .ok (st₁, o)) : st₁.requestsCount = st.requestsCount + 1 := by
  rcases allocate_cases st s with e | ⟨st', o', _, e, _, e2⟩
  · rw [e] at h; cases h; rfl
  · rw [e] at h; cases h; exact e2

/-- Every request advances `requestsCount` by one. -/
theorem processAll_count : ∀ (reqs : List Request) (st st' : MemoryManager) (outs : List Int),
    processAll st reqs = .ok (st', outs) → st'.requestsCount = st.requestsCount + reqs.length
  | [], st, st', outs, h => by
    simp only [processAll, pure, Except.pure, Except.ok.injEq, Prod.mk.injEq] at h
    rw [← h.1]; rfl
  | .AllocationRequest s :: rest, st, st', outs, h => by
    obtain ⟨st₁, o, h₁⟩ := allocate_total st s
    obtain ⟨st₂, outs₂, h₂⟩ := processAll_total rest st₁
    rw [processAll_allocation h₁ h₂] at h
    simp only [Except.ok.injEq, Prod.mk.injEq] at h
    rw [← h.1, processAll_count rest st₁ st₂ outs₂ h₂, allocate_count h₁, List.length_cons]
    omega
  | .RevocationRequest k :: rest, st, st', outs, h => by
    obtain ⟨st₂, outs₂, h₂⟩ := processAll_total rest (st.revoke k)
    rw [processAll_revocation h₂] at h
    simp only [Except.ok.injEq, Prod.mk.injEq] at h
    rw [← h.1, processAll_count rest _ st₂ outs₂ h₂, (revoke_fields st k).1, List.length_cons]
    omega

theorem reachable_processAll {T : Int} (reqs : List Request) (st st' : MemoryManager)
    (outs : List Int) (hV : ∀ q ∈ reqs, ValidRequest q) (hst : Reachable T st)
    (h : processAll st reqs = .ok (st', outs)) : Reachable T st' :=
  processAll_invariant (I := Reachable T) (V := ValidRequest)
    (fun _ _ _ _ hv hI ha => Reachable.allocate hI hv ha)
    (fun _ k _ hI => Reachable.revoke k hI) reqs st st' outs hV hst h

theorem processAll_append : ∀ (l₁ l₂ : List Request) (st st₁ st₂ : MemoryManager)
    (o₁ o₂ : List Int), processAll st l₁ = .ok (st₁, o₁) → processAll st₁ l₂ = .ok (st₂, o₂) →
      processAll st (l₁ ++ l₂) = .ok (st₂, o₁ ++ o₂)
  | [], l₂, st, st₁, st₂, o₁, o₂, h₁, h₂ => by
    simp only [processAll, pure, Except.pure, Except.ok.injEq, Prod.mk.injEq] at h₁
    rw [← h₁.1] at h₂; rw [← h₁.2]; exact h₂
  | .AllocationRequest s :: rest, l₂, st, st₁, st₂, o₁, o₂, h₁, h₂ => by
    obtain ⟨sa, o, ha⟩ := allocate_total st s
    obtain ⟨sb, ob, hb⟩ := processAll_total rest sa
    rw [processAll_allocation ha hb] at h₁
    simp only [Except.ok.injEq, Prod.mk.injEq] at h₁
    rw [← h₁.1] at h₂; rw [← h₁.2]
    exact processAll_allocation ha (processAll_append rest l₂ sa sb st₂ ob o₂ hb h₂)
  | .RevocationRequest k :: rest, l₂, st, st₁, st₂, o₁, o₂, h₁, h₂ => by
    obtain ⟨sb, ob, hb⟩ := processAll_total rest (st.revoke k)
    rw [processAll_revocation hb] at h₁
    simp only [Except.ok.injEq, Prod.mk.injEq] at h₁
    rw [← h₁.1] at h₂; rw [← h₁.2]
    exact processAll_revocation (processAll_append rest l₂ _ sb st₂ ob o₂ hb h₂)

theorem HistOrdered.allocate_ordered {st st₁ : MemoryManager} {s o : Int} (hI : HistOrdered st)
    (ha : st.allocate s = .ok (st₁, o)) : HistOrdered st₁ := by
  obtain ⟨h1, h2⟩ := hI
  rcases allocate_cases st s with e | ⟨st', o', h', e, e1, e2⟩
  · rw [e] at ha; cases ha
    exact ⟨h1, fun r hr => Nat.le_succ_of_le (h2 r hr)⟩
  · rw [e] at ha; cases ha
    rw [HistOrdered, e1, e2]
    refine ⟨?_, ?_⟩
    · rw [List.pairwise_append]
      refine ⟨h1, List.pairwise_singleton _ _, ?_⟩
      intro a ha b hb
      simp only [List.mem_singleton] at hb
      subst hb
      exact Nat.lt_succ_of_le (h2 a ha)
    · intro r hr
      rcases List.mem_append.mp hr with hr | hr
      · exact Nat.le_succ_of_le (h2 r hr)
      · simp only [List.mem_singleton] at hr; subst hr; exact le_refl _

theorem revoke_history_sublist (st : MemoryManager) (k : Nat) :
    (st.revoke k).operationsHistory_.Sublist st.operationsHistory_ := by
  rcases (revoke_fields st k).2 with e | ⟨i, e⟩
  · rw [e]
  · rw [e]; exact List.eraseIdx_sublist _ _

theorem HistOrdered.revoke_ordered {st : MemoryManager} (hI : HistOrdered st) (k : Nat) :
    HistOrdered (st.revoke k) := by
  obtain ⟨h1, h2⟩ := hI
  have hsub := revoke_history_sublist st k
  rw [HistOrdered, (revoke_fields st k).1]
  exact ⟨h1.sublist hsub, fun r hr => Nat.le_succ_of_le (h2 r (hsub.subset hr))⟩

theorem RecordOf.allocate_record {j h : Nat} {st st₁ : MemoryManager} {s o : Int}
    (hI : RecordOf j h st) (ha : st.allocate s = .ok (st₁, o)) : RecordOf j h st₁ := by
  obtain ⟨h1, h3, h4⟩ := hI
  refine ⟨h1.allocate_ordered ha, by rw [allocate_count ha]; exact Nat.le_succ_of_le h3, ?_⟩
  rcases allocate_cases st s with e | ⟨st', o', h', e, e1, e2⟩
  · rw [e] at ha; cases ha; exact h4
  · rw [e] at ha; cases ha
    rw [e1]
    intro r hr hid
    rcases List.mem_append.mp hr with hr | hr
    · exact h4 r hr hid
    · simp only [List.mem_singleton] at hr; subst hr
      simp only at hid; omega

theorem RecordOf.revoke_record {j h : Nat} {st : MemoryManager} (hI : RecordOf j h st) (k : Nat) :
    RecordOf j h (st.revoke k) := by
  obtain ⟨h1, h3, h4⟩ := hI
  have hsub := revoke_history_sublist st k
  refine ⟨h1.revoke_ordered k, by rw [(revoke_fields st k).1]; exact Nat.le_succ_of_le h3, ?_⟩
  exact fun r hr hid => h4 r (hsub.subset hr) hid

theorem Granted.allocate_granted {T : Int} {j h : Nat} {R : Region} {st st₁ : MemoryManager}
    {s o : Int} (hI : Granted T j h R st) (hs : 1 ≤ s) (ha : st.allocate s = .ok (st₁, o)) :
    Granted T j h R st₁ := by
  obtain ⟨hreach, hrec, hreg⟩ := hI
  refine ⟨Reachable.allocate hreach hs ha, hrec.allocate_record ha, ?_⟩
  rintro ⟨r, hr, hid⟩
  have hinv := inv_of_reachable hreach
  -- the record under `j` was there before the call
  have hold : r ∈ st.operationsHistory_ := by
    rcases allocate_cases st s with e | ⟨st', o', h', e, e1, e2⟩
    · rw [e] at ha; cases ha; exact hr
    · rw [e] at ha; cases ha
      rw [e1] at hr
      rcases List.mem_append.mp hr with hr | hr
      · exact hr
      · simp only [List.mem_singleton] at hr; subst hr
        have := hrec.2.1
        simp only at hid; omega
  have hR := hreg ⟨r, hold, hid⟩
  have hpart := hrec.2.2 r hold hid
  have hocc := hinv.hist.occupied r hold
  rw [hpart] at hocc
  obtain ⟨l, hh⟩ : ∃ l, st.freeMemory_ = l := ⟨_, rfl⟩
  cases l with
  | nil => rw [allocate_nil st s hh] at ha; cases ha; exact hR
  | cons M rest =>
    by_cases hlt : (st.nodes M).size < s
    · rw [allocate_small st s hh hlt] at ha; cases ha; exact hR
    · obtain ⟨st', occ, e, _, _, e3, _⟩ := allocate_top_spec hreach hh (not_lt.mp hlt)
      rw [e] at ha; cases ha
      have hM : (st.nodes M).state = IS_FREE := (hinv.heap.free M (by rw [hh]; simp)).2
      have hne : h ≠ M := by
        intro e'; rw [e', hM] at hocc; exact absurd hocc.2 (by simp)
      rw [e3 h hocc.1 hne]; exact hR

theorem Granted.revoke_granted {T : Int} {j h : Nat} {R : Region} {st : MemoryManager}
    (hI : Granted T j h R st) (k : Nat) : Granted T j h R (st.revoke k) := by
  obtain ⟨hreach, hrec, hreg⟩ := hI
  refine ⟨Reachable.revoke k hreach, hrec.revoke_record k, ?_⟩
  rintro ⟨r, hr, hid⟩
  have hinv := inv_of_reachable hreach
  by_cases hk : ∃ r' ∈ st.operationsHistory_, r'.id = k
  · obtain ⟨r', hr', hr'k⟩ := hk
    obtain ⟨i, hi, hir⟩ := List.getElem_of_mem hr'
    obtain ⟨pre, post, preB, M, postA, szP, szN, e1, e2, _, _, e3, e4, _, hI', e7, _⟩ :=
      revoke_spec hinv hi
    rw [hir, hr'k] at e2 e3 e4 hI' e7
    have hold : r ∈ st.operationsHistory_ := by
      rw [e7] at hr; exact (List.eraseIdx_sublist _ _).subset hr
    have hR := hreg ⟨r, hold, hid⟩
    have hpart := hrec.2.2 r hold hid
    have hocc' := hI'.hist.occupied r hr
    rw [hpart, e2] at hocc'
    have hne : h ≠ M := by
      intro e'
      have := (region_mk_iff.mp e4).2.2
      rw [← e', hocc'.2] at this
      exact absurd this (by simp)
    have hmem : h ∈ preB ++ postA := by
      have := hocc'.1
      simp only [List.mem_append, List.mem_cons] at this ⊢
      tauto
    rw [e3 h hmem]; exact hR
  · have hnf := findOperationById_none (fun r' hr' e => hk ⟨r', hr', e⟩)
    rw [revoke_not_found hnf] at hr ⊢
    exact hreg ⟨r, hr, hid⟩

/-- Request numbers follow the arrival order.
(a) After any `j` requests to a fresh manager `requestsCount` is `j`;
(b) when the `j`-th request is an allocation that succeeds, the record it appends carries
the id `j`; and, whatever the later requests, a record under the id `j` is that record
and is the one `findOperationById(j)` returns, so `revoke(j)` acts on the region granted to
the `j`-th request.  (c) For requests whose allocation sizes are `1` or more the region of
that record is the block granted, size `s` at the offset returned, as long as the record
is in the history, and `revoke(j)` then gives exactly that block back: it replaces that
region (with its free neighbours) by a free region, as `coalesce` says. -/
theorem request_ids_follow_arrival_order (T : Int) :
    (∀ reqs : List Request, ∃ st outs,
        processAll (MemoryManager.new T) reqs = .ok (st, outs) ∧
        st.requestsCount = reqs.length) ∧
    (∀ (pre rest : List Request) (s : Int), ∃ st outs st₁ o st₂ outs₂,
        processAll (MemoryManager.new T) pre = .ok (st, outs) ∧
        st.allocate s = .ok (st₁, o) ∧
        processAll st₁ rest = .ok (st₂, outs₂) ∧
        processAll (MemoryManager.new T) (pre ++ .AllocationRequest s :: rest) =
          .ok (st₂, outs ++ o :: outs₂) ∧
        (o ≠ FAIL_CODE → ∃ h,
          st₁.operationsHistory_ = st.operationsHistory_ ++ [⟨pre.length + 1, h⟩] ∧
          (∀ r ∈ st₂.operationsHistory_, r.id = pre.length + 1 →
            r.part = h ∧ ∃ i, st₂.findOperationById (pre.length + 1) = some i ∧
              st₂.operationsHistory_.getD i default = r) ∧
          ((∀ q ∈ pre ++ .AllocationRequest s :: rest, ValidRequest q) →
            ∀ r ∈ st₂.operationsHistory_, r.id = pre.length + 1 →
              (st₂.nodes h).region = ⟨s, o, IS_OCCUPIED⟩ ∧
              ∃ pre' post', st₂.memoryParts_ = pre' ++ h :: post' ∧
                (st₂.revoke (pre.length + 1)).regions =
                  coalesce (pre'.map (fun x => (st₂.nodes x).region)) ⟨s, o, IS_OCCUPIED⟩
                    (post'.map (fun x => (st₂.nodes x).region))))) := by
  have hcount : ∀ reqs : List Request, ∃ st outs,
      processAll (MemoryManager.new T) reqs = .ok (st, outs) ∧
      st.requestsCount = reqs.length := by
    intro reqs
    obtain ⟨st, outs, h⟩ := processAll_total reqs (MemoryManager.new T)
    refine ⟨st, outs, h, ?_⟩
    rw [processAll_count reqs _ _ _ h]
    show 0 + reqs.length = reqs.length
    omega
  refine ⟨hcount, ?_⟩
  intro pre rest s
  obtain ⟨st, outs, h0, hc0⟩ := hcount pre
  obtain ⟨st₁, o, h1⟩ := allocate_total st s
  obtain ⟨st₂, outs₂, h2⟩ := processAll_total rest st₁
  refine ⟨st, outs, st₁, o, st₂, outs₂, h0, h1, h2,
    processAll_append _ _ _ _ _ _ _ h0 (processAll_allocation h1 h2), ?_⟩
  intro hok
  have hord0 : HistOrdered st :=
    processAll_invariant (I := HistOrdered) (V := fun _ => True)
      (fun _ _ _ _ _ hI ha => hI.allocate_ordered ha) (fun _ k _ hI => hI.revoke_ordered k)
      pre _ _ _ (fun _ _ => trivial)
      ⟨List.Pairwise.nil, fun r hr => by simp [MemoryManager.new] at hr⟩ h0
  -- the successful allocation appends its record
  obtain ⟨h, hhist⟩ : ∃ h, st₁.operationsHistory_ =
      st.operationsHistory_ ++ [⟨pre.length + 1, h⟩] := by
    rcases allocate_cases st s with e | ⟨st', o', h', e, e1, _⟩
    · rw [e] at h1; cases h1; exact absurd rfl hok
    · rw [e] at h1; cases h1; exact ⟨h', by rw [e1, hc0]⟩
  have hrec1 : RecordOf (pre.length + 1) h st₁ := by
    refine ⟨hord0.allocate_ordered h1, by rw [allocate_count h1, hc0], ?_⟩
    rw [hhist]
    intro r hr hid
    rcases List.mem_append.mp hr with hr | hr
    · have := hord0.2 r hr; omega
    · simp only [List.mem_singleton] at hr; subst hr; rfl
  have hrec2 : RecordOf (pre.length + 1) h st₂ :=
    processAll_invariant (I := RecordOf (pre.length + 1) h) (V := fun _ => True)
      (fun _ _ _ _ _ hI ha => hI.allocate_record ha) (fun _ k _ hI => hI.revoke_record k)
      rest _ _ _ (fun _ _ => trivial) hrec1 h2
  refine ⟨h, hhist, ?_, ?_⟩
  · intro r hr hid
    refine ⟨hrec2.2.2 r hr hid, ?_⟩
    obtain ⟨i, hi, hir⟩ := List.getElem_of_mem hr
    exact ⟨i, findOperationById_some hrec2.1.1 hi (by rw [hir]; exact hid), by
      rw [List.getD_eq_getElem _ _ hi]; exact hir⟩
  intro hvalid r hr hid
  have hreach : Reachable T st :=
    reachable_processAll pre _ _ _ (fun q hq => hvalid q (List.mem_append_left _ hq))
      Reachable.new h0
  have hs : 1 ≤ s := hvalid (.AllocationRequest s) (by simp)
  have hreg1 : (st₁.nodes h).region = ⟨s, o, IS_OCCUPIED⟩ := by
    obtain ⟨l, hh⟩ : ∃ l, st.freeMemory_ = l := ⟨_, rfl⟩
    cases l with
    | nil => rw [allocate_nil st s hh] at h1; cases h1; exact absurd rfl hok
    | cons M rest' =>
      by_cases hlt : (st.nodes M).size < s
      · rw [allocate_small st s hh hlt] at h1; cases h1; exact absurd rfl hok
      · obtain ⟨st', occ, e, e1, e2, _⟩ :=
          allocate_top_spec hreach hh (not_lt.mp hlt)
        rw [e] at h1; cases h1
        rw [hhist] at e1
        have := List.append_cancel_left e1
        simp only [List.cons.injEq, Operation.mk.injEq, and_true] at this
        rw [this.2]; exact e2
  have hg1 : Granted T (pre.length + 1) h ⟨s, o, IS_OCCUPIED⟩ st₁ :=
    ⟨Reachable.allocate hreach hs h1, hrec1, fun _ => hreg1⟩
  have hg2 : Granted T (pre.length + 1) h ⟨s, o, IS_OCCUPIED⟩ st₂ :=
    processAll_invariant (I := Granted T (pre.length + 1) h ⟨s, o, IS_OCCUPIED⟩)
      (V := ValidRequest)
      (fun _ _ _ _ hv hI ha => hI.allocate_granted hv ha) (fun _ k _ hI => hI.revoke_granted k)
      rest _ _ _ (fun q hq => hvalid q (by simp [hq])) hg1 h2
  have hreg2 := hg2.2.2 ⟨r, hr, hid⟩
  have hpart := hrec2.2.2 r hr hid
  obtain ⟨pre', post', c1, c2, _⟩ := revoke_coalesce_spec hg2.1 hr
  rw [hpart, hid, hreg2] at c2
  rw [hpart] at c1
  exact ⟨hreg2, pre', post', c1, c2⟩

/-! ## Witnesses -/

/-- Witness of C5: a fresh manager of size 6. -/
theorem C5_heap_order_and_best_fit_witness :
    IsHeap (CompareMemoryPartsBySize (MemoryManager.new 6).nodes)
        (MemoryManager.new 6).freeMemory_ ∧
      ∀ s, ∃ st' o, (MemoryManager.new 6).allocate s = .ok (st', o) ∧
        (o ≠ FAIL_CODE → ∃ M rest, (MemoryManager.new 6).freeMemory_ = M :: rest ∧
          o = ((MemoryManager.new 6).nodes M).offset ∧
          s ≤ ((MemoryManager.new 6).nodes M).size ∧
          ∀ h ∈ (MemoryManager.new 6).freeMemory_, h ≠ M →
            ¬ (((MemoryManager.new 6).nodes h).size > ((MemoryManager.new 6).nodes M).size ∨
              (((MemoryManager.new 6).nodes h).size = ((MemoryManager.new 6).nodes M).size ∧
                ((MemoryManager.new 6).nodes h).offset <
                  ((MemoryManager.new 6).nodes M).offset))) :=
  C5_heap_order_and_best_fit (T := 6) Reachable.new

set_option maxRecDepth 100000 in
/-- Witness of C6: a manager of size 6 after `allocate(2)`, and the record of that
request. -/
theorem C6_revoke_coalesces_witness :
    ∃ (st : MemoryManager) (r : Operation), Reachable 6 st ∧ r ∈ st.operationsHistory_ ∧
      ∃ pre post, st.memoryParts_ = pre ++ r.part :: post ∧
        (st.revoke r.id).regions =
          coalesce (pre.map (fun h => (st.nodes h).region)) (st.nodes r.part).region
            (post.map (fun h => (st.nodes h).region)) ∧
        (∃ M, M ∈ (st.revoke r.id).freeMemory_ ∧ M ∈ (st.revoke r.id).memoryParts_ ∧
          ((st.revoke r.id).nodes M).region =
            mergedRegion (pre.map (fun h => (st.nodes h).region)) (st.nodes r.part).region
              (post.map (fun h => (st.nodes h).region))) ∧
        (st.revoke r.id).operationsHistory_ =
          st.operationsHistory_.filter (fun o => decide (o.id ≠ r.id)) := by
  have hreach : Reachable 6 _ := Reachable.allocate (n := 2) Reachable.new (by decide) rfl
  exact ⟨_, ⟨1, 1⟩, hreach, by decide, C6_revoke_coalesces hreach (by decide)⟩

set_option maxRecDepth 100000 in
/-- Witness of C7: the id 3 on a fresh manager of size 6, and the id 1 revoked twice after
`allocate(2)`. -/
theorem C7_revoke_without_record_is_noop_witness :
    (MemoryManager.new 6).revoke 3 =
        { MemoryManager.new 6 with requestsCount := (MemoryManager.new 6).requestsCount + 1 } ∧
      ∃ st, Reachable 6 st ∧ (⟨1, 1⟩ : Operation) ∈ st.operationsHistory_ ∧
        (st.revoke 1).revoke 1 =
          { st.revoke 1 with requestsCount := (st.revoke 1).requestsCount + 1 } := by
  have hreach : Reachable 6 _ := Reachable.allocate (n := 2) Reachable.new (by decide) rfl
  exact ⟨C7_revoke_without_record_is_noop.1 (MemoryManager.new 6) 3 (by decide),
    _, hreach, by decide, C7_revoke_without_record_is_noop.2 6 _ 1 hreach⟩

/-- Witness of C8: a fresh manager of size 1 and `allocate(5)`. -/
theorem C8_failed_allocate_changes_only_counter_witness :
    ∃ st' o, (MemoryManager.new 1).allocate 5 = .ok (st', o) ∧
      (o = FAIL_CODE → st' =
        { MemoryManager.new 1 with requestsCount := (MemoryManager.new 1).requestsCount + 1 }) :=
  C8_failed_allocate_changes_only_counter (T := 1) Reachable.new 5

set_option maxRecDepth 100000 in
/-- Witness of C10: a manager of size 6 after `allocate(2)`. -/
theorem C10_history_matches_occupied_regions_witness :
    ∃ st : MemoryManager, Reachable 6 st ∧ st.operationsHistory_ = [⟨1, 1⟩] ∧
      st.operationsHistory_.Pairwise (fun a b => a.id < b.id) ∧
      (∀ r ∈ st.operationsHistory_,
        r.part ∈ st.memoryParts_ ∧ (st.nodes r.part).state = IS_OCCUPIED) ∧
      (∀ h ∈ st.memoryParts_, (st.nodes h).state = IS_OCCUPIED →
        ∃! r, r ∈ st.operationsHistory_ ∧ r.part = h) := by
  have hreach : Reachable 6 _ := Reachable.allocate (n := 2) Reachable.new (by decide) rfl
  exact ⟨_, hreach, by decide, C10_history_matches_occupied_regions hreach⟩

set_option maxRecDepth 100000 in
/-- An instance of `request_ids_follow_arrival_order`: a manager of size 6, no request
before `allocate(2)`, and the revocation of the request 2 after it; the record of the first request carries the id 1,
names the block of 2 cells at offset 1, and `revoke(1)` gives that block back. -/
theorem request_ids_follow_arrival_order_example :
    ∃ st₂ outs h, runRequests 6 [2, -2] = .ok (st₂, outs) ∧
      (∀ r ∈ st₂.operationsHistory_, r.id = 1 →
        r.part = h ∧ ∃ i, st₂.findOperationById 1 = some i ∧
          st₂.operationsHistory_.getD i default = r) ∧
      ((⟨1, 1⟩ : Operation) ∈ st₂.operationsHistory_) ∧
      (st₂.nodes h).region = ⟨2, 1, IS_OCCUPIED⟩ ∧
      ∃ pre' post', st₂.memoryParts_ = pre' ++ h :: post' ∧
        (st₂.revoke 1).regions =
          coalesce (pre'.map (fun x => (st₂.nodes x).region)) ⟨2, 1, IS_OCCUPIED⟩
            (post'.map (fun x => (st₂.nodes x).region)) := by
  obtain ⟨st, outs, st₁, o, st₂, outs₂, h0, h1, h2, h3, h4⟩ :=
    (request_ids_follow_arrival_order 6).2 [] [.RevocationRequest 2] 2
  have e0 : processAll (MemoryManager.new 6) [] = .ok (MemoryManager.new 6, []) := rfl
  rw [e0] at h0
  cases h0
  have e1 : ∃ s₁, (MemoryManager.new 6).allocate 2 = .ok (s₁, 1) := ⟨_, rfl⟩
  obtain ⟨s₁, e1⟩ := e1
  rw [e1] at h1
  cases h1
  obtain ⟨h, _, hb, hc⟩ := h4 (by decide)
  have hmem : (⟨1, 1⟩ : Operation) ∈ st₂.operationsHistory_ := by
    have e3 : runRequests 6 [2, -2] = .ok (st₂, 1 :: outs₂) := h3
    have e4 : ∃ s₂ o₂, runRequests 6 [2, -2] = .ok (s₂, o₂) ∧
        (⟨1, 1⟩ : Operation) ∈ s₂.operationsHistory_ := ⟨_, _, rfl, by decide⟩
    obtain ⟨s₂, o₂, e5, e6⟩ := e4
    rw [e5] at e3
    cases e3
    exact e6
  obtain ⟨hd, he⟩ := hc (by decide) _ hmem rfl
  exact ⟨st₂, _, h, h3, hb, hmem, hd, he⟩

set_option maxRecDepth 100000 in
/-- Claim C9, at the failing input: with total size 6 and the accepted requests `0, 2`
the second request is an allocation that succeeds: it returns the offset 1, `requestsCount`
is 2, and the history holds its record under the id 2, whose region is the block of 2 cells
at offset 1, occupied.  Giving exactly that block back would leave the regions
`(0 cells at 1, occupied)`, `(6 cells at 1, free)`, as `coalesce` says; `revoke(2)` leaves
the zero-size region of request 1 alone, and no free region.  The region of request 2 has
the offset 1 without being the first node of the list, so `revoke` calls
`merge(part, part)`, which erases the node. -/
theorem C9_revoke_after_zero_size_request_loses_block :
    ∃ st out, runRequests 6 [0, 2] = .ok (st, out) ∧ out = [1, 1] ∧
      st.requestsCount = 2 ∧
      st.regions = [⟨0, 1, IS_OCCUPIED⟩, ⟨2, 1, IS_OCCUPIED⟩, ⟨4, 3, IS_FREE⟩] ∧
      (∃ r ∈ st.operationsHistory_, r.id = 2 ∧
        (st.nodes r.part).region = ⟨2, 1, IS_OCCUPIED⟩) ∧
      processRequest st (readInput (-2)) = .ok (st.revoke 2, none) ∧
      coalesce [⟨0, 1, IS_OCCUPIED⟩] ⟨2, 1, IS_OCCUPIED⟩ [⟨4, 3, IS_FREE⟩] =
        [⟨0, 1, IS_OCCUPIED⟩, ⟨6, 1, IS_FREE⟩] ∧
      (st.revoke 2).regions = [⟨0, 1, IS_OCCUPIED⟩] :=
  ⟨_, _, rfl, rfl, by decide, by decide, by decide, rfl, by decide, by decide⟩

/-! ## Free regions are coalesced -/

theorem freeNeighbour_isSome_iff (o : Option Region) :
    (freeNeighbour o).isSome = true ↔ ∃ N, o = some N ∧ N.state = IS_FREE := by
  cases o with
  | none => simp [freeNeighbour]
  | some N =>
    by_cases h : N.state = IS_FREE <;> simp [freeNeighbour, Option.filter, h]

/-- The list that `coalesce` leaves before the merged region ends with no free region. -/
theorem coalesce_left {pre : List Region} (h : NoAdjacentFree pre) :
    NoAdjacentFree (if (freeNeighbour pre.getLast?).isSome then pre.dropLast else pre) ∧
    ∀ x ∈ (if (freeNeighbour pre.getLast?).isSome then pre.dropLast else pre).getLast?,
      x.state ≠ IS_FREE := by
  by_cases hf : (freeNeighbour pre.getLast?).isSome = true
  · rw [if_pos hf]
    obtain ⟨N, hN, hNf⟩ := (freeNeighbour_isSome_iff _).mp hf
    have hsplit : pre.dropLast ++ [N] = pre := List.dropLast_append_getLast? N hN
    rw [← hsplit] at h
    have h' := List.chain'_append.mp h
    refine ⟨h'.1, fun x hx hxf => ?_⟩
    exact h'.2.2 x hx N (by simp) ⟨hxf, hNf⟩
  · rw [if_neg hf]
    refine ⟨h, fun x hx hxf => hf ?_⟩
    exact (freeNeighbour_isSome_iff _).mpr ⟨x, hx, hxf⟩

/-- The list that `coalesce` leaves after the merged region starts with no free region. -/
theorem coalesce_right {post : List Region} (h : NoAdjacentFree post) :
    NoAdjacentFree (if (freeNeighbour post.head?).isSome then post.tail else post) ∧
    ∀ x ∈ (if (freeNeighbour post.head?).isSome then post.tail else post).head?,
      x.state ≠ IS_FREE := by
  by_cases hf : (freeNeighbour post.head?).isSome = true
  · rw [if_pos hf]
    obtain ⟨N, hN, hNf⟩ := (freeNeighbour_isSome_iff _).mp hf
    cases post with
    | nil => simp at hN
    | cons a rest =>
      simp only [List.head?_cons, Option.some.injEq] at hN
      subst hN
      have h' := List.chain'_cons'.mp h
      exact ⟨h'.2, fun x hx hxf => h'.1 x hx ⟨hNf, hxf⟩⟩
  · rw [if_neg hf]
    refine ⟨h, fun x hx hxf => hf ?_⟩
    exact (freeNeighbour_isSome_iff _).mpr ⟨x, hx, hxf⟩

/-- Coalescing keeps the region list free of adjacent free regions. -/
theorem NoAdjacentFree.coalesce_ok {pre post : List Region} (R : Region)
    (h : NoAdjacentFree (pre ++ R :: post)) : NoAdjacentFree (coalesce pre R post) := by
  have h' := List.chain'_append.mp h
  have hl := coalesce_left h'.1
  have hr := coalesce_right (List.chain'_cons'.mp h'.2.1).2
  unfold coalesce
  refine List.chain'_append.mpr ⟨hl.1, List.chain'_cons'.mpr ⟨?_, hr.1⟩, ?_⟩
  · intro y hy hc
    exact hr.2 y hy hc.2
  · intro x hx y hy hc
    exact hl.2 x hx hc.1

theorem NoAdjacentFree.occupy_ok {pre post : List Region} {F O : Region}
    (h : NoAdjacentFree (pre ++ F :: post)) (hO : O.state = IS_OCCUPIED) :
    NoAdjacentFree (pre ++ O :: post) := by
  have h' := List.chain'_append.mp h
  have h'' := List.chain'_cons'.mp h'.2.1
  refine List.chain'_append.mpr ⟨h'.1, List.chain'_cons'.mpr ⟨?_, h''.2⟩, ?_⟩
  · intro y _ hc
    rw [hO] at hc
    exact absurd hc.1 (by decide)
  · intro x _ y hy hc
    simp only [List.head?_cons, Option.mem_def, Option.some.injEq] at hy
    subst hy
    rw [hO] at hc
    exact absurd hc.2 (by decide)

theorem NoAdjacentFree.split_ok {pre post : List Region} {F O F' : Region}
    (h : NoAdjacentFree (pre ++ F :: post)) (hF : F.state = IS_FREE)
    (hO : O.state = IS_OCCUPIED) :
    NoAdjacentFree (pre ++ O :: F' :: post) := by
  have h' := List.chain'_append.mp h
  have h'' := List.chain'_cons'.mp h'.2.1
  refine List.chain'_append.mpr ⟨h'.1, List.chain'_cons'.mpr ⟨?_, List.chain'_cons'.mpr ⟨?_, h''.2⟩⟩, ?_⟩
  · intro y _ hc
    rw [hO] at hc
    exact absurd hc.1 (by decide)
  · intro y hy hc
    exact h''.1 y hy ⟨hF, hc.2⟩
  · intro x _ y hy hc
    simp only [List.head?_cons, Option.mem_def, Option.some.injEq] at hy
    subst hy
    rw [hO] at hc
    exact absurd hc.2 (by decide)

/-- Method `allocate` on a reachable state whose free heap has the top region `M`, for a
size that fits into `M`, in terms of the nodes before and after `M` in the list. -/
theorem allocate_top_parts {T : Int} {st : MemoryManager} {M : Nat} {rest : List Nat}
    {s : Int} (hreach : Reachable T st) (htop : st.freeMemory_ = M :: rest)
    (hs : s ≤ (st.nodes M).size) :
    ∃ st' occupied pre post, st.allocate s = .ok (st', (st.nodes M).offset) ∧
      st'.operationsHistory_ =
        st.operationsHistory_ ++ [⟨st.requestsCount + 1, occupied⟩] ∧
      st.memoryParts_ = pre ++ M :: post ∧
      st'.memoryParts_ =
        pre ++ occupied :: (if s < (st.nodes M).size then M :: post else post) ∧
      (∀ x, x ∈ pre ∨ x ∈ post → (st'.nodes x).region = (st.nodes x).region) ∧
      (st'.nodes occupied).region = ⟨s, (st.nodes M).offset, IS_OCCUPIED⟩ ∧
      (s < (st.nodes M).size →
        (st'.nodes M).region = ⟨(st.nodes M).size - s, (st.nodes M).offset + s, IS_FREE⟩) := by
  have hinv := inv_of_reachable hreach
  obtain ⟨st', occupied, e1, e2, e3, e4, e5, e6⟩ := allocate_top_spec hreach htop hs
  have hMheap : M ∈ st.freeMemory_ := by rw [htop]; simp
  have hMparts := (hinv.heap.free M hMheap).1
  have hnd := hinv.list.nodup
  rcases lt_or_eq_of_le hs with hlt | heq
  · obtain ⟨_, ⟨pre, post, p1, p2⟩, p3, _⟩ := e5 hlt
    refine ⟨st', occupied, pre, post, e1, e2, p1, by rw [if_pos hlt]; exact p2, ?_, e3,
      fun _ => p3⟩
    intro x hx
    rw [p1] at hnd
    have hxM : x ≠ M := by
      rintro rfl
      rcases hx with hx | hx
      · exact (List.disjoint_of_nodup_append hnd) hx (by simp)
      · exact (List.nodup_cons.mp (List.nodup_append.mp hnd).2.1).1 hx
    refine e4 x ?_ hxM
    rw [p1]
    rcases hx with hx | hx
    · exact List.mem_append_left _ hx
    · exact List.mem_append_right _ (List.mem_cons_of_mem _ hx)
  · obtain ⟨q1, q2, _⟩ := e6 heq
    obtain ⟨pre, post, p1, p2, p3⟩ := split_of_mem_nodup hnd hMparts
    refine ⟨st', occupied, pre, post, e1, e2, p1, ?_, ?_, e3,
      fun h => absurd heq (ne_of_lt h)⟩
    · rw [if_neg (by rw [heq]; exact lt_irrefl _), q2, p1, q1]
    · intro x hx
      have hxM : x ≠ M := by
        rintro rfl
        rcases hx with hx | hx
        · exact p2 hx
        · exact p3 hx
      refine e4 x ?_ hxM
      rw [p1]
      rcases hx with hx | hx
      · exact List.mem_append_left _ hx
      · exact List.mem_append_right _ (List.mem_cons_of_mem _ hx)

theorem allocate_fail_or_top {T : Int} {st st' : MemoryManager} {s o : Int}
    (hreach : Reachable T st) (ha : st.allocate s = .ok (st', o)) :
    (st' = { st with requestsCount := st.requestsCount + 1 } ∧ o = FAIL_CODE) ∨
    ∃ M rest occupied pre post, st.freeMemory_ = M :: rest ∧ s ≤ (st.nodes M).size ∧
      o = (st.nodes M).offset ∧
      (st.nodes M).state = IS_FREE ∧
      st'.operationsHistory_ =
        st.operationsHistory_ ++ [⟨st.requestsCount + 1, occupied⟩] ∧
      st.memoryParts_ = pre ++ M :: post ∧
      st'.memoryParts_ =
        pre ++ occupied :: (if s < (st.nodes M).size then M :: post else post) ∧
      (∀ x, x ∈ pre ∨ x ∈ post → (st'.nodes x).region = (st.nodes x).region) ∧
      (st'.nodes occupied).region = ⟨s, (st.nodes M).offset, IS_OCCUPIED⟩ ∧
      (s < (st.nodes M).size →
        (st'.nodes M).region = ⟨(st.nodes M).size - s, (st.nodes M).offset + s, IS_FREE⟩) := by
  obtain ⟨l, hh⟩ : ∃ l, st.freeMemory_ = l := ⟨_, rfl⟩
  cases l with
  | nil =>
    rw [allocate_nil st s hh] at ha
    cases ha
    exact Or.inl ⟨rfl, rfl⟩
  | cons M rest =>
    by_cases hs : (st.nodes M).size < s
    · rw [allocate_small st s hh hs] at ha
      cases ha
      exact Or.inl ⟨rfl, rfl⟩
    · obtain ⟨st'', occupied, pre, post, e1, e2, e3, e4, e5, e6, e7⟩ :=
        allocate_top_parts hreach hh (not_lt.mp hs)
      rw [e1] at ha
      cases ha
      have hfree := ((inv_of_reachable hreach).heap.free M (by rw [hh]; simp)).2
      exact Or.inr ⟨M, rest, occupied, pre, post, hh, not_lt.mp hs, rfl, hfree, e2, e3, e4, e5,
        e6, e7⟩

/-- In every reachable state no two neighbours in the region list are both free. -/
theorem noAdjacentFree_of_reachable {T : Int} {st : MemoryManager} (h : Reachable T st) :
    NoAdjacentFree st.regions := by
  induction h with
  | new =>
    show NoAdjacentFree ((MemoryManager.new T).memoryParts_.map _)
    simp [MemoryManager.new, NoAdjacentFree]
  | @allocate st st' n o hreach hn ha ih =>
    rcases allocate_fail_or_top hreach ha with ⟨rfl, _⟩ |
      ⟨M, rest, occupied, pre, post, hh, hs, _, hfree, e2, e3, e4, e5, e6, e7⟩
    · exact ih
    · have hpre : pre.map (fun h => (st'.nodes h).region) =
          pre.map (fun h => (st.nodes h).region) :=
        List.map_congr_left (fun x hx => e5 x (Or.inl hx))
      have hpost : post.map (fun h => (st'.nodes h).region) =
          post.map (fun h => (st.nodes h).region) :=
        List.map_congr_left (fun x hx => e5 x (Or.inr hx))
      have ih' : NoAdjacentFree (pre.map (fun h => (st.nodes h).region) ++
          (st.nodes M).region :: post.map (fun h => (st.nodes h).region)) := by
        have : st.regions = pre.map (fun h => (st.nodes h).region) ++
            (st.nodes M).region :: post.map (fun h => (st.nodes h).region) := by
          simp only [MemoryManager.regions, e3, List.map_append, List.map_cons]
        rw [← this]; exact ih
      have hocc : ((st'.nodes occupied).region).state = IS_OCCUPIED := by rw [e6]
      by_cases hlt : n < (st.nodes M).size
      · rw [if_pos hlt] at e4
        simp only [MemoryManager.regions, e4, List.map_append, List.map_cons, hpre, hpost]
        exact ih'.split_ok hfree hocc
      · rw [if_neg hlt] at e4
        simp only [MemoryManager.regions, e4, List.map_append, List.map_cons, hpre, hpost]
        exact ih'.occupy_ok hocc
  | @revoke st k hreach ih =>
    by_cases hex : ∃ r ∈ st.operationsHistory_, r.id = k
    · obtain ⟨r, hr, rfl⟩ := hex
      obtain ⟨pre, post, p1, p2, _⟩ := revoke_coalesce_spec hreach hr
      rw [p2]
      refine NoAdjacentFree.coalesce_ok _ ?_
      have : st.regions = pre.map (fun h => (st.nodes h).region) ++
          (st.nodes r.part).region :: post.map (fun h => (st.nodes h).region) := by
        simp only [MemoryManager.regions, p1, List.map_append, List.map_cons]
      rw [← this]; exact ih
    · rw [revoke_not_found (findOperationById_none (fun r hr e => hex ⟨r, hr, e⟩))]
      exact ih

theorem freeNeighbour_eq_none {o : Option Region} (h : ∀ N ∈ o, N.state ≠ IS_FREE) :
    freeNeighbour o = none := by
  cases o with
  | none => rfl
  | some N =>
    have := h N rfl
    simp [freeNeighbour, Option.filter, this]

theorem freeNeighbour_eq_some {N : Region} (h : N.state = IS_FREE) :
    freeNeighbour (some N) = some N := by
  simp [freeNeighbour, Option.filter, h]

/-- Allocating from the free region `F` and revoking the allocation at once gives the
region list back, when no neighbour of `F` is free. -/
theorem coalesce_round_trip {pre post : List Region} {m o s : Int}
    (h : NoAdjacentFree (pre ++ ⟨m, o, IS_FREE⟩ :: post)) (hs0 : 0 ≤ s) (hsm : s ≤ m) :
    coalesce pre ⟨s, o, IS_OCCUPIED⟩
      (if s < m then ⟨m - s, o + s, IS_FREE⟩ :: post else post) =
      pre ++ ⟨m, o, IS_FREE⟩ :: post := by
  have h' := List.chain'_append.mp h
  have h'' := List.chain'_cons'.mp h'.2.1
  have hL : freeNeighbour pre.getLast? = none :=
    freeNeighbour_eq_none (fun N hN hf => h'.2.2 N hN ⟨m, o, IS_FREE⟩ rfl ⟨hf, rfl⟩)
  by_cases hlt : s < m
  · rw [if_pos hlt]
    simp only [coalesce, mergedRegion, hL, List.head?_cons, freeNeighbour_eq_some,
      Option.isSome_none, Option.isSome_some, Option.toList_none, Option.toList_some,
      List.nil_append, List.map_cons, List.map_nil, List.sum_cons, List.sum_nil,
      List.foldl_cons, List.foldl_nil, List.tail_cons, if_true, Bool.false_eq_true, if_false,
      min_self]
    congr 2
    rw [Region.mk.injEq]
    refine ⟨by ring, ?_, rfl⟩
    exact min_eq_left (by omega)
  · rw [if_neg hlt]
    have hm : s = m := le_antisymm hsm (not_lt.mp hlt)
    subst hm
    have hR : freeNeighbour post.head? = none :=
      freeNeighbour_eq_none (fun N hN hf => h''.1 N hN ⟨rfl, hf⟩)
    simp only [coalesce, mergedRegion, hL, hR,
      Option.isSome_none, Option.toList_none,
      List.nil_append, List.append_nil, List.map_cons, List.map_nil, List.sum_cons,
      List.sum_nil, List.foldl_cons, List.foldl_nil, Bool.false_eq_true, if_false,
      min_self, add_zero]

/-- Claim C11: in a reachable state, when `allocate(s)` with `s ≥ 1` succeeds, as the
request number `j = requestsCount`, then `revoke(j)` right after it leaves a region list
whose regions (size, offset, state) are those of the state before the allocation. -/
theorem C11_allocate_then_revoke_round_trip {T : Int} {st st₁ : MemoryManager} {s o : Int}
    (hreach : Reachable T st) (hs : 1 ≤ s) (ha : st.allocate s = .ok (st₁, o))
    (ho : o ≠ FAIL_CODE) :
    st₁.requestsCount = st.requestsCount + 1 ∧
      (∃ r ∈ st₁.operationsHistory_, r.id = st₁.requestsCount) ∧
      (st₁.revoke st₁.requestsCount).regions = st.regions := by
  have hcount : st₁.requestsCount = st.requestsCount + 1 := by
    rcases allocate_cases st s with h | ⟨st', o', h', e, _, ec⟩
    · rw [h] at ha; cases ha; rfl
    · rw [e] at ha; cases ha; exact ec
  rcases allocate_fail_or_top hreach ha with ⟨_, hfail⟩ |
    ⟨M, rest, occupied, pre, post, hh, hsM, _, hfree, e2, e3, e4, e5, e6, e7⟩
  · exact absurd hfail ho
  have hreach₁ : Reachable T st₁ := Reachable.allocate hreach hs ha
  have hr : (⟨st.requestsCount + 1, occupied⟩ : Operation) ∈ st₁.operationsHistory_ := by
    rw [e2]; simp
  refine ⟨hcount, ⟨_, hr, hcount.symm⟩, ?_⟩
  rw [hcount]
  obtain ⟨pre', post', p1, p2, _⟩ := revoke_coalesce_spec hreach₁ hr
  have hnd := (inv_of_reachable hreach₁).list.nodup
  have hsplit : pre = pre' ∧ occupied = occupied ∧
      (if s < (st.nodes M).size then M :: post else post) = post' := by
    rw [e4] at hnd
    refine (List.append_cons_inj_of_not_mem ?_ ?_).mp (e4.symm.trans p1)
    · exact fun hx => (List.disjoint_of_nodup_append hnd) hx (by simp)
    · exact (List.nodup_cons.mp (List.nodup_append.mp hnd).2.1).1
  obtain ⟨rfl, _, rfl⟩ := hsplit
  have hpre : pre.map (fun h => (st₁.nodes h).region) =
      pre.map (fun h => (st.nodes h).region) :=
    List.map_congr_left (fun x hx => e5 x (Or.inl hx))
  have hpost : post.map (fun h => (st₁.nodes h).region) =
      post.map (fun h => (st.nodes h).region) :=
    List.map_congr_left (fun x hx => e5 x (Or.inr hx))
  have hM : (st.nodes M).region = ⟨(st.nodes M).size, (st.nodes M).offset, IS_FREE⟩ :=
    region_mk_iff.mpr ⟨rfl, rfl, hfree⟩
  have hst : st.regions = pre.map (fun h => (st.nodes h).region) ++
      ⟨(st.nodes M).size, (st.nodes M).offset, IS_FREE⟩ ::
        post.map (fun h => (st.nodes h).region) := by
    simp only [MemoryManager.regions, e3, List.map_append, List.map_cons, hM]
  have hna := noAdjacentFree_of_reachable hreach
  rw [hst] at hna
  have htail : (if s < (st.nodes M).size then M :: post else post).map
      (fun h => (st₁.nodes h).region) =
      if s < (st.nodes M).size then
        ⟨(st.nodes M).size - s, (st.nodes M).offset + s, IS_FREE⟩ ::
          post.map (fun h => (st.nodes h).region)
      else post.map (fun h => (st.nodes h).region) := by
    by_cases hlt : s < (st.nodes M).size
    · simp only [if_pos hlt, List.map_cons, e7 hlt, hpost]
    · simp only [if_neg hlt, hpost]
  show (st₁.revoke (⟨st.requestsCount + 1, occupied⟩ : Operation).id).regions = st.regions
  rw [p2, hst, hpre, htail, e6]
  exact coalesce_round_trip hna (by omega) hsM

/-- No region of the list is larger than the whole memory. -/
theorem size_le_of_listOk {T : Int} {m : Nodes} {parts : List Nat} {fresh : Nat}
    (h : ListOk T m parts fresh) {x : Nat} (hx : x ∈ parts) : (m x).size ≤ T := by
  obtain ⟨pre, post, hsplit, _, _⟩ := split_of_mem_nodup h.nodup hx
  have hc := h.chain
  rw [hsplit, chainFrom_append] at hc
  obtain ⟨mid, hc1, hc2, hc3⟩ := hc
  have hsz : ∀ a, a ∈ pre ∨ a ∈ post → 1 ≤ (m a).size := by
    intro a ha
    rcases h.sizes with h1 | h2
    · rw [hsplit] at h1
      simp only [List.length_append, List.length_cons] at h1
      have hp : pre = [] := List.length_eq_zero.mp (by omega)
      have hq : post = [] := List.length_eq_zero.mp (by omega)
      subst hp hq
      simp at ha
    · refine h2 a ?_
      rw [hsplit]
      rcases ha with ha | ha
      · exact List.mem_append_left _ ha
      · exact List.mem_append_right _ (List.mem_cons_of_mem _ ha)
  have h1 := chainFrom_le _ _ _ (fun a ha => hsz a (Or.inl ha)) hc1
  have h2 := chainFrom_le _ _ _ (fun a ha => hsz a (Or.inr ha)) hc3
  have : (0 : Int) ≤ pre.length := Int.natCast_nonneg _
  have : (0 : Int) ≤ post.length := Int.natCast_nonneg _
  omega

/-- Claim C12: in every reachable state `allocate(s)` returns `-1` for every `s` larger
than the total size, and changes nothing but the request counter. -/
theorem C12_oversized_request_fails {T : Int} {st : MemoryManager} (hreach : Reachable T st)
    {s : Int} (hs : T < s) :
    st.allocate s = .ok ({ st with requestsCount := st.requestsCount + 1 }, FAIL_CODE) := by
  obtain ⟨l, hh⟩ : ∃ l, st.freeMemory_ = l := ⟨_, rfl⟩
  cases l with
  | nil => exact allocate_nil st s hh
  | cons M rest =>
    have hinv := inv_of_reachable hreach
    have hM := (hinv.heap.free M (by rw [hh]; simp)).1
    have := size_le_of_listOk hinv.list hM
    exact allocate_small st s hh (by omega)

set_option maxRecDepth 100000 in
/-- Witness of C11: a manager of size 6 that has granted 2 cells; `allocate(3)` is the
request number 2 and returns the offset 3. -/
theorem C11_allocate_then_revoke_round_trip_witness :
    ∃ st st₁ : MemoryManager, Reachable 6 st ∧ st.allocate 3 = .ok (st₁, 3) ∧
      st₁.requestsCount = st.requestsCount + 1 ∧
      (∃ r ∈ st₁.operationsHistory_, r.id = st₁.requestsCount) ∧
      (st₁.revoke st₁.requestsCount).regions = st.regions := by
  obtain ⟨st, st₁, h₀, h₁⟩ : ∃ st st₁, (MemoryManager.new 6).allocate 2 = .ok (st, 1) ∧
      st.allocate 3 = .ok (st₁, 3) := ⟨_, _, rfl, rfl⟩
  have hreach : Reachable 6 st := Reachable.allocate Reachable.new (by decide) h₀
  exact ⟨st, st₁, hreach, h₁,
    C11_allocate_then_revoke_round_trip hreach (by decide) h₁ (by decide)⟩

set_option maxRecDepth 100000 in
/-- Witness of C12: a manager of size 6 that has granted 2 cells refuses 7 cells. -/
theorem C12_oversized_request_fails_witness :
    ∃ st : MemoryManager, Reachable 6 st ∧
      st.allocate 7 = .ok ({ st with requestsCount := st.requestsCount + 1 }, FAIL_CODE) := by
  have hreach : Reachable 6 _ := Reachable.allocate (n := 2) Reachable.new (by decide) rfl
  exact ⟨_, hreach, C12_oversized_request_fails hreach (by decide)⟩

/-! ## The constructor of the heap -/

section HeapConstructor

variable {T : Type} [Inhabited T]

theorem greater_strictWeak : StrictWeak greater := by
  refine ⟨?_, ?_⟩
  · intro a b h
    simp only [greater, decide_eq_true_eq, decide_eq_false_iff_not] at h ⊢
    omega
  · intro a b d h₁ h₂
    simp only [greater, decide_eq_false_iff_not] at h₁ h₂ ⊢
    omega

theorem maxHeap_iff (xs : List Int) : MaxHeap xs ↔ IsHeap greater xs := by
  constructor
  · intro h i hi hlen
    have := h i hi hlen
    simp only [greater, decide_eq_false_iff_not]
    omega
  · intro h i hi hlen
    have := h i hi hlen
    simp only [greater, decide_eq_false_iff_not] at this
    omega

theorem heapFrom_zero {c : T → T → Bool} {xs : List T} : HeapFrom c xs 0 ↔ IsHeap c xs :=
  ⟨fun h i hi hlen => h i hi hlen (Nat.zero_le _), fun h i hi hlen _ => h i hi hlen⟩

theorem HeapFrom.toDownFrom {c : T → T → Bool} {xs : List T} {k : Nat}
    (h : HeapFrom c xs (k + 1)) : DownFrom c xs k k := by
  refine ⟨fun i hi0 hilen hk hne => h i hi0 hilen (by omega), ?_⟩
  intro i _ _ _ hk0 hk
  omega

/-- One iteration of `siftDown` that exchanges `pos` with its child `ch` keeps the
invariant of the loop, on the part of the vector from `k` on. -/
theorem DownFrom.step_from {c : T → T → Bool} (hc : StrictWeak c) {xs : List T}
    {k pos ch : Nat} (hk : k ≤ pos)
    (hch : ch < xs.length) (hPch : (ch - 1) / 2 = pos) (hch0 : 0 < ch) (hne : ch ≠ pos)
    (h : DownFrom c xs k pos)
    (hlt : c (Heap.elemAt xs ch) (Heap.elemAt xs pos) = true)
    (hother : ∀ o, 0 < o → o < xs.length → (o - 1) / 2 = pos → o ≠ ch →
      c (Heap.elemAt xs o) (Heap.elemAt xs ch) = false) :
    DownFrom c (swapIdx xs pos ch) k ch := by
  have hpos : pos < xs.length := by omega
  obtain ⟨hedge, hgp⟩ := h
  refine ⟨?_, ?_⟩
  · intro i hi0 hilen hki hPi
    rw [length_swapIdx] at hilen
    rw [elemAt_swapIdx hpos hch, elemAt_swapIdx hpos hch]
    rw [if_neg hPi]
    by_cases hic : i = ch
    · rw [if_pos hic, if_pos (by rw [hic]; exact hPch)]
      exact hc.asymm _ _ hlt
    · rw [if_neg hic]
      by_cases hip : i = pos
      · rw [if_pos hip]
        have hpos0 : 0 < pos := by omega
        have hnp : (i - 1) / 2 ≠ pos := by omega
        rw [if_neg hnp, hip]
        exact hgp ch hch0 hch hPch hpos0 (by rw [← hip]; exact hki)
      · rw [if_neg hip]
        by_cases hPp : (i - 1) / 2 = pos
        · rw [if_pos hPp]; exact hother i hi0 hilen hPp hic
        · rw [if_neg hPp]; exact hedge i hi0 hilen hki hPp
  · intro i hi0 hilen hPi _ _
    rw [length_swapIdx] at hilen
    rw [elemAt_swapIdx hpos hch, elemAt_swapIdx hpos hch]
    have h1 : i ≠ ch := by omega
    have h2 : i ≠ pos := by omega
    have h3 : (ch - 1) / 2 ≠ ch := by omega
    rw [if_neg h1, if_neg h2, if_neg h3, if_pos hPch]
    have := hedge i hi0 hilen (by omega) (by omega)
    rw [hPi] at this
    exact this

/-- The loop of `siftDown` started at `pos`, with heap order after `pos` and iterations
enough to reach a leaf, ends with heap order from `k` on. -/
theorem pure_siftDownLoop_from {c : T → T → Bool} (hc : StrictWeak c) (k : Nat) :
    ∀ (iter : Nat) (xs : List T) (pos : Nat), pos < xs.length → xs.length / 2 ≤ iter + pos →
      k ≤ pos → DownFrom c xs k pos →
      HeapFrom c (Heap.siftDownLoop (pureOps c) iter () xs pos).2.1 k
  | 0, xs, pos, _, hit, _, h => by
    show HeapFrom c xs k
    exact fun i hi0 hilen hki => h.1 i hi0 hilen hki (by omega)
  | iter + 1, xs, pos, hpos, hit, hk, h => by
    rw [pure_siftDownLoop_succ]
    by_cases hl : pos * 2 + 1 < xs.length ∧
        c (Heap.elemAt xs (pos * 2 + 1)) (Heap.elemAt xs pos) = true
    · simp only [if_pos hl]
      by_cases hr : pos * 2 + 2 < xs.length ∧
          c (Heap.elemAt xs (pos * 2 + 2)) (Heap.elemAt xs (pos * 2 + 1)) = true
      · simp only [if_pos hr]
        rw [if_neg (by omega)]
        refine pure_siftDownLoop_from hc k iter _ _ (by rw [length_swapIdx]; exact hr.1)
          (by rw [length_swapIdx]; omega) (by omega) ?_
        refine h.step_from hc hk hr.1 (by omega) (by omega) (by omega)
          (hc.trans_lt hr.2 hl.2) ?_
        intro o ho0 holen hPo hne
        have : o = pos * 2 + 1 := by omega
        subst this
        exact hc.asymm _ _ hr.2
      · simp only [if_neg hr]
        rw [if_neg (by omega)]
        refine pure_siftDownLoop_from hc k iter _ _ (by rw [length_swapIdx]; exact hl.1)
          (by rw [length_swapIdx]; omega) (by omega) ?_
        refine h.step_from hc hk hl.1 (by omega) (by omega) (by omega) hl.2 ?_
        intro o ho0 holen hPo hne
        have ho : o = pos * 2 + 2 := by omega
        subst ho
        cases hco : c (Heap.elemAt xs (pos * 2 + 2)) (Heap.elemAt xs (pos * 2 + 1))
        · rfl
        · exact absurd ⟨holen, hco⟩ hr
    · simp only [if_neg hl]
      by_cases hr : pos * 2 + 2 < xs.length ∧
          c (Heap.elemAt xs (pos * 2 + 2)) (Heap.elemAt xs pos) = true
      · simp only [if_pos hr]
        rw [if_neg (by omega)]
        refine pure_siftDownLoop_from hc k iter _ _ (by rw [length_swapIdx]; exact hr.1)
          (by rw [length_swapIdx]; omega) (by omega) ?_
        refine h.step_from hc hk hr.1 (by omega) (by omega) (by omega) hr.2 ?_
        intro o ho0 holen hPo hne
        have ho : o = pos * 2 + 1 := by omega
        subst ho
        cases hco : c (Heap.elemAt xs (pos * 2 + 1)) (Heap.elemAt xs pos)
        · exact hc.negtrans _ _ _ hco (hc.asymm _ _ hr.2)
        · exact absurd ⟨holen, hco⟩ hl
      · simp only [if_neg hr, if_true]
        intro i hi0 hilen hki
        by_cases hPi : (i - 1) / 2 = pos
        · rw [hPi]
          have hi : i = pos * 2 + 1 ∨ i = pos * 2 + 2 := by omega
          rcases hi with hi | hi
          · subst hi
            cases hco : c (Heap.elemAt xs (pos * 2 + 1)) (Heap.elemAt xs pos)
            · rfl
            · exact absurd ⟨hilen, hco⟩ hl
          · subst hi
            cases hco : c (Heap.elemAt xs (pos * 2 + 2)) (Heap.elemAt xs pos)
            · rfl
            · exact absurd ⟨hilen, hco⟩ hr
        · exact h.1 i hi0 hilen hki hPi

/-- The loop of the constructor, started with heap order from `n` on, ends with heap
order everywhere and with the elements it started with. -/
theorem pure_constructLoop_spec {c : T → T → Bool} (hc : StrictWeak c) :
    ∀ (n : Nat) (xs : List T), n ≤ xs.length → HeapFrom c xs n →
      IsHeap c (Heap.constructLoop (pureOps c) n () xs).2 ∧
        (Heap.constructLoop (pureOps c) n () xs).2.Perm xs
  | 0, xs, _, h => ⟨heapFrom_zero.mp h, List.Perm.refl _⟩
  | n + 1, xs, hn, h => by
    have hp := pure_siftDownLoop_perm c (xs.length / 2) xs n hn
    have hs := pure_siftDownLoop_from hc n (xs.length / 2) xs n hn (by omega) (le_refl n)
      h.toDownFrom
    obtain ⟨h1, h2⟩ := pure_constructLoop_spec hc n
      (Heap.siftDownLoop (pureOps c) (xs.length / 2) () xs n).2.1
      (by rw [hp.length_eq]; omega) hs
    exact ⟨h1, h2.trans hp⟩

/-- The constructor leaves the elements of the vector in heap order. -/
theorem pure_construct_spec {c : T → T → Bool} (hc : StrictWeak c) (xs : List T) :
    IsHeap c (Heap.new (pureOps c) () xs).2 ∧ (Heap.new (pureOps c) () xs).2.Perm xs := by
  cases xs with
  | nil =>
    have e : (Heap.new (pureOps c) () ([] : List T)).2 = [] := by
      simp [Heap.new, Heap.constructLoop, Heap.siftDown, Heap.siftDownLoop]
    rw [e]
    exact ⟨fun i _ hi => absurd hi (Nat.not_lt_zero _), List.Perm.refl _⟩
  | cons x xs =>
    refine pure_constructLoop_spec hc _ _ ?_ ?_
    · simp only [List.length_cons]; omega
    · intro i _ hilen hk
      omega

/-- More iterations than `size() / 2` change nothing in `siftDown`: by then the loop has
left through its `break`. -/
theorem siftDownLoop_extra {σ : Type} (ops : HeapOps σ T) (extra : Nat) :
    ∀ (iter : Nat) (m : σ) (xs : List T) (pos : Nat), xs.length / 2 ≤ iter + pos →
      Heap.siftDownLoop ops (iter + extra) m xs pos = Heap.siftDownLoop ops iter m xs pos
  | 0, m, xs, pos, hit => by
    cases extra with
    | zero => rfl
    | succ e =>
      have h1 : ¬ pos * 2 + 1 < xs.length := by omega
      have h2 : ¬ pos * 2 + 2 < xs.length := by omega
      simp only [Nat.zero_add, Heap.siftDownLoop, h1, h2, false_and, if_false, if_true]
  | iter + 1, m, xs, pos, hit => by
    rw [show iter + 1 + extra = (iter + extra) + 1 by omega]
    simp only [Heap.siftDownLoop]
    by_cases hl : pos * 2 + 1 < xs.length ∧
        ops.compare m (Heap.elemAt xs (pos * 2 + 1)) (Heap.elemAt xs pos) = true
    · simp only [if_pos hl]
      by_cases hr : pos * 2 + 2 < xs.length ∧
          ops.compare m (Heap.elemAt xs (pos * 2 + 2)) (Heap.elemAt xs (pos * 2 + 1)) = true
      · simp only [if_pos hr]
        rw [if_neg (by omega), if_neg (by omega)]
        exact siftDownLoop_extra ops extra iter _ _ _ (by
          simp only [Heap.swapAt, List.length_set]; omega)
      · simp only [if_neg hr]
        rw [if_neg (by omega), if_neg (by omega)]
        exact siftDownLoop_extra ops extra iter _ _ _ (by
          simp only [Heap.swapAt, List.length_set]; omega)
    · simp only [if_neg hl]
      by_cases hr : pos * 2 + 2 < xs.length ∧
          ops.compare m (Heap.elemAt xs (pos * 2 + 2)) (Heap.elemAt xs pos) = true
      · simp only [if_pos hr]
        rw [if_neg (by omega), if_neg (by omega)]
        exact siftDownLoop_extra ops extra iter _ _ _ (by
          simp only [Heap.swapAt, List.length_set]; omega)
      · simp only [if_neg hr, if_true]

end HeapConstructor

/-! ## The heap of integers -/

/-- Claim C13: for every vector `v` of integers the array that the constructor
`Heap<int>(v)` stores is a permutation of `v` with the max-heap property, and `siftDown`
does the same with any number of iterations above its cap of `size() / 2`. -/
theorem C13_constructor_builds_max_heap (v : List Int) :
    (Heap.new (pureOps greater) () v).2.Perm v ∧
      MaxHeap (Heap.new (pureOps greater) () v).2 ∧
      ∀ (xs : List Int) (position extra : Nat),
        Heap.siftDownLoop (pureOps greater) (xs.length / 2 + extra) () xs position =
          Heap.siftDown (pureOps greater) () xs position := by
  obtain ⟨h1, h2⟩ := pure_construct_spec greater_strictWeak v
  exact ⟨h2, (maxHeap_iff _).mpr h1,
    fun xs position extra => siftDownLoop_extra _ extra _ _ xs position (by omega)⟩

/-- Claim C14: `insert(x)` on a `Heap<int>` with the max-heap property leaves an array
with the max-heap property whose elements are the old ones and one copy of `x`. -/
theorem C14_insert_keeps_max_heap {xs : List Int} (h : MaxHeap xs) (x : Int) :
    MaxHeap (Heap.insert (pureOps greater) () xs x).2 ∧
      (Heap.insert (pureOps greater) () xs x).2.Perm (x :: xs) := by
  obtain ⟨h1, h2⟩ := pure_insert_spec greater_strictWeak x ((maxHeap_iff _).mp h)
  exact ⟨(maxHeap_iff _).mpr h1, h2⟩

/-- Claim C15: `remove(position)` on a `Heap<int>` with the max-heap property: for a
position in `[0, size)` the array keeps the max-heap property and loses the one element
that was at the position; for any other position the array is unchanged. -/
theorem C15_remove_keeps_max_heap {xs : List Int} (h : MaxHeap xs) (position : Int) :
    (0 ≤ position → position < xs.length →
        MaxHeap (Heap.remove (pureOps greater) () xs position).2 ∧
          (Heap.remove (pureOps greater) () xs position).2.Perm
            (xs.eraseIdx position.toNat)) ∧
      (position < 0 ∨ (xs.length : Int) ≤ position →
        (Heap.remove (pureOps greater) () xs position).2 = xs) := by
  refine ⟨fun h0 hlt => ?_, fun hout => ?_⟩
  · have hp : position.toNat < xs.length := by omega
    obtain ⟨h1, h2⟩ := pure_remove_spec greater_strictWeak hp ((maxHeap_iff _).mp h)
    rw [Int.toNat_of_nonneg h0] at h1 h2
    exact ⟨(maxHeap_iff _).mpr h1, h2⟩
  · rw [remove_out_of_range _ _ _ _ hout]

theorem top_error_iff {T : Type} (xs : List T) :
    Heap.top xs = .error .EmptyHeapException ↔ xs = [] := by
  cases xs <;> simp [Heap.top]

theorem pop_error_iff {σ T : Type} [Inhabited T] (ops : HeapOps σ T) (m : σ) (xs : List T) :
    Heap.pop ops m xs = .error .EmptyHeapException ↔ xs = [] := by
  cases xs <;> simp [Heap.pop]

/-- Methods `top` and `pop` on a non-empty heap with memory. -/
theorem heap_top_pop_spec {σ T : Type} [Inhabited T] {ops : HeapOps σ T}
    {Good : σ → List T → Prop} {Frame : σ → σ → Prop} (L : HeapLaws ops Good Frame)
    {m : σ} {xs : List T} (hg : Good m xs) (h : IsHeap (ops.compare m) xs) (hne : xs ≠ []) :
    ∃ top, Heap.top xs = .ok top ∧ top ∈ xs ∧ (∀ e ∈ xs, ops.compare m e top = false) ∧
      ∃ m' ys, Heap.pop ops m xs = .ok (m', ys) ∧ (top :: ys).Perm xs ∧
        IsHeap (ops.compare m') ys ∧ Good m' ys ∧ Frame m m' := by
  cases xs with
  | nil => exact absurd rfl hne
  | cons x rest =>
    refine ⟨x, rfl, by simp, ?_, ?_⟩
    · intro e he
      obtain ⟨i, hi, rfl⟩ := exists_elemAt_of_mem he
      exact h.top_max (L.strict m) i hi
    · obtain ⟨h1, h2, h3, h4⟩ := heap_remove_spec L hg h (show 0 < (x :: rest).length by simp)
      simp only [Nat.cast_zero, List.eraseIdx_cons_zero] at h1 h2 h3 h4
      refine ⟨(Heap.remove ops m (x :: rest) 0).1, (Heap.remove ops m (x :: rest) 0).2, rfl,
        List.Perm.cons x h4, ?_, h1, h2⟩
      rw [L.compare_frame _ _ h2]
      exact h3

/-- The laws of a heap hold for a comparison on the elements themselves and `std::swap`. -/
theorem pureLaws {T : Type} [Inhabited T] {c : T → T → Bool} (hc : StrictWeak c) :
    HeapLaws (pureOps c) (fun _ _ => True) (fun _ _ => True) where
  frame_refl := fun _ => trivial
  frame_trans := fun _ _ _ _ _ => trivial
  compare_frame := fun _ _ _ => rfl
  strict := fun _ => hc
  swap := fun _ _ _ _ _ _ _ _ => ⟨rfl, trivial, trivial⟩
  dropLast := fun _ _ _ => trivial

/-- Claim C16: on a heap in heap order under its comparator, `top()` and `pop()` throw
`EmptyHeapException` exactly when the heap has no elements; otherwise `top()` returns a
stored element before which no stored element compares, and `pop()` removes one copy of
it and leaves the rest in heap order.  First for a comparison on the elements and
`std::swap`, then for the heap of `MemoryPartIterator` whose nodes record their
positions. -/
theorem C16_top_and_pop :
    (∀ (T : Type) [Inhabited T] (c : T → T → Bool) (xs : List T), StrictWeak c → IsHeap c xs →
      (Heap.top xs = .error .EmptyHeapException ↔ xs = []) ∧
      (Heap.pop (pureOps c) () xs = .error .EmptyHeapException ↔ xs = []) ∧
      (xs ≠ [] → ∃ top, Heap.top xs = .ok top ∧ top ∈ xs ∧ (∀ e ∈ xs, c e top = false) ∧
        ∃ ys, Heap.pop (pureOps c) () xs = .ok ((), ys) ∧ (top :: ys).Perm xs ∧
          IsHeap c ys)) ∧
    (∀ (m : Nodes) (xs : List Nat), HeapIdx m xs → IsHeap (CompareMemoryPartsBySize m) xs →
      (Heap.top xs = .error .EmptyHeapException ↔ xs = []) ∧
      (Heap.pop partOps m xs = .error .EmptyHeapException ↔ xs = []) ∧
      (xs ≠ [] → ∃ top, Heap.top xs = .ok top ∧ top ∈ xs ∧
        (∀ e ∈ xs, CompareMemoryPartsBySize m e top = false) ∧
        ∃ m' ys, Heap.pop partOps m xs = .ok (m', ys) ∧ (top :: ys).Perm xs ∧
          IsHeap (CompareMemoryPartsBySize m') ys ∧ HeapIdx m' ys ∧ SameRegions m m')) := by
  refine ⟨fun T _ c xs hc h => ⟨top_error_iff xs, pop_error_iff _ _ xs, fun hne => ?_⟩,
    fun m xs hg h => ⟨top_error_iff xs, pop_error_iff _ _ xs, fun hne => ?_⟩⟩
  · obtain ⟨top, h1, h2, h3, m', ys, h4, h5, h6, _, _⟩ :=
      heap_top_pop_spec (pureLaws hc) (m := ()) trivial h hne
    exact ⟨top, h1, h2, h3, ys, h4, h5, h6⟩
  · exact heap_top_pop_spec partLaws hg h hne

/-- More iterations than `size() + 1` change nothing in the binary search: by then the
loop has ended. -/
theorem findLoop_extra (history : List Operation) (id : Nat) (extra : Nat) :
    ∀ (fuel : Nat) (left right : Int), right - left + 1 < fuel →
      MemoryManager.findLoop history id (fuel + extra) left right =
        MemoryManager.findLoop history id fuel left right
  | 0, left, right, h => by
    cases extra with
    | zero => rfl
    | succ e =>
      simp only [Nat.zero_add, MemoryManager.findLoop]
      rw [if_neg (by omega)]
  | fuel + 1, left, right, h => by
    rw [show fuel + 1 + extra = (fuel + extra) + 1 by omega]
    simp only [MemoryManager.findLoop]
    by_cases hlr : left ≤ right
    · simp only [if_pos hlr]
      have hm : 0 ≤ (right - left) / 2 ∧ (right - left) / 2 ≤ right - left := by
        constructor <;> omega
      split
      · rfl
      · split
        · exact findLoop_extra history id extra fuel _ _ (by push_cast at h ⊢; omega)
        · exact findLoop_extra history id extra fuel _ _ (by push_cast at h ⊢; omega)
    · simp only [if_neg hlr]

/-- Claim C17: on a history whose ids are strictly increasing `findOperationById(id)`
returns the position of the record with that id if there is one, and the end position
otherwise; the loop ends by itself within the `size() + 1` iterations of the model. -/
theorem C17_findOperationById_finds_record (st : MemoryManager) (id : Nat)
    (hs : st.operationsHistory_.Pairwise (fun a b => a.id < b.id)) :
    (∀ i, i < st.operationsHistory_.length →
        (st.operationsHistory_.getD i default).id = id → st.findOperationById id = some i) ∧
      ((∀ r ∈ st.operationsHistory_, r.id ≠ id) → st.findOperationById id = none) ∧
      ∀ extra, MemoryManager.findLoop st.operationsHistory_ id
          (st.operationsHistory_.length + 1 + extra) 0
          ((st.operationsHistory_.length : Int) - 1) = st.findOperationById id := by
  refine ⟨fun i hi hid => ?_, fun h => findOperationById_none h, fun extra => ?_⟩
  · rw [List.getD_eq_getElem _ _ hi] at hid
    exact findOperationById_some hs hi hid
  · exact findLoop_extra _ _ extra _ _ _ (by push_cast; omega)

/-- Claim C18: `allocate` on any state and with any size returns without an
`EmptyHeapException`, and so does every sequence of allocations and revocations on a
manager of any size; `revoke` calls neither `top()` nor `pop()`. -/
theorem C18_no_empty_heap_exception :
    (∀ (st : MemoryManager) (s : Int), ∃ st' o, st.allocate s = .ok (st', o)) ∧
      ∀ (totalSize : Int) (requests : List Request),
        ∃ st outs, processAll (MemoryManager.new totalSize) requests = .ok (st, outs) :=
  ⟨allocate_total, fun _ requests => processAll_total requests _⟩

/-- The vector `5, 3, 4` has the max-heap property. -/
theorem maxHeap_example : MaxHeap [5, 3, 4] := by
  intro i hi hlen
  have : i = 1 ∨ i = 2 := by simp only [List.length_cons, List.length_nil] at hlen; omega
  rcases this with rfl | rfl <;> decide

/-- Witness of C14: `insert(7)` on the heap `5, 3, 4`. -/
theorem C14_insert_keeps_max_heap_witness :
    MaxHeap [5, 3, 4] ∧ MaxHeap (Heap.insert (pureOps greater) () [5, 3, 4] 7).2 ∧
      (Heap.insert (pureOps greater) () [5, 3, 4] 7).2.Perm [7, 5, 3, 4] :=
  ⟨maxHeap_example, C14_insert_keeps_max_heap maxHeap_example 7⟩

/-- Witness of C15: `remove(0)` and `remove(3)` on the heap `5, 3, 4`. -/
theorem C15_remove_keeps_max_heap_witness :
    MaxHeap [5, 3, 4] ∧
      (MaxHeap (Heap.remove (pureOps greater) () [5, 3, 4] 0).2 ∧
        (Heap.remove (pureOps greater) () [5, 3, 4] 0).2.Perm [3, 4]) ∧
      (Heap.remove (pureOps greater) () [5, 3, 4] 3).2 = [5, 3, 4] :=
  ⟨maxHeap_example, (C15_remove_keeps_max_heap maxHeap_example 0).1 (by decide) (by decide),
    (C15_remove_keeps_max_heap maxHeap_example 3).2 (by decide)⟩

/-- Witness of C16: `top()` and `pop()` on the `Heap<int>` with the elements `5, 3, 4`,
and on the heap of a new manager of size 6. -/
theorem C16_top_and_pop_witness :
    (∃ top, Heap.top ([5, 3, 4] : List Int) = .ok top ∧ top ∈ ([5, 3, 4] : List Int) ∧
      (∀ e ∈ ([5, 3, 4] : List Int), greater e top = false) ∧
      ∃ ys, Heap.pop (pureOps greater) () [5, 3, 4] = .ok ((), ys) ∧
        (top :: ys).Perm [5, 3, 4] ∧ IsHeap greater ys) ∧
    (∃ top, Heap.top (MemoryManager.new 6).freeMemory_ = .ok top ∧
      top ∈ (MemoryManager.new 6).freeMemory_ ∧
      (∀ e ∈ (MemoryManager.new 6).freeMemory_,
        CompareMemoryPartsBySize (MemoryManager.new 6).nodes e top = false) ∧
      ∃ m' ys, Heap.pop partOps (MemoryManager.new 6).nodes (MemoryManager.new 6).freeMemory_ =
          .ok (m', ys) ∧ (top :: ys).Perm (MemoryManager.new 6).freeMemory_ ∧
        IsHeap (CompareMemoryPartsBySize m') ys ∧ HeapIdx m' ys ∧
        SameRegions (MemoryManager.new 6).nodes m') :=
  ⟨(C16_top_and_pop.1 Int greater [5, 3, 4] greater_strictWeak
      ((maxHeap_iff _).mp maxHeap_example)).2.2 (by decide),
    (C16_top_and_pop.2 _ _ (Inv.new 6).heap.idx (Inv.new 6).heap.order).2.2 (by decide)⟩

/-- Witness of C17: the history with the records of the requests 1 and 3. -/
theorem C17_findOperationById_finds_record_witness :
    ({ MemoryManager.new 6 with operationsHistory_ := [⟨1, 0⟩, ⟨3, 2⟩] } :
        MemoryManager).operationsHistory_.Pairwise (fun a b => a.id < b.id) ∧
      ({ MemoryManager.new 6 with operationsHistory_ := [⟨1, 0⟩, ⟨3, 2⟩] } :
        MemoryManager).findOperationById 3 = some 1 ∧
      ({ MemoryManager.new 6 with operationsHistory_ := [⟨1, 0⟩, ⟨3, 2⟩] } :
        MemoryManager).findOperationById 2 = none :=
  ⟨by decide,
    (C17_findOperationById_finds_record _ 3 (by decide)).1 1 (by decide) (by decide),
    (C17_findOperationById_finds_record _ 2 (by decide)).2.1 (by decide)⟩

/-! ## Heap positions, blocks and coalescing in reachable states -/

set_option maxRecDepth 100000 in
/-- Claim C22, at the failing input: a manager of size 1 that has granted the request
`allocate(1)`, an exact fit, holds an occupied region whose `index` is still `0`, the heap
position the region had while it was free. -/
theorem C22_occupied_region_keeps_heap_index :
    ∃ st out, runRequests 1 [1] = .ok (st, out) ∧ Reachable 1 st ∧ ¬ OccupiedOutOfHeap st := by
  obtain ⟨st, out, h₁, h₂, hn⟩ : ∃ st out, runRequests 1 [1] = .ok (st, out) ∧
      (MemoryManager.new 1).allocate 1 = .ok (st, 1) ∧ ¬ OccupiedOutOfHeap st :=
    ⟨_, _, rfl, rfl, by decide⟩
  exact ⟨st, out, h₁, Reachable.allocate Reachable.new (by decide) h₂, hn⟩

/-- Claim C23: in every reachable state the element at each position `p` of the free
heap points to a region that is in the list, is free and records `p` as its heap
position. -/
theorem C23_heap_elements_record_their_position {T : Int} {st : MemoryManager}
    (hreach : Reachable T st) :
    ∀ p, p < st.freeMemory_.length →
      Heap.elemAt st.freeMemory_ p ∈ st.memoryParts_ ∧
      (st.nodes (Heap.elemAt st.freeMemory_ p)).state = IS_FREE ∧
      (st.nodes (Heap.elemAt st.freeMemory_ p)).index = (p : Int) := by
  intro p hp
  have hinv := (inv_of_reachable hreach).heap
  have hfree := hinv.free _ (elemAt_mem hp)
  exact ⟨hfree.1, hfree.2, hinv.idx.2 p hp⟩

set_option maxRecDepth 100000 in
/-- Witness of C23: a manager of size 6 after the requests `2, 3, -1`. -/
theorem C23_heap_elements_record_their_position_witness :
    ∃ st out, runRequests 6 [2, 3, -1] = .ok (st, out) ∧ st.freeMemory_.length = 2 ∧
      ∀ p, p < st.freeMemory_.length →
        Heap.elemAt st.freeMemory_ p ∈ st.memoryParts_ ∧
        (st.nodes (Heap.elemAt st.freeMemory_ p)).state = IS_FREE ∧
        (st.nodes (Heap.elemAt st.freeMemory_ p)).index = (p : Int) := by
  obtain ⟨s₁, s₂, s₃, out, h₁, h₂, h₃, h₄, h₅⟩ : ∃ s₁ s₂ s₃ out,
      (MemoryManager.new 6).allocate 2 = .ok (s₁, 1) ∧ s₁.allocate 3 = .ok (s₂, 3) ∧
      s₃ = s₂.revoke 1 ∧ runRequests 6 [2, 3, -1] = .ok (s₃, out) ∧
      s₃.freeMemory_.length = 2 := ⟨_, _, _, _, rfl, rfl, rfl, rfl, by decide⟩
  have hreach : Reachable 6 s₃ := h₃ ▸ Reachable.revoke 1
    (Reachable.allocate (Reachable.allocate Reachable.new (by decide) h₁) (by decide) h₂)
  exact ⟨s₃, out, h₄, h₅, C23_heap_elements_record_their_position hreach⟩

set_option maxRecDepth 100000 in
/-- Claim C24 as stated fails: with total size 6, after the requests `6, -1, 6` the
history holds a record under the id 3, the record of the third request, and `revoke(3)`
changes the history, the region list and the free heap. -/
theorem C24_revoke_of_request_three_changes_state :
    ∃ st out, runRequests 6 [6, -1, 6] = .ok (st, out) ∧
      (∃ r ∈ st.operationsHistory_, r.id = 3) ∧
      processRequest st (readInput (-3)) = .ok (st.revoke 3, none) ∧
      (st.revoke 3).operationsHistory_ ≠ st.operationsHistory_ ∧
      (st.revoke 3).regions ≠ st.regions ∧
      (st.revoke 3).freeMemory_ ≠ st.freeMemory_ :=
  ⟨_, _, rfl, by decide, rfl, by decide, by decide, by decide⟩

set_option maxRecDepth 100000 in
/-- Claim C24, amended: with total size 6 and the request stream `6, -1, 6, -3, 6` the
third request is the allocation recorded under the id 3, and the fourth request revokes
it: its record leaves the history, its region of 6 cells at offset 1 becomes free and is
the one element of the heap; the requests return `1, 1, 1`. -/
theorem C24_revoke_of_request_three_frees_memory :
    ∃ st out, runRequests 6 [6, -1, 6] = .ok (st, out) ∧ out = [1, 1] ∧
      st.operationsHistory_.map (·.id) = [3] ∧ st.regions = [⟨6, 1, IS_OCCUPIED⟩] ∧
      st.freeMemory_ = [] ∧
      processRequest st (readInput (-3)) = .ok (st.revoke 3, none) ∧
      (st.revoke 3).operationsHistory_ = [] ∧
      (st.revoke 3).regions = [⟨6, 1, IS_FREE⟩] ∧
      (st.revoke 3).freeMemory_ = (st.revoke 3).memoryParts_ ∧
      ∃ st', runRequests 6 [6, -1, 6, -3, 6] = .ok (st', [1, 1, 1]) :=
  ⟨_, _, rfl, rfl, by decide, by decide, by decide, rfl, by decide, by decide, by decide,
    ⟨_, rfl⟩⟩

/-- Claim C26: in every reachable state no two regions that are neighbours in the region
list are both free. -/
theorem C26_free_regions_are_coalesced {T : Int} {st : MemoryManager}
    (hreach : Reachable T st) : NoAdjacentFree st.regions :=
  noAdjacentFree_of_reachable hreach

set_option maxRecDepth 100000 in
/-- Witness of C26: a manager of size 6 after the requests `2, 3, -1`. -/
theorem C26_free_regions_are_coalesced_witness :
    ∃ st out, runRequests 6 [2, 3, -1] = .ok (st, out) ∧
      st.regions = [⟨2, 1, IS_FREE⟩, ⟨3, 3, IS_OCCUPIED⟩, ⟨1, 6, IS_FREE⟩] ∧
      NoAdjacentFree st.regions := by
  obtain ⟨s₁, s₂, s₃, out, h₁, h₂, h₃, h₄, h₅⟩ : ∃ s₁ s₂ s₃ out,
      (MemoryManager.new 6).allocate 2 = .ok (s₁, 1) ∧ s₁.allocate 3 = .ok (s₂, 3) ∧
      s₃ = s₂.revoke 1 ∧ runRequests 6 [2, 3, -1] = .ok (s₃, out) ∧
      s₃.regions = [⟨2, 1, IS_FREE⟩, ⟨3, 3, IS_OCCUPIED⟩, ⟨1, 6, IS_FREE⟩] :=
    ⟨_, _, _, _, rfl, rfl, rfl, rfl, by decide⟩
  have hreach : Reachable 6 s₃ := h₃ ▸ Reachable.revoke 1
    (Reachable.allocate (Reachable.allocate Reachable.new (by decide) h₁) (by decide) h₂)
  exact ⟨s₃, out, h₄, h₅, C26_free_regions_are_coalesced hreach⟩

/-- Every region of the list lies inside `[1, totalSize]`. -/
theorem block_inside {T : Int} {m : Nodes} {parts : List Nat} {fresh : Nat}
    (h : ListOk T m parts fresh) {x : Nat} (hx : x ∈ parts) :
    1 ≤ (m x).offset ∧ (m x).offset + (m x).size ≤ T + 1 := by
  refine ⟨offset_pos_of_listOk h hx, ?_⟩
  obtain ⟨pre, post, hsplit, _, _⟩ := split_of_mem_nodup h.nodup hx
  have hc := h.chain
  rw [hsplit, chainFrom_append] at hc
  obtain ⟨mid, _, hc2, hc3⟩ := hc
  have hsz : ∀ a ∈ post, 1 ≤ (m a).size := by
    intro a ha
    rcases h.sizes with h1 | h2
    · rw [hsplit] at h1
      simp only [List.length_append, List.length_cons] at h1
      have hq : post = [] := List.length_eq_zero.mp (by omega)
      subst hq
      simp at ha
    · exact h2 a (by rw [hsplit]; exact List.mem_append_right _ (List.mem_cons_of_mem _ ha))
  have h2 := chainFrom_le _ _ _ hsz hc3
  have : (0 : Int) ≤ post.length := Int.natCast_nonneg _
  omega

/-- A region that comes later in the list starts where an earlier one ends, or after. -/
theorem block_before {T : Int} {m : Nodes} {fresh : Nat} {l₁ l₂ l₃ : List Nat} {x y : Nat}
    (h : ListOk T m (l₁ ++ x :: (l₂ ++ y :: l₃)) fresh) :
    (m x).offset + (m x).size ≤ (m y).offset := by
  have hsz := h.sizes_of_two (by
    simp only [List.length_append, List.length_cons]; omega)
  have hc := h.chain
  rw [chainFrom_append] at hc
  obtain ⟨mid, _, hc2, hc3⟩ := hc
  rw [chainFrom_append] at hc3
  obtain ⟨mid', hc4, hc5, _⟩ := hc3
  have h2 := chainFrom_le _ _ _ (fun a ha => hsz a (by simp [ha])) hc4
  have : (0 : Int) ≤ l₂.length := Int.natCast_nonneg _
  omega

/-- Two different regions of the list do not overlap. -/
theorem blocks_disjoint {T : Int} {m : Nodes} {parts : List Nat} {fresh : Nat}
    (h : ListOk T m parts fresh) {x y : Nat} (hx : x ∈ parts) (hy : y ∈ parts) (hxy : x ≠ y) :
    (m x).offset + (m x).size ≤ (m y).offset ∨ (m y).offset + (m y).size ≤ (m x).offset := by
  obtain ⟨pre, post, hsplit, _, _⟩ := split_of_mem_nodup h.nodup hx
  rw [hsplit] at hy
  rcases List.mem_append.mp hy with hy | hy
  · obtain ⟨p₁, p₂, rfl⟩ := List.append_of_mem hy
    right
    rw [hsplit, List.append_assoc, List.cons_append] at h
    exact block_before h
  · rcases List.mem_cons.mp hy with rfl | hy
    · exact absurd rfl hxy
    · obtain ⟨p₁, p₂, rfl⟩ := List.append_of_mem hy
      left
      rw [hsplit] at h
      exact block_before h

/-- Claim C25: in every reachable state the blocks of the outstanding allocations, the
regions of the records of the history, lie inside `[1, totalSize]` and are pairwise
disjoint; and a successful `allocate(s)`, `s >= 1`, returns an offset `o` with `1 <= o`
and `o + s - 1 <= totalSize` whose block `[o, o + s - 1]`, the region of the new record,
overlaps the block of no record of the history. -/
theorem C25_outstanding_blocks_are_disjoint {T : Int} {st : MemoryManager}
    (hreach : Reachable T st) :
    (∀ r ∈ st.operationsHistory_,
      1 ≤ (st.nodes r.part).offset ∧
        (st.nodes r.part).offset + (st.nodes r.part).size - 1 ≤ T) ∧
    (∀ r ∈ st.operationsHistory_, ∀ r' ∈ st.operationsHistory_, r ≠ r' →
      (st.nodes r.part).offset + (st.nodes r.part).size - 1 < (st.nodes r'.part).offset ∨
        (st.nodes r'.part).offset + (st.nodes r'.part).size - 1 < (st.nodes r.part).offset) ∧
    ∀ (s o : Int) (st' : MemoryManager), 1 ≤ s → st.allocate s = .ok (st', o) →
      o ≠ FAIL_CODE →
      1 ≤ o ∧ o + s - 1 ≤ T ∧
        (∃ h, st'.operationsHistory_ =
            st.operationsHistory_ ++ [⟨st.requestsCount + 1, h⟩] ∧
          (st'.nodes h).region = ⟨s, o, IS_OCCUPIED⟩) ∧
        ∀ r ∈ st.operationsHistory_,
          o + s - 1 < (st.nodes r.part).offset ∨
            (st.nodes r.part).offset + (st.nodes r.part).size - 1 < o := by
  have hinv := inv_of_reachable hreach
  refine ⟨fun r hr => ?_, fun r hr r' hr' hne => ?_, fun s o st' hs ha ho => ?_⟩
  · have := block_inside hinv.list (hinv.hist.occupied r hr).1
    omega
  · have hparts : r.part ≠ r'.part := by
      intro he
      exact hne (List.inj_on_of_nodup_map hinv.hist.nodup hr hr' he)
    have := blocks_disjoint hinv.list (hinv.hist.occupied r hr).1
      (hinv.hist.occupied r' hr').1 hparts
    omega
  · rcases allocate_fail_or_top hreach ha with ⟨_, hfail⟩ |
      ⟨M, rest, occupied, pre, post, hh, hsM, rfl, hfree, e2, e3, e4, e5, e6, e7⟩
    · exact absurd hfail ho
    have hM : M ∈ st.memoryParts_ := (hinv.heap.free M (by rw [hh]; simp)).1
    have hin := block_inside hinv.list hM
    refine ⟨hin.1, by omega, ⟨occupied, e2, e6⟩, fun r hr => ?_⟩
    have hocc := hinv.hist.occupied r hr
    have hne : r.part ≠ M := by
      intro he
      rw [he, hfree] at hocc
      exact absurd hocc.2 (by decide)
    have := blocks_disjoint hinv.list hocc.1 hM hne
    omega

set_option maxRecDepth 100000 in
/-- Witness of C25: a manager of size 6 that has granted 2 cells. -/
theorem C25_outstanding_blocks_are_disjoint_witness :
    ∃ st : MemoryManager, Reachable 6 st ∧ st.operationsHistory_.length = 1 ∧
      (∀ r ∈ st.operationsHistory_,
        1 ≤ (st.nodes r.part).offset ∧
          (st.nodes r.part).offset + (st.nodes r.part).size - 1 ≤ 6) ∧
      ∃ st', st.allocate 3 = .ok (st', 3) ∧ (3 : Int) + 3 - 1 ≤ 6 ∧
        ∀ r ∈ st.operationsHistory_,
          (3 : Int) + 3 - 1 < (st.nodes r.part).offset ∨
            (st.nodes r.part).offset + (st.nodes r.part).size - 1 < 3 := by
  obtain ⟨st, st', h₁, h₂, h₃⟩ : ∃ st st', (MemoryManager.new 6).allocate 2 = .ok (st, 1) ∧
      st.allocate 3 = .ok (st', 3) ∧ st.operationsHistory_.length = 1 :=
    ⟨_, _, rfl, rfl, by decide⟩
  have hreach : Reachable 6 st := Reachable.allocate Reachable.new (by decide) h₁
  obtain ⟨c₁, _, c₃⟩ := C25_outstanding_blocks_are_disjoint hreach
  obtain ⟨_, d₂, _, d₄⟩ := c₃ 3 3 st' (by decide) h₂ (by decide)
  exact ⟨st, hreach, h₃, c₁, st', h₂, d₂, d₄⟩

end MemoryManagerModel

namespace FootballTeamModel

/-! # Theorems about the football team -/

/-! ## Sorting -/

section Sorting

variable {α : Type}

/-- The loop of `Merge` ends within its bound, with the elements of both parts, in order
when both parts are. -/
theorem MergeLoop_spec {cmp : α → α → Bool} (hc : MemoryManagerModel.StrictWeak cmp) :
    ∀ (fuel : Nat) (first second : List α), first.length + second.length < fuel →
      ∃ ys, MergeLoop cmp fuel first second = some ys ∧ ys.Perm (first ++ second) ∧
        (InOrder cmp first → InOrder cmp second → InOrder cmp ys)
  | 0, _, _, h => absurd h (Nat.not_lt_zero _)
  | _ + 1, [], second, _ => ⟨second, rfl, List.Perm.refl _, fun _ h => h⟩
  | _ + 1, x :: first, [], _ =>
    ⟨x :: first, rfl, by simp, fun h _ => h⟩
  | fuel + 1, x :: first, y :: second, h => by
    simp only [MergeLoop]
    by_cases hyx : cmp y x = true
    · rw [if_pos hyx]
      obtain ⟨ys, e, hp, ho⟩ := MergeLoop_spec hc fuel (x :: first) second (by
        simp only [List.length_cons] at h ⊢; omega)
      refine ⟨y :: ys, by rw [e]; rfl, ?_, ?_⟩
      · refine (List.Perm.cons y hp).trans ?_
        exact (@List.perm_middle _ y (x :: first) second).symm
      · intro h1 h2
        have h2' := List.pairwise_cons.mp h2
        refine List.pairwise_cons.mpr ⟨?_, ho h1 h2'.2⟩
        intro z hz
        have hz' := hp.mem_iff.mp hz
        have h1' := List.pairwise_cons.mp h1
        have hxy : cmp x y = false := hc.asymm _ _ hyx
        rcases List.mem_append.mp hz' with hz1 | hz2
        · rcases List.mem_cons.mp hz1 with rfl | hz1
          · exact hxy
          · exact hc.negtrans _ _ _ (h1'.1 z hz1) hxy
        · exact h2'.1 z hz2
    · rw [if_neg hyx]
      have hyx' : cmp y x = false := by simpa using hyx
      obtain ⟨ys, e, hp, ho⟩ := MergeLoop_spec hc fuel first (y :: second) (by
        simp only [List.length_cons] at h ⊢; omega)
      refine ⟨x :: ys, by rw [e]; rfl, List.Perm.cons x hp, ?_⟩
      intro h1 h2
      have h1' := List.pairwise_cons.mp h1
      refine List.pairwise_cons.mpr ⟨?_, ho h1'.2 h2⟩
      intro z hz
      have hz' := hp.mem_iff.mp hz
      have h2' := List.pairwise_cons.mp h2
      rcases List.mem_append.mp hz' with hz1 | hz2
      · exact h1'.1 z hz1
      · rcases List.mem_cons.mp hz2 with rfl | hz2
        · exact hyx'
        · exact hc.negtrans _ _ _ (h2'.1 z hz2) hyx'

/-- Function `Merge` returns the elements of both parts, in order when both parts are. -/
theorem Merge_spec {cmp : α → α → Bool} (hc : MemoryManagerModel.StrictWeak cmp) (first second : List α) :
    ∃ ys, Merge cmp first second = some ys ∧ ys.Perm (first ++ second) ∧
      (InOrder cmp first → InOrder cmp second → InOrder cmp ys) :=
  MergeLoop_spec hc _ first second (Nat.lt_succ_self _)

/-- The recursion of `Sort` ends within its bound, with the elements in order. -/
theorem sortLoop_spec {cmp : α → α → Bool} (hc : MemoryManagerModel.StrictWeak cmp) :
    ∀ (depth : Nat) (xs : List α), xs.length < depth →
      ∃ ys, sortLoop cmp depth xs = some ys ∧ ys.Perm xs ∧ InOrder cmp ys
  | 0, _, h => absurd h (Nat.not_lt_zero _)
  | depth + 1, xs, h => by
    simp only [sortLoop]
    by_cases hlen : xs.length < 2
    · rw [if_pos hlen]
      refine ⟨xs, rfl, List.Perm.refl _, ?_⟩
      match xs, hlen with
      | [], _ => exact List.Pairwise.nil
      | [x], _ => exact List.pairwise_singleton _ _
      | _ :: _ :: _, hlen => simp only [List.length_cons] at hlen; omega
    · rw [if_neg hlen]
      obtain ⟨a, ea, hpa, hoa⟩ := sortLoop_spec hc depth (xs.take (xs.length / 2)) (by
        rw [List.length_take]; omega)
      obtain ⟨b, eb, hpb, hob⟩ := sortLoop_spec hc depth (xs.drop (xs.length / 2)) (by
        rw [List.length_drop]; omega)
      obtain ⟨ys, e, hp, ho⟩ := Merge_spec hc a b
      refine ⟨ys, by rw [ea, eb]; exact e, ?_, ho hoa hob⟩
      refine hp.trans ((hpa.append hpb).trans ?_)
      rw [List.take_append_drop]

/-- Function `Sort` returns a permutation of its input that is in order. -/
theorem sort_spec {cmp : α → α → Bool} (hc : MemoryManagerModel.StrictWeak cmp) (xs : List α) :
    ∃ ys, sort cmp xs = some ys ∧ ys.Perm xs ∧ InOrder cmp ys :=
  sortLoop_spec hc _ xs (Nat.lt_succ_self _)

/-- Under a strict total order a list has one permutation that is in order. -/
theorem inOrder_unique {cmp : α → α → Bool} (hc : TotalOrder cmp) {l₁ l₂ : List α}
    (hp : l₁.Perm l₂) (h₁ : InOrder cmp l₁) (h₂ : InOrder cmp l₂) : l₁ = l₂ := by
  haveI : IsAntisymm α (fun a b => cmp b a = false) := ⟨fun a b hab hba => hc.2 a b hba hab⟩
  exact List.eq_of_perm_of_sorted hp h₁ h₂

theorem less_totalOrder : TotalOrder less := by
  refine ⟨⟨?_, ?_⟩, ?_⟩
  · intro a b h
    simp only [less, decide_eq_true_eq, decide_eq_false_iff_not] at h ⊢
    omega
  · intro a b d h₁ h₂
    simp only [less, decide_eq_false_iff_not] at h₁ h₂ ⊢
    omega
  · intro a b h₁ h₂
    simp only [less, decide_eq_false_iff_not] at h₁ h₂
    omega

theorem compareByEfficiency_iff (p q : Player) :
    CompareByEfficiency p q = true ↔
      p.efficiency < q.efficiency ∨ (p.efficiency = q.efficiency ∧ p.id < q.id) := by
  unfold CompareByEfficiency
  by_cases h : p.efficiency = q.efficiency
  · simp [h]
  · simp only [ne_eq, h, not_false_eq_true, if_true, decide_eq_true_eq, false_and, or_false]

theorem compareById_iff (p q : Player) :
    CompareById p q = true ↔
      p.id < q.id ∨ (p.id = q.id ∧ p.efficiency < q.efficiency) := by
  unfold CompareById
  by_cases h : p.id = q.id
  · simp [h]
  · simp only [ne_eq, h, not_false_eq_true, if_true, decide_eq_true_eq, false_and, or_false]

theorem compareByEfficiency_totalOrder : TotalOrder CompareByEfficiency := by
  refine ⟨⟨?_, ?_⟩, ?_⟩
  · intro a b h
    rw [← Bool.not_eq_true, compareByEfficiency_iff]
    rw [compareByEfficiency_iff] at h
    omega
  · intro a b d h₁ h₂
    rw [← Bool.not_eq_true, compareByEfficiency_iff] at h₁ h₂ ⊢
    omega
  · intro a b h₁ h₂
    rw [← Bool.not_eq_true, compareByEfficiency_iff] at h₁ h₂
    cases a; cases b
    simp only [Player.mk.injEq] at h₁ h₂ ⊢
    omega

theorem compareById_totalOrder : TotalOrder CompareById := by
  refine ⟨⟨?_, ?_⟩, ?_⟩
  · intro a b h
    rw [← Bool.not_eq_true, compareById_iff]
    rw [compareById_iff] at h
    omega
  · intro a b d h₁ h₂
    rw [← Bool.not_eq_true, compareById_iff] at h₁ h₂ ⊢
    omega
  · intro a b h₁ h₂
    rw [← Bool.not_eq_true, compareById_iff] at h₁ h₂
    cases a; cases b
    simp only [Player.mk.injEq] at h₁ h₂ ⊢
    omega

end Sorting

/-- Claim C19: for every strict weak ordering `cmp` and every sequence `xs`, `Sort`
returns a permutation of `xs` in which no element compares before an earlier one; when
`cmp` is a strict total order, as `less<int>`, `CompareByEfficiency` and `CompareById`
are, every permutation of `xs` in that order, the result of `std::sort` among them, is
the sequence `Sort` returns. -/
theorem C19_sort_returns_sorted_permutation :
    (∀ (α : Type) (cmp : α → α → Bool) (xs : List α), MemoryManagerModel.StrictWeak cmp →
      ∃ ys, sort cmp xs = some ys ∧ ys.Perm xs ∧ InOrder cmp ys ∧
        (TotalOrder cmp → ∀ zs : List α, zs.Perm xs → InOrder cmp zs → zs = ys)) ∧
    TotalOrder less ∧ TotalOrder CompareByEfficiency ∧ TotalOrder CompareById := by
  refine ⟨fun α cmp xs hc => ?_, less_totalOrder, compareByEfficiency_totalOrder,
    compareById_totalOrder⟩
  obtain ⟨ys, e, hp, ho⟩ := sort_spec hc xs
  exact ⟨ys, e, hp, ho, fun ht zs hz hzo => inOrder_unique ht (hz.trans hp.symm) hzo ho⟩

/-- Witness of C19: `Sort` with `less<>` on `3, 2, 1, 3, 2`. -/
theorem C19_sort_returns_sorted_permutation_witness :
    ∃ ys, sort less [3, 2, 1, 3, 2] = some ys ∧ ys.Perm [3, 2, 1, 3, 2] ∧ InOrder less ys ∧
      ∀ zs : List Int, zs.Perm [3, 2, 1, 3, 2] → InOrder less zs → zs = ys := by
  obtain ⟨ys, e, hp, ho, hu⟩ :=
    C19_sort_returns_sorted_permutation.1 Int less [3, 2, 1, 3, 2] less_totalOrder.1
  exact ⟨ys, e, hp, ho, hu less_totalOrder⟩

/-! ## Sums of efficiencies over a sorted vector -/

theorem prefixEfficiency_succ (a : List Player) (k : Nat) :
    prefixEfficiency a (k + 1) = prefixEfficiency a k + efficiencyAt a k := by
  simp only [prefixEfficiency, totalEfficiency, efficiencyAt, List.take_succ, List.map_append,
    List.sum_append, List.getD_eq_getElem?_getD]
  cases a[k]? with
  | none => simp; rfl
  | some p => simp

theorem efficiencyAt_nonneg {a : List Player} (h : ∀ p ∈ a, 0 ≤ p.efficiency) (i : Nat) :
    0 ≤ efficiencyAt a i := by
  simp only [efficiencyAt, List.getD_eq_getElem?_getD]
  cases hi : a[i]? with
  | none => simp; exact le_refl _
  | some p =>
    obtain ⟨hlt, rfl⟩ := List.getElem?_eq_some_iff.mp hi
    exact h _ (List.getElem_mem hlt)

theorem prefixEfficiency_mono {a : List Player} (h : ∀ p ∈ a, 0 ≤ p.efficiency) {f k : Nat}
    (hfk : f ≤ k) : prefixEfficiency a f ≤ prefixEfficiency a k := by
  induction k with
  | zero =>
    have : f = 0 := by omega
    subst this; exact le_refl _
  | succ k ih =>
    rcases Nat.eq_or_lt_of_le hfk with rfl | hlt
    · exact le_refl _
    · have := ih (by omega)
      have := efficiencyAt_nonneg h k
      rw [prefixEfficiency_succ]
      omega

theorem efficiencyAt_mono {a : List Player}
    (hs : a.Pairwise (fun p q => p.efficiency ≤ q.efficiency)) {i j : Nat} (hij : i ≤ j)
    (hj : j < a.length) : efficiencyAt a i ≤ efficiencyAt a j := by
  rcases Nat.eq_or_lt_of_le hij with rfl | hlt
  · exact le_refl _
  · have hi : i < a.length := by omega
    simp only [efficiencyAt, List.getD_eq_getElem _ _ hi, List.getD_eq_getElem _ _ hj]
    exact List.pairwise_iff_getElem.mp hs i j hi hj hlt

/-- A subsequence of the vector is read off at strictly increasing positions. -/
theorem sublist_indices {S a : List Player} (h : S.Sublist a) :
    ∃ is : List Nat, is.Pairwise (· < ·) ∧ (∀ i ∈ is, i < a.length) ∧
      S = is.map (fun i => a.getD i default) := by
  induction h with
  | slnil => exact ⟨[], List.Pairwise.nil, by simp, rfl⟩
  | @cons S a x _ ih =>
    obtain ⟨is, h1, h2, h3⟩ := ih
    refine ⟨is.map (· + 1), ?_, ?_, ?_⟩
    · exact (List.pairwise_map).mpr (h1.imp (fun h => by omega))
    · intro i hi
      obtain ⟨k, hk, rfl⟩ := List.mem_map.mp hi
      have := h2 k hk
      simp only [List.length_cons]; omega
    · rw [h3, List.map_map]
      refine List.map_congr_left (fun k _ => ?_)
      simp [List.getD_eq_getElem?_getD]
  | @cons₂ S a x _ ih =>
    obtain ⟨is, h1, h2, h3⟩ := ih
    refine ⟨0 :: is.map (· + 1), ?_, ?_, ?_⟩
    · refine List.pairwise_cons.mpr ⟨?_, (List.pairwise_map).mpr (h1.imp (fun h => by omega))⟩
      intro i hi
      obtain ⟨k, _, rfl⟩ := List.mem_map.mp hi
      omega
    · intro i hi
      rcases List.mem_cons.mp hi with rfl | hi
      · simp
      · obtain ⟨k, hk, rfl⟩ := List.mem_map.mp hi
        have := h2 k hk
        simp only [List.length_cons]; omega
    · rw [List.map_cons, List.map_map, h3]
      congr 1

/-- Players at strictly increasing positions between `lo` and `hi` have at most the
efficiency of all the players at the positions from `lo` to `hi`. -/
theorem sum_indices_le {a : List Player} (h : ∀ p ∈ a, 0 ≤ p.efficiency) (hi : Nat) :
    ∀ (is : List Nat) (lo : Nat), is.Pairwise (· < ·) → (∀ i ∈ is, lo ≤ i ∧ i ≤ hi) →
      lo ≤ hi + 1 →
      (is.map (efficiencyAt a)).sum ≤ prefixEfficiency a (hi + 1) - prefixEfficiency a lo
  | [], lo, _, _, hlo => by
    have := prefixEfficiency_mono h hlo
    simp only [List.map_nil, List.sum_nil]
    omega
  | i :: is, lo, hp, hb, _ => by
    have hp' := List.pairwise_cons.mp hp
    have hbi := hb i (by simp)
    have ih := sum_indices_le h hi is (i + 1) hp'.2 (fun k hk =>
      ⟨hp'.1 k hk, (hb k (List.mem_cons_of_mem _ hk)).2⟩) (by omega)
    have h1 := prefixEfficiency_succ a i
    have h2 := prefixEfficiency_mono h hbi.1
    simp only [List.map_cons, List.sum_cons]
    omega

theorem le_getLast_of_increasing : ∀ (l : List Nat) (hne : l ≠ []), l.Pairwise (· < ·) →
    ∀ x ∈ l, x ≤ l.getLast hne
  | [x], _, _, y, hy => by
    simp only [List.mem_singleton] at hy
    simp [hy]
  | x :: y :: l, _, hp, z, hz => by
    have hp' := List.pairwise_cons.mp hp
    rw [List.getLast_cons (List.cons_ne_nil y l)]
    rcases List.mem_cons.mp hz with rfl | hz
    · have h1 := hp'.1 _ (List.getLast_mem (List.cons_ne_nil y l))
      omega
    · exact le_getLast_of_increasing (y :: l) _ hp'.2 z hz

/-! ## The best interval -/

theorem getElem?_eq_getD {a : List Player} {i : Nat} (h : i < a.length) :
    a[i]? = some (a.getD i default) := by
  rw [List.getD_eq_getElem _ _ h, List.getElem?_eq_getElem h]

/-- A balanced subsequence of the sorted vector has at most the efficiency of an interval
that the loop has compared with `best`. -/
theorem balanced_sum_le {a : List Player} (hnn : ∀ p ∈ a, 0 ≤ p.efficiency)
    (hs : a.Pairwise (fun p q => p.efficiency ≤ q.efficiency)) {best : Int}
    (h0 : efficiencyAt a 0 ≤ best)
    (hw : ∀ R, 1 ≤ R → R < a.length → ∃ f, f < R ∧
      (∀ l, l < f → efficiencyAt a l + efficiencyAt a (l + 1) < efficiencyAt a R) ∧
      prefixEfficiency a (R + 1) - prefixEfficiency a f ≤ best)
    {S : List Player} (hS : S.Sublist a) (hb : Balanced S) : totalEfficiency S ≤ best := by
  obtain ⟨is, hinc, hlt, rfl⟩ := sublist_indices hS
  have hsum : totalEfficiency (is.map (fun i => a.getD i default)) =
      (is.map (efficiencyAt a)).sum := by
    simp only [totalEfficiency, List.map_map]; rfl
  rw [hsum]
  match is, hinc, hlt, hb with
  | [], _, _, _ =>
    have := efficiencyAt_nonneg hnn 0
    simp only [List.map_nil, List.sum_nil]
    omega
  | [i], _, hlt, _ =>
    simp only [List.map_cons, List.map_nil, List.sum_cons, List.sum_nil, add_zero]
    rcases Nat.eq_zero_or_pos i with rfl | hi
    · exact h0
    · obtain ⟨f, hf, _, hbest⟩ := hw i hi (hlt i (by simp))
      have h1 := prefixEfficiency_succ a i
      have h2 := prefixEfficiency_mono hnn (le_of_lt hf)
      omega
  | i :: j :: rest, hinc, hlt, hb =>
    have hinc' := List.pairwise_cons.mp hinc
    have hij : i < j := hinc'.1 j (by simp)
    have hne : j :: rest ≠ [] := List.cons_ne_nil _ _
    have hRmem : (j :: rest).getLast hne ∈ j :: rest := List.getLast_mem hne
    have hall : ∀ k ∈ j :: rest, k ≤ (j :: rest).getLast hne :=
      le_getLast_of_increasing _ hne hinc'.2
    have hRlt : (j :: rest).getLast hne < a.length := hlt _ (List.mem_cons_of_mem _ hRmem)
    obtain ⟨f, hf, hbefore, hbest⟩ := hw ((j :: rest).getLast hne)
      (by have := hall j (by simp); omega) hRlt
    generalize (j :: rest).getLast hne = R at hRmem hall hRlt hf hbefore hbest
    have hjR : j ≤ R := hall j (by simp)
    have hjlt : j < a.length := hlt j (by simp)
    have hkey : efficiencyAt a R ≤ efficiencyAt a (j - 1) + efficiencyAt a j := by
      rcases List.mem_cons.mp hRmem with rfl | hRrest
      · have := efficiencyAt_nonneg hnn (R - 1)
        omega
      · have hsl : [a.getD i default, a.getD j default, a.getD R default].Sublist
            ((i :: j :: rest).map (fun i => a.getD i default)) := by
          simp only [List.map_cons]
          refine List.Sublist.cons₂ _ (List.Sublist.cons₂ _ ?_)
          exact List.singleton_sublist.mpr (List.mem_map_of_mem _ hRrest)
        have hpm : [a.getD R default, a.getD i default, a.getD j default].Perm
            [a.getD i default, a.getD j default, a.getD R default] :=
          @List.perm_append_comm _ [a.getD R default] [a.getD i default, a.getD j default]
        have hsub := hpm.subperm.trans hsl.subperm
        have h1 := hb _ _ _ hsub
        have h2 := efficiencyAt_mono hs (show i ≤ j - 1 by omega) (by omega)
        simp only [efficiencyAt] at h1 h2 ⊢
        omega
    have hfj : f ≤ j - 1 := by
      by_contra hcon
      have := hbefore (j - 1) (by omega)
      rw [show j - 1 + 1 = j by omega] at this
      omega
    have h1 := sum_indices_le hnn R (j :: rest) j hinc'.2 (fun k hk => ⟨by
      rcases List.mem_cons.mp hk with rfl | hk'
      · exact le_refl _
      · exact le_of_lt ((List.pairwise_cons.mp hinc'.2).1 k hk'), hall k hk⟩) (by omega)
    have h2 := prefixEfficiency_succ a (j - 1)
    rw [show j - 1 + 1 = j by omega] at h2
    have h3 := prefixEfficiency_mono hnn hfj
    have h4 := efficiencyAt_mono hs (show i ≤ j - 1 by omega) (by omega)
    rw [List.map_cons, List.sum_cons]
    omega

theorem prefixEfficiency_zero (a : List Player) : prefixEfficiency a 0 = 0 := by
  simp [prefixEfficiency, totalEfficiency]

theorem prefixEfficiency_le_total {a : List Player} (h : ∀ p ∈ a, 0 ≤ p.efficiency)
    (k : Nat) : prefixEfficiency a k ≤ totalEfficiency a := by
  have h1 := prefixEfficiency_mono h (Nat.le_add_right k a.length)
  have h2 : prefixEfficiency a (k + a.length) = totalEfficiency a := by
    simp only [prefixEfficiency, List.take_of_length_le (Nat.le_add_left a.length k)]
  omega

/-- The efficiency of an interval of the vector is a `long long` when the efficiency of
the whole vector is. -/
theorem window_longLong {a : List Player} (hnn : ∀ p ∈ a, 0 ≤ p.efficiency)
    (htot : totalEfficiency a < 2 ^ 63) {f k : Nat} (hfk : f ≤ k) :
    longLong (prefixEfficiency a k - prefixEfficiency a f) =
      some (prefixEfficiency a k - prefixEfficiency a f) := by
  have h1 := prefixEfficiency_mono hnn hfk
  have h2 := prefixEfficiency_le_total hnn k
  have h3 := prefixEfficiency_mono hnn (Nat.zero_le f)
  rw [prefixEfficiency_zero] at h3
  unfold longLong
  rw [if_pos ⟨by omega, by omega⟩]

/-- The inner loop of `buildMaxEfficiencyTeam` ends within its bound and without an
overflow: it moves `first_` to the first position from which the interval up to `last_`
is balanced. -/
theorem shiftFirstLoop_spec {a : List Player} (hnn : ∀ p ∈ a, 0 ≤ p.efficiency)
    (htot : totalEfficiency a < 2 ^ 63) :
    ∀ (fuel : Nat) (cur : TeamInterval), cur.last_ < a.length → cur.first_ < cur.last_ →
      cur.last_ - cur.first_ ≤ fuel →
      cur.efficiency_ = prefixEfficiency a (cur.last_ + 1) - prefixEfficiency a cur.first_ →
      (∀ l, l < cur.first_ →
        efficiencyAt a l + efficiencyAt a (l + 1) < efficiencyAt a cur.last_) →
      ∃ cur', shiftFirstLoop a fuel cur = some cur' ∧ cur'.last_ = cur.last_ ∧
        cur'.first_ < cur'.last_ ∧
        cur'.efficiency_ =
          prefixEfficiency a (cur'.last_ + 1) - prefixEfficiency a cur'.first_ ∧
        (∀ l, l < cur'.first_ →
          efficiencyAt a l + efficiencyAt a (l + 1) < efficiencyAt a cur'.last_) ∧
        efficiencyAt a cur'.last_ ≤
          efficiencyAt a cur'.first_ + efficiencyAt a (cur'.first_ + 1)
  | 0, cur, _, hfl, hfuel, _, _ => by omega
  | fuel + 1, cur, hl, hfl, hfuel, heff, hbefore => by
    have e1 := getElem?_eq_getD (show cur.first_ < a.length by omega)
    have e2 := getElem?_eq_getD (show cur.first_ + 1 < a.length by omega)
    have e3 := getElem?_eq_getD hl
    have p1 := prefixEfficiency_succ a cur.first_
    have p2 : prefixEfficiency a (cur.first_ + 2) =
        prefixEfficiency a (cur.first_ + 1) + efficiencyAt a (cur.first_ + 1) :=
      prefixEfficiency_succ a (cur.first_ + 1)
    have hsum : (a.getD cur.first_ default).efficiency +
        (a.getD (cur.first_ + 1) default).efficiency =
        prefixEfficiency a (cur.first_ + 2) - prefixEfficiency a cur.first_ := by
      simp only [efficiencyAt] at p1 p2
      omega
    have hsum' : prefixEfficiency a (cur.first_ + 2) - prefixEfficiency a cur.first_ =
        efficiencyAt a cur.first_ + efficiencyAt a (cur.first_ + 1) := by
      rw [← hsum]; rfl
    simp only [shiftFirstLoop, e1, e2, e3, hsum,
      window_longLong hnn htot (Nat.le_add_right cur.first_ 2)]
    rw [hsum']
    by_cases hc : efficiencyAt a cur.first_ + efficiencyAt a (cur.first_ + 1) <
        efficiencyAt a cur.last_
    · have hc' : efficiencyAt a cur.first_ + efficiencyAt a (cur.first_ + 1) <
            (a.getD cur.last_ default).efficiency := hc
      rw [if_pos hc']
      have hlt : cur.first_ + 1 < cur.last_ := by
        by_contra hcon
        have h1 : cur.first_ + 1 = cur.last_ := by omega
        have := efficiencyAt_nonneg hnn cur.first_
        rw [h1] at hc
        omega
      have hshift : cur.efficiency_ - (a.getD cur.first_ default).efficiency =
          prefixEfficiency a (cur.last_ + 1) - prefixEfficiency a (cur.first_ + 1) := by
        simp only [efficiencyAt] at p1
        omega
      simp only [TeamInterval.shift_first, e1, hshift,
        window_longLong hnn htot (show cur.first_ + 1 ≤ cur.last_ + 1 by omega),
        Option.map_some']
      obtain ⟨cur', h1, h2, h3, h4, h5, h6⟩ := shiftFirstLoop_spec hnn htot fuel
        { cur with efficiency_ :=
                     prefixEfficiency a (cur.last_ + 1) - prefixEfficiency a (cur.first_ + 1),
                   first_ := cur.first_ + 1 } hl hlt (by simp only; omega) rfl
        (by
          intro l hl'
          simp only at hl' ⊢
          rcases Nat.eq_or_lt_of_le (Nat.le_of_lt_succ hl') with rfl | hl''
          · exact hc
          · exact hbefore l hl'')
      exact ⟨cur', h1, h2, h3, h4, h5, h6⟩
    · have hc' : ¬ (efficiencyAt a cur.first_ + efficiencyAt a (cur.first_ + 1) <
            (a.getD cur.last_ default).efficiency) := hc
      rw [if_neg hc']
      exact ⟨cur, rfl, rfl, hfl, heff, hbefore, not_lt.mp hc⟩

/-- The outer loop of `buildMaxEfficiencyTeam` ends within its bound and without an
overflow, with the best interval for the whole vector. -/
theorem buildLoop_spec {a : List Player} (hnn : ∀ p ∈ a, 0 ≤ p.efficiency)
    (htot : totalEfficiency a < 2 ^ 63)
    (hs : a.Pairwise (fun p q => p.efficiency ≤ q.efficiency)) :
    ∀ (fuel : Nat) (cur best : TeamInterval), LoopInv a cur best →
      a.length - cur.last_ ≤ fuel →
      ∃ best', buildLoop a fuel cur best = some best' ∧ BestOk a (a.length - 1) best'
  | 0, cur, best, hinv, hfuel => by
    have := hinv.last_lt
    omega
  | fuel + 1, cur, best, hinv, hfuel => by
    simp only [buildLoop]
    by_cases hend : cur.last_ = a.length - 1
    · rw [if_pos hend]
      exact ⟨best, rfl, hend ▸ hinv.best⟩
    · rw [if_neg hend]
      have hl := hinv.last_lt
      have hl1 : cur.last_ + 1 < a.length := by omega
      have e1 := getElem?_eq_getD hl1
      have hfl := hinv.first_le
      have hext : cur.efficiency_ + (a.getD (cur.last_ + 1) default).efficiency =
          prefixEfficiency a (cur.last_ + 1 + 1) - prefixEfficiency a cur.first_ := by
        have h1 := prefixEfficiency_succ a (cur.last_ + 1)
        have h2 := hinv.efficiency
        simp only [efficiencyAt] at h1
        omega
      simp only [TeamInterval.shift_last, e1, hext,
        window_longLong hnn htot (show cur.first_ ≤ cur.last_ + 1 + 1 by omega),
        Option.map_some']
      obtain ⟨cur', h1, h2, h3, h4, h5, h6⟩ := shiftFirstLoop_spec hnn htot a.length
        { cur with last_ := cur.last_ + 1,
                   efficiency_ :=
                     prefixEfficiency a (cur.last_ + 1 + 1) - prefixEfficiency a cur.first_ }
        hl1 (by simp only; omega) (by simp only; omega) rfl
        (by
          intro l hl'
          simp only at hl' ⊢
          have h1 := hinv.before l hl'
          have h2 := efficiencyAt_mono hs (Nat.le_add_right cur.last_ 1) hl1
          omega)
      simp only [h1]
      simp only at h2
      refine buildLoop_spec hnn htot hs fuel cur' _ ?_ (by omega)
      have hb := hinv.best
      refine ⟨by omega, by omega, fun _ => h3, h4, h5, ?_⟩
      by_cases hgt : cur'.efficiency_ > best.efficiency_
      · rw [if_pos hgt]
        refine ⟨by omega, by omega, Or.inr h6, h4, by have := hb.first; omega, ?_⟩
        intro R hR1 hR2
        rcases Nat.eq_or_lt_of_le hR2 with rfl | hlt
        · exact ⟨cur'.first_, h3, h5, by rw [h4]⟩
        · obtain ⟨f, hf1, hf2, hf3⟩ := hb.windows R hR1 (by omega)
          exact ⟨f, hf1, hf2, by omega⟩
      · rw [if_neg hgt]
        refine ⟨hb.le, by have := hb.lt; omega, hb.balanced, hb.efficiency, hb.first, ?_⟩
        intro R hR1 hR2
        rcases Nat.eq_or_lt_of_le hR2 with rfl | hlt
        · exact ⟨cur'.first_, h3, h5, by rw [← h4]; omega⟩
        · exact hb.windows R hR1 (by omega)

/-- The two intervals `buildMaxEfficiencyTeam` starts its loop with. -/
theorem loopInv_start {a : List Player} (hne : a ≠ []) (hnn : ∀ p ∈ a, 0 ≤ p.efficiency)
    (htot : totalEfficiency a < 2 ^ 63) :
    ∃ t, TeamInterval.new a 0 0 = some t ∧ LoopInv a t t := by
  cases a with
  | nil => exact absurd rfl hne
  | cons p rest =>
    have h1 : prefixEfficiency (p :: rest) 1 = p.efficiency := by
      simp [prefixEfficiency, totalEfficiency]
    have h0 : prefixEfficiency (p :: rest) 0 = 0 := prefixEfficiency_zero _
    have he : efficiencyAt (p :: rest) 0 = p.efficiency := by
      simp [efficiencyAt]
    have hw := window_longLong hnn htot (Nat.zero_le 1)
    rw [h1, h0, sub_zero] at hw
    refine ⟨⟨0, 0, p.efficiency⟩, ?_, ?_⟩
    · simp [TeamInterval.new, TeamInterval.calculate_efficiency_, TeamInterval.calculateLoop,
        hw]
    · refine ⟨by simp, le_refl _, fun h => absurd h (by simp), ?_,
        fun l hl => absurd hl (Nat.not_lt_zero _), ?_⟩
      · simp only [Nat.zero_add, h1, h0, sub_zero]
      · refine ⟨le_refl _, le_refl _, Or.inl rfl, ?_, ?_, ?_⟩
        · simp only [Nat.zero_add, h1, h0, sub_zero]
        · rw [he]
        · intro R hR1 hR0
          simp only at hR0
          omega

/-! ## The team of the best interval -/

theorem efficiency_le_of_inOrder {a : List Player} (h : InOrder CompareByEfficiency a) :
    a.Pairwise (fun p q => p.efficiency ≤ q.efficiency) := by
  refine List.Pairwise.imp ?_ h
  intro p q hpq
  rw [← Bool.not_eq_true, compareByEfficiency_iff] at hpq
  omega

theorem totalEfficiency_perm {l₁ l₂ : List Player} (h : l₁.Perm l₂) :
    totalEfficiency l₁ = totalEfficiency l₂ :=
  (h.map _).sum_eq

theorem Balanced.of_perm {l₁ l₂ : List Player} (h : Balanced l₁) (hp : l₂.Perm l₁) :
    Balanced l₂ :=
  fun x y z hs => h x y z (hs.trans hp.subperm)

theorem balanced_of_length_le_two {l : List Player} (h : l.length ≤ 2) : Balanced l := by
  intro x y z hs
  have := hs.length_le
  simp only [List.length_cons, List.length_nil] at this
  omega

theorem slice_length {a : List Player} {f l : Nat} (hl : l < a.length) :
    ((a.drop f).take (l + 1 - f)).length = l + 1 - f := by
  rw [List.length_take, List.length_drop]
  omega

theorem slice_getD {a : List Player} {f l t : Nat} (ht : t < l + 1 - f) :
    ((a.drop f).take (l + 1 - f)).getD t default = a.getD (f + t) default := by
  simp only [List.getD_eq_getElem?_getD, List.getElem?_take_of_lt ht, List.getElem?_drop]

theorem slice_total {a : List Player} {f l : Nat} (hfl : f ≤ l) :
    totalEfficiency ((a.drop f).take (l + 1 - f)) =
      prefixEfficiency a (l + 1) - prefixEfficiency a f := by
  have h := List.take_add a f (l + 1 - f)
  rw [show f + (l + 1 - f) = l + 1 by omega] at h
  simp only [prefixEfficiency, totalEfficiency, h, List.map_append, List.sum_append]
  omega

/-- An interval of the sorted vector whose last player has at most the efficiency of its
first two players together is balanced. -/
theorem slice_balanced {a : List Player}
    (hs : a.Pairwise (fun p q => p.efficiency ≤ q.efficiency)) {f l : Nat} (hfl : f ≤ l)
    (hl : l < a.length)
    (hb : f = l ∨ efficiencyAt a l ≤ efficiencyAt a f + efficiencyAt a (f + 1)) :
    Balanced ((a.drop f).take (l + 1 - f)) := by
  rcases hb with rfl | hb
  · exact balanced_of_length_le_two (by rw [slice_length hl]; omega)
  intro x y z hsub
  have hx : x ∈ (a.drop f).take (l + 1 - f) := hsub.subset (by simp)
  have hyz : [y, z].Subperm ((a.drop f).take (l + 1 - f)) :=
    (List.Sublist.subperm (List.sublist_cons_self x [y, z])).trans hsub
  clear hsub
  obtain ⟨t, ht, rfl⟩ := List.getElem_of_mem hx
  rw [slice_length hl] at ht
  have hx' : ((a.drop f).take (l + 1 - f))[t].efficiency = efficiencyAt a (f + t) := by
    rw [← List.getD_eq_getElem _ default, slice_getD ht]; rfl
  have hxl := efficiencyAt_mono hs (show f + t ≤ l by omega) hl
  obtain ⟨l', hp, hsl⟩ := hyz
  obtain ⟨is, hinc, hlt, rfl⟩ := sublist_indices hsl
  have hlen : is.length = 2 := by
    have := hp.length_eq
    simpa using this
  match is, hlen, hinc, hlt, hp with
  | [t1, t2], _, hinc, hlt, hp =>
    have h12 : t1 < t2 := (List.pairwise_cons.mp hinc).1 t2 (by simp)
    have ht2 := hlt t2 (by simp)
    rw [slice_length hl] at ht2
    have hsum := totalEfficiency_perm hp
    simp only [totalEfficiency, List.map_cons, List.map_nil, List.sum_cons, List.sum_nil,
      add_zero] at hsum
    rw [slice_getD (show t1 < l + 1 - f by omega), slice_getD ht2] at hsum
    have h1 := efficiencyAt_mono hs (show f ≤ f + t1 by omega) (by omega)
    have h2 := efficiencyAt_mono hs (show f + 1 ≤ f + t2 by omega) (by omega)
    simp only [efficiencyAt] at h1 h2 hb hxl hx'
    rw [hx']
    omega

/-- Constructor `Team` on an interval inside the vector returns the players of the
interval, ordered by `CompareById`, with the efficiency of the interval. -/
theorem Team_new_spec (a : List Player) {t : TeamInterval} (hfl : t.first_ ≤ t.last_)
    (hl : t.last_ < a.length) :
    ∃ team, Team.new a t = some team ∧ team.efficiency_ = t.efficiency_ ∧
      team.players_.Perm ((a.drop t.first_).take (t.last_ + 1 - t.first_)) ∧
      InOrder CompareById team.players_ := by
  obtain ⟨ys, e, hp, ho⟩ := sort_spec compareById_totalOrder.1
    ((a.drop t.first_).take (t.last_ + 1 - t.first_))
  refine ⟨⟨t.efficiency_, ys⟩, ?_, rfl, hp, ho⟩
  simp only [Team.new]
  rw [if_pos ⟨by omega, by omega⟩, e]
  rfl

/-- Efficiencies that are `int` values, of fewer than `2^31` players, as `ReadInput` and
`TestTeamCreate` supply them, have a sum that fits a `long long`. -/
theorem totalEfficiency_of_int_input {players : List Player}
    (hint : ∀ p ∈ players, p.efficiency < 2 ^ 31) (hlen : players.length < 2 ^ 31) :
    totalEfficiency players < 2 ^ 63 := by
  have key : ∀ l : List Player, (∀ p ∈ l, p.efficiency < 2 ^ 31) →
      totalEfficiency l ≤ (l.length : Int) * 2 ^ 31 := by
    intro l
    induction l with
    | nil => intro _; simp [totalEfficiency]
    | cons p l ih =>
      intro h
      have h1 := h p (by simp)
      have h2 := ih (fun q hq => h q (List.mem_cons_of_mem _ hq))
      simp only [totalEfficiency, List.map_cons, List.sum_cons, List.length_cons,
        Nat.cast_add, Nat.cast_one] at h2 ⊢
      omega
  have h := key players hint
  have hl : (players.length : Int) < 2 ^ 31 := by exact_mod_cast hlen
  omega

/-- Function `buildMaxEfficiencyTeam` on a non-empty vector of players with non-negative
efficiencies whose sum fits a `long long`: the team it returns, in terms of the sorted
vector `a` and of the best interval. -/
theorem buildMaxEfficiencyTeam_spec {players : List Player} (hne : players ≠ [])
    (hnn : ∀ p ∈ players, 0 ≤ p.efficiency) (htot : totalEfficiency players < 2 ^ 63) :
    ∃ a best team, a.Perm players ∧
      a.Pairwise (fun p q => p.efficiency ≤ q.efficiency) ∧
      BestOk a (a.length - 1) best ∧ best.last_ < a.length ∧
      buildMaxEfficiencyTeam players = some team ∧
      team.efficiency_ = best.efficiency_ ∧
      team.players_.Perm ((a.drop best.first_).take (best.last_ + 1 - best.first_)) ∧
      InOrder CompareById team.players_ := by
  obtain ⟨a, e1, hp, ho⟩ := sort_spec compareByEfficiency_totalOrder.1 players
  have hane : a ≠ [] := fun h => hne (by rw [h] at hp; exact hp.symm.eq_nil)
  have hann : ∀ p ∈ a, 0 ≤ p.efficiency := fun p hp' => hnn p (hp.mem_iff.mp hp')
  have hatot : totalEfficiency a < 2 ^ 63 := by rw [totalEfficiency_perm hp]; exact htot
  have hs := efficiency_le_of_inOrder ho
  obtain ⟨t, e2, hinv⟩ := loopInv_start hane hann hatot
  obtain ⟨best, e3, hbest⟩ := buildLoop_spec hann hatot hs a.length t t hinv (by omega)
  have hlen : 0 < a.length := List.length_pos.mpr hane
  have hbl : best.last_ < a.length := by have := hbest.lt; omega
  obtain ⟨team, e4, h1, h2, h3⟩ := Team_new_spec a hbest.le hbl
  refine ⟨a, best, team, hp, hs, hbest, hbl, ?_, h1, h2, h3⟩
  simp only [buildMaxEfficiencyTeam, e1, e2, e3, e4, Option.bind_eq_bind, Option.some_bind]

/-- Claim C20: for a non-empty list of players with non-negative efficiencies and
distinct ids, the efficiencies together within the range of `long long`,
`buildMaxEfficiencyTeam` returns a team of players of the list, each taken once, in which
no member's efficiency exceeds the sum of the efficiencies of two other members; its
`efficiency()` is the sum of the efficiencies of its members and is at least the total
efficiency of every selection of players of the list with that property, which every
selection of one or two players has.  The callers supply `int` efficiencies for fewer
than `2^31` players, whose sum is within the range (`totalEfficiency_of_int_input`). -/
theorem C20_team_is_balanced_and_best {players : List Player} (hne : players ≠ [])
    (hnn : ∀ p ∈ players, 0 ≤ p.efficiency) (htot : totalEfficiency players < 2 ^ 63)
    (hid : (players.map (·.id)).Nodup) :
    ∃ team, buildMaxEfficiencyTeam players = some team ∧
      team.players_.Subperm players ∧ (team.players_.map (·.id)).Nodup ∧
      Balanced team.players_ ∧
      team.efficiency = totalEfficiency team.players_ ∧
      (∀ other : List Player, other.Subperm players → Balanced other →
        totalEfficiency other ≤ team.efficiency) ∧
      ∀ other : List Player, other.length ≤ 2 → Balanced other := by
  obtain ⟨a, best, team, hp, hs, hbest, hbl, e, h1, h2, _⟩ :=
    buildMaxEfficiencyTeam_spec hne hnn htot
  have hann : ∀ p ∈ a, 0 ≤ p.efficiency := fun p hp' => hnn p (hp.mem_iff.mp hp')
  have hsub : team.players_.Subperm players :=
    h2.subperm.trans (((List.take_sublist _ _).trans (List.drop_sublist _ _)).subperm.trans
      hp.subperm)
  refine ⟨team, e, hsub, ?_, ?_, ?_, ?_, fun other => balanced_of_length_le_two⟩
  · obtain ⟨l, hl1, hl2⟩ := hsub
    exact ((hl1.map _).nodup_iff).mp (hid.sublist (hl2.map _))
  · exact (slice_balanced hs hbest.le hbl hbest.balanced).of_perm h2
  · show team.efficiency_ = _
    rw [h1, totalEfficiency_perm h2, slice_total hbest.le, hbest.efficiency]
  · intro other hother hbal
    obtain ⟨S, hS1, hS2⟩ := hother.trans hp.symm.subperm
    rw [← totalEfficiency_perm hS1]
    show totalEfficiency S ≤ team.efficiency_
    rw [h1]
    refine balanced_sum_le hann hs hbest.first ?_ hS2 (hbal.of_perm hS1)
    intro R hR1 hR2
    exact hbest.windows R hR1 (by omega)

/-- Witness of C20: the five players of the first test of `TestTeamCreateAll`. -/
theorem C20_team_is_balanced_and_best_witness :
    ∃ team, buildMaxEfficiencyTeam [⟨3, 1⟩, ⟨2, 2⟩, ⟨5, 3⟩, ⟨4, 4⟩, ⟨1, 5⟩] = some team ∧
      team.players_.Subperm [⟨3, 1⟩, ⟨2, 2⟩, ⟨5, 3⟩, ⟨4, 4⟩, ⟨1, 5⟩] ∧
      (team.players_.map (·.id)).Nodup ∧
      Balanced team.players_ ∧
      team.efficiency = totalEfficiency team.players_ ∧
      (∀ other : List Player, other.Subperm [⟨3, 1⟩, ⟨2, 2⟩, ⟨5, 3⟩, ⟨4, 4⟩, ⟨1, 5⟩] →
        Balanced other → totalEfficiency other ≤ team.efficiency) ∧
      ∀ other : List Player, other.length ≤ 2 → Balanced other :=
  C20_team_is_balanced_and_best (by decide) (by decide) (by decide) (by decide)

/-! ## The ids of the team -/

set_option maxRecDepth 100000 in
/-- The bound on the ids in `playersIds_ascending` cannot be dropped: for two players with
the ids `1` and `2^31`, both of efficiency 1, the team holds both players in the order of
their ids and `playersIds()` returns `1, -2147483648`, the conversion of the second id to
`int` having wrapped. -/
theorem playersIds_wraps_large_id :
    ∃ team, buildMaxEfficiencyTeam [⟨1, 1⟩, ⟨1, 2147483648⟩] = some team ∧
      team.players_.map (·.id) = [1, 2147483648] ∧
      team.playersIds = [1, -2147483648] ∧
      ¬ team.playersIds.Pairwise (· < ·) :=
  ⟨_, rfl, by decide, by decide, by decide⟩

/-- The team of `buildMaxEfficiencyTeam` holds players of the list, each once, in the
order of `CompareById`. -/
theorem team_members {players : List Player} (hne : players ≠ [])
    (hnn : ∀ p ∈ players, 0 ≤ p.efficiency) (htot : totalEfficiency players < 2 ^ 63) :
    ∃ team, buildMaxEfficiencyTeam players = some team ∧ team.players_.Subperm players ∧
      InOrder CompareById team.players_ := by
  obtain ⟨a, best, team, hp, _, _, _, e, _, h2, h3⟩ :=
    buildMaxEfficiencyTeam_spec hne hnn htot
  exact ⟨team, e, h2.subperm.trans
    (((List.take_sublist _ _).trans (List.drop_sublist _ _)).subperm.trans hp.subperm), h3⟩

/-- For players with distinct ids below `2^31`, `playersIds()` returns the ids of the
members of the team in strictly ascending order. -/
theorem playersIds_ascending {players : List Player} (hne : players ≠ [])
    (hnn : ∀ p ∈ players, 0 ≤ p.efficiency) (htot : totalEfficiency players < 2 ^ 63)
    (hid : (players.map (·.id)).Nodup) (hsmall : ∀ p ∈ players, p.id < 2 ^ 31) :
    ∃ team, buildMaxEfficiencyTeam players = some team ∧
      team.players_.Subperm players ∧
      team.playersIds = team.players_.map (fun p => (p.id : Int)) ∧
      team.playersIds.Pairwise (· < ·) := by
  obtain ⟨team, e, hsub, ho⟩ := team_members hne hnn htot
  have hids : team.playersIds = team.players_.map (fun p => (p.id : Int)) := by
    refine List.map_congr_left (fun p hp => ?_)
    simp only [unsignedToInt, if_pos (hsmall p (hsub.subset hp))]
  have hnd : (team.players_.map (·.id)).Nodup := by
    obtain ⟨l, hl1, hl2⟩ := hsub
    exact ((hl1.map _).nodup_iff).mp (hid.sublist (hl2.map _))
  refine ⟨team, e, hsub, hids, ?_⟩
  rw [hids, List.pairwise_map]
  have hne' : team.players_.Pairwise (fun p q => p.id ≠ q.id) := List.pairwise_map.mp hnd
  refine (List.Pairwise.and ho hne').imp ?_
  intro p q ⟨h1, h2⟩
  rw [← Bool.not_eq_true, compareById_iff] at h1
  have : p.id < q.id := by omega
  exact_mod_cast this

/-- Claim C21: for a non-empty list of players with non-negative efficiencies and
distinct ids, in the range the callers supply (the efficiencies together within
`long long`, the ids below `2^31`, as `ReadInput` and `TestTeamCreate` number the players
`i + 1` from an `int` index), `playersIds()` of the team that `buildMaxEfficiencyTeam`
returns is the list of the ids of the selected players, in strictly ascending order. -/
theorem C21_playersIds_strictly_ascending {players : List Player} (hne : players ≠ [])
    (hnn : ∀ p ∈ players, 0 ≤ p.efficiency) (htot : totalEfficiency players < 2 ^ 63)
    (hid : (players.map (·.id)).Nodup) (hsmall : ∀ p ∈ players, p.id < 2 ^ 31) :
    ∃ team, buildMaxEfficiencyTeam players = some team ∧
      team.players_.Subperm players ∧
      team.playersIds = team.players_.map (fun p => (p.id : Int)) ∧
      team.playersIds.Pairwise (· < ·) :=
  playersIds_ascending hne hnn htot hid hsmall

set_option maxRecDepth 100000 in
/-- Witness of C21: the five players of the first test of `TestTeamCreateAll`, for which
`playersIds()` returns `1, 2, 3, 4`. -/
theorem C21_playersIds_strictly_ascending_witness :
    ∃ team, buildMaxEfficiencyTeam [⟨3, 1⟩, ⟨2, 2⟩, ⟨5, 3⟩, ⟨4, 4⟩, ⟨1, 5⟩] = some team ∧
      team.playersIds = [1, 2, 3, 4] ∧ team.playersIds.Pairwise (· < ·) := by
  obtain ⟨team, e, _, _, h⟩ := @C21_playersIds_strictly_ascending
    [⟨3, 1⟩, ⟨2, 2⟩, ⟨5, 3⟩, ⟨4, 4⟩, ⟨1, 5⟩] (by decide) (by decide) (by decide) (by decide)
    (by decide)
  have e' : buildMaxEfficiencyTeam [⟨3, 1⟩, ⟨2, 2⟩, ⟨5, 3⟩, ⟨4, 4⟩, ⟨1, 5⟩] =
      some ⟨14, [⟨3, 1⟩, ⟨2, 2⟩, ⟨5, 3⟩, ⟨4, 4⟩]⟩ := by decide
  rw [e'] at e
  cases e
  exact ⟨_, e', by decide, h⟩

end FootballTeamModel
